import Mathlib

/-!
Future.h: deferred values for bare-metal firmware.

A shallow embedding of `src/src/Future.h`.

Memory model.  Every `future<R>` object and every `shared_state` object lives at
an address; the two tables of a `World` map addresses (list positions) to the
objects.  A `std::unique_ptr<shared_state>` is `Option Nat` (null or the address
of the owned node), a raw `shared_state*` in a continuation list is a `Nat`.
Member functions take the address of `this` and thread the `World`; a failed
address lookup (null or dangling pointer dereference, undefined behaviour in
C++) and exhausted fuel both give `none`.  Destructors are not modelled:
addresses are never reused.

Fuel.  `wait()` spins and the virtual calls nest, so every function that can
reach either takes a fuel argument and spends one unit per call.

Poll closures.  `is_done()` hands the closure the address of the future.  The
first set of functions (`future.is_done`, ...) is for closures that only report
the state of the hardware; the second set (`future.is_done_cb`, ...) takes as a
parameter what a closure does with that address (the header documents closures
that call `set_value` on it), so that a poll can itself launch continuations.
`report_only` shows that the two sets agree on closures that only report.

Uninitialised members.  `future()` and `future(state_ptr&&)` leave `done_` and
`result_` without an initialiser.  The model reads their initial contents from
`World.junk` at the address of the object under construction, so that theorems
quantify over whatever the storage happened to hold.
-/

/-! ## Interrupt mask (lines 50-64) -/

/-- Modelled from the spec: the CMSIS intrinsics of `nrf52840.h` (not part of this
repository).  `__get_PRIMASK()` reads the PRIMASK register. -/
def __get_PRIMASK (primask : Nat) : Nat := primask

/-- Modelled from the spec: `__disable_irq()` sets PRIMASK bit 0 (interrupts masked). -/
def __disable_irq (primask : Nat) : Nat := primask ||| 1

/-- Modelled from the spec: `__enable_irq()` clears PRIMASK bit 0 (interrupts delivered). -/
def __enable_irq (primask : Nat) : Nat := primask - primask % 2

/-- Interrupt delivery is enabled exactly when PRIMASK bit 0 is clear. -/
def interrupts_enabled (primask : Nat) : Bool := primask % 2 == 0

/-- The guard object: its only member is `m_needs_enable`. -/
structure unique_irqlock where
  m_needs_enable : Bool
deriving DecidableEq, Repr

/-- Source: `bool irqs_enabled() { return (__get_PRIMASK() & 1) == 1; }`. -/
def unique_irqlock.irqs_enabled (primask : Nat) : Bool :=
  (__get_PRIMASK primask &&& 1) == 1

/-- Constructor: `m_needs_enable(irqs_enabled())`, then `__disable_irq()`.
Returns the guard and the new PRIMASK. -/
def unique_irqlock.ctor (primask : Nat) : unique_irqlock × Nat :=
  ({ m_needs_enable := unique_irqlock.irqs_enabled primask }, __disable_irq primask)

/-- Destructor: `if (m_needs_enable) { __enable_irq(); }`. -/
def unique_irqlock.dtor (self : unique_irqlock) (primask : Nat) : Nat :=
  if self.m_needs_enable then __enable_irq primask else primask

/-! ## Racy accessors (lines 65-76) -/

/-- Source: `return *static_cast<const volatile T*>(target);`. -/
def volatile_load {T : Type} (target : T) : T := target

/-- Source: `*static_cast<volatile T*>(target) = value;` (the new content of `*target`). -/
def volatile_store {T : Type} (_target : T) (value : T) : T := value

/-! ## Objects -/

/-- A `std::function<bool(future*)>` supplied by a driver.  The driver code is
outside the header; a closure is given by the answer of each of its invocations
and the number of invocations made so far (its private state).  What the
closure does with the `future*` it is handed is not part of this record: the
functions `is_done`, `wait`, `get` and those built on them take closures that
only report, and the functions with the suffix `_cb` take that effect as a
parameter (a closure may call `set_value` on the future, as the header
documents). -/
structure done_callback where
  answers : Nat → Bool
  calls : Nat

/-- Invoke the closure: its answer and the closure afterwards. -/
def done_callback.invoke (cb : done_callback) : Bool × done_callback :=
  (cb.answers cb.calls, { cb with calls := cb.calls + 1 })

/-- The members of `future<R>` (lines 133-136). -/
structure future (R : Type) where
  done_ : Bool
  done_callback_ : Option done_callback
  result_ : R
  state_ : Option Nat

/-- The callable handed to `then`.  User code is outside the header; these are
the two shapes of its API comment (lines 39-47):
`wrapped g` is `[](future p) { return make_ready_future(g(p.get())); }` and
`chained_read cb` is `[](future p) { return do_next_read(); }`, where
`do_next_read()` returns a `dma_future` with the poll closure `cb`. -/
inductive ContinuationF (R : Type) where
  | wrapped (g : R → R)
  | chained_read (cb : done_callback)

/-- Dynamic type of a node: plain `shared_state`, the header's
`continuation_shared_state` (its three members; the two futures are member
objects, given by their addresses), or a client subclass whose
`launch_continuation()` override calls `target->set_continuation_ptr(extra)`
for each listed pair. -/
inductive detail.dynamic_type (R : Type) where
  | shared_state
  | continuation_shared_state (precondition_ : Nat) (continuation_ : ContinuationF R)
      (alt_precondition_ : Nat)
  | client (registers : List (Nat × Nat))

/-- A `shared_state` object: the continuation list and the dynamic type. -/
structure detail.shared_state (R : Type) where
  continuations : List Nat
  dyn : detail.dynamic_type R

/-- Memory and environment. `launched` is a ghost trace: the addresses on which
`launch_continuation()` was invoked, in call order. -/
structure World (R : Type) where
  futures : List (future R)
  nodes : List (detail.shared_state R)
  launched : List Nat
  junk : Nat → Bool × R

variable {R : Type}

/-- Overwrite the future object at address `self`. -/
def World.put (w : World R) (self : Nat) (obj : future R) : World R :=
  { w with futures := w.futures.set self obj }

/-- Overwrite the node at address `self`. -/
def World.put_node (w : World R) (self : Nat) (node : detail.shared_state R) : World R :=
  { w with nodes := w.nodes.set self node }

/-- The continuation list of the node at `n` (empty if there is no such node). -/
def World.continuations_of (w : World R) (n : Nat) : List Nat :=
  match w.nodes[n]? with
  | some node => node.continuations
  | none => []

/-! ## `future<R>`: construction and moves (lines 130-160) -/

/-- Source: `constexpr future() : state_(std::make_unique<detail::shared_state>()) {}`.
A new future object and a new plain node; `done_` and `result_` are not
initialised. Returns the address of the new object. -/
def future.ctor (w : World R) : Nat × World R :=
  let self := w.futures.length
  let j := w.junk self
  (self,
    { w with
      futures := w.futures ++
        [{ done_ := j.1, done_callback_ := none, result_ := j.2,
           state_ := some w.nodes.length }],
      nodes := w.nodes ++ [{ continuations := [], dyn := .shared_state }] })

/-- Source: `explicit future(state_ptr&& state) : state_(std::move(state)) {}`.
`done_` and `result_` are not initialised. -/
def future.ctor_state (w : World R) (state : Option Nat) : Nat × World R :=
  let self := w.futures.length
  let j := w.junk self
  (self,
    { w with
      futures := w.futures ++
        [{ done_ := j.1, done_callback_ := none, result_ := j.2, state_ := state }] })

/-- Source: `future(future&& other)`: a new object taking all four members; the
source's `unique_ptr` is left null and its `std::function` empty. -/
def future.move_ctor (w : World R) (other : Nat) : Option (Nat × World R) :=
  match w.futures[other]? with
  | none => none
  | some o =>
    let self := w.futures.length
    let w1 : World R := { w with futures := w.futures ++ [o] }
    some (self, w1.put other { o with done_callback_ := none, state_ := none })

/-- Source: `future& operator=(future&& other)`, for two distinct objects (a
self-assignment leaves `unique_ptr` and `std::function` as they are). -/
def future.move_assign (w : World R) (self other : Nat) : Option (World R) :=
  match w.futures[other]? with
  | none => none
  | some o =>
    if self < w.futures.length then
      some ((w.put self o).put other { o with done_callback_ := none, state_ := none })
    else none

/-- Source: `void set_done() { volatile_store(&done_, true); }`. -/
def future.set_done (w : World R) (self : Nat) : Option (World R) :=
  match w.futures[self]? with
  | none => none
  | some me => some (w.put self { me with done_ := volatile_store me.done_ true })

/-- Source: `done_callback_ = std::move(f);`. -/
def future.set_done_callback (w : World R) (self : Nat) (f : done_callback) :
    Option (World R) :=
  match w.futures[self]? with
  | none => none
  | some me => some (w.put self { me with done_callback_ := some f })

/-- Header lines 42-43: a `dma_future` is `future()`, then `set_done_callback`. -/
def dma_future (w : World R) (cb : done_callback) : Option (Nat × World R) :=
  let a := future.ctor w
  match future.set_done_callback a.2 a.1 cb with
  | none => none
  | some w1 => some (a.1, w1)

/-! ## `is_done` and `prereqs_done` (lines 161-176, 91, 262-270) -/

mutual

/-- Source: `bool future::is_done()`. -/
def future.is_done : Nat → World R → Nat → Option (Bool × World R)
  | 0, _, _ => none
  | fuel + 1, w, self =>
    match w.futures[self]? with
    | none => none
    | some me =>
      match me.done_callback_ with
      | some cb =>
        -- if (done_callback_) { if (!done_callback_(this)) return false; set_done(); return true; }
        let r := cb.invoke
        let w1 := w.put self { me with done_callback_ := some r.2 }
        if !r.1 then some (false, w1)
        else
          match future.set_done w1 self with
          | none => none
          | some w2 => some (true, w2)
      | none =>
        match me.state_ with
        | some n =>
          -- if (state_ && !state_->prereqs_done()) { return false; }
          match detail.shared_state.prereqs_done fuel w n with
          | none => none
          | some (false, w1) => some (false, w1)
          | some (true, w1) =>
            match w1.futures[self]? with
            | none => none
            | some me1 => some (volatile_load me1.done_, w1)
        | none => some (volatile_load me.done_, w)

/-- Source: `virtual bool prereqs_done()`, dispatched on the dynamic type:
`shared_state::prereqs_done` returns true; the override of
`continuation_shared_state` is lines 262-270. -/
def detail.shared_state.prereqs_done : Nat → World R → Nat → Option (Bool × World R)
  | 0, _, _ => none
  | fuel + 1, w, self =>
    match w.nodes[self]? with
    | none => none
    | some node =>
      match node.dyn with
      | .shared_state => some (true, w)
      | .client _ => some (true, w)
      | .continuation_shared_state precondition_ _ alt_precondition_ =>
        match w.futures[precondition_]?, w.futures[alt_precondition_]? with
        | some pre, some alt =>
          if pre.state_.isSome then future.is_done fuel w precondition_
          else if alt.state_.isSome then future.is_done fuel w alt_precondition_
          else some (true, w)
        | _, _ => none

end

/-- Source: `void wait() { while (!is_done()) {} }`. -/
def future.wait : Nat → World R → Nat → Option (World R)
  | 0, _, _ => none
  | fuel + 1, w, self =>
    match future.is_done fuel w self with
    | none => none
    | some (true, w1) => some w1
    | some (false, w1) => future.wait fuel w1 self

/-- Source: `R get() { wait(); return std::move(result_); }`. The slot keeps its
value (a move of `uint8_t` or `bool` is a copy). -/
def future.get (fuel : Nat) (w : World R) (self : Nat) : Option (R × World R) :=
  match future.wait fuel w self with
  | none => none
  | some w1 =>
    match w1.futures[self]? with
    | none => none
    | some me => some (me.result_, w1)

/-! ## `shared_state` (lines 80-107) and the continuation node (lines 242-275) -/

/-- Source: `shared_state::set_continuation_ptr`.  The statement
`unique_irqlock lock();` declares a function and constructs no guard, so the
body is the `push_back` alone. -/
def detail.shared_state.set_continuation_ptr (w : World R) (self continuation : Nat) :
    Option (World R) :=
  match w.nodes[self]? with
  | none => none
  | some node =>
    some (w.put_node self { node with continuations := node.continuations ++ [continuation] })

/-- Run `step` on each element in order (the body of a range-`for`). -/
def for_each {A : Type} (step : World R → A → Option (World R)) :
    List A → World R → Option (World R)
  | [], w => some w
  | a :: rest, w =>
    match step w a with
    | none => none
    | some w1 => for_each step rest w1

mutual

/-- Source: `void shared_state::do_continuation()`. -/
def detail.shared_state.do_continuation : Nat → World R → Nat → Option (World R)
  | 0, _, _ => none
  | fuel + 1, w, self =>
    match w.nodes[self]? with
    | none => none
    | some node =>
      if node.continuations.isEmpty then some w
      else
        -- the list is moved out and the member cleared before the loop
        let the_continuations := node.continuations
        let w1 := w.put_node self { node with continuations := [] }
        for_each (fun wi cont => detail.shared_state.launch_continuation fuel wi cont)
          the_continuations w1
termination_by structural fuel => fuel

/-- Source: `virtual void launch_continuation()`, dispatched on the dynamic type:
`shared_state::launch_continuation` is empty; the override of
`continuation_shared_state` is lines 271-274. Every invocation is recorded in
`launched`. -/
def detail.shared_state.launch_continuation : Nat → World R → Nat → Option (World R)
  | 0, _, _ => none
  | fuel + 1, w, self =>
    match w.nodes[self]? with
    | none => none
    | some node =>
      let w0 : World R := { w with launched := w.launched ++ [self] }
      match node.dyn with
      | .shared_state => some w0
      | .client registers =>
        for_each (fun wi r => detail.shared_state.set_continuation_ptr wi r.1 r.2) registers w0
      | .continuation_shared_state precondition_ continuation_ alt_precondition_ =>
        -- alt_precondition_ = continuation_(std::move(precondition_));
        match ContinuationF.call fuel w0 continuation_ precondition_ with
        | none => none
        | some (ret, w1) =>
          match future.move_assign w1 alt_precondition_ ret with
          | none => none
          | some w2 =>
            -- precondition_ = PreconditionFuture(std::unique_ptr<shared_state>());
            let tmp := future.ctor_state w2 none
            future.move_assign tmp.2 precondition_ tmp.1
termination_by structural fuel => fuel

/-- Invoke the user callable on the precondition; returns the address of the
future it returns. -/
def ContinuationF.call : Nat → World R → ContinuationF R → Nat → Option (Nat × World R)
  | 0, _, _, _ => none
  | fuel + 1, w, .wrapped g, p =>
    match future.get fuel w p with
    | none => none
    | some (r, w1) => make_ready_future fuel w1 (g r)
  | _ + 1, w, .chained_read cb, _ => dma_future w cb
termination_by structural fuel => fuel

/-- Source: `make_ready_future` (lines 225-237): `future<T> f; f.set_value(x); return f;`.
The returned object is `f` itself (the copy is elided). -/
def make_ready_future : Nat → World R → R → Option (Nat × World R)
  | 0, _, _ => none
  | fuel + 1, w, x =>
    let f := future.ctor w
    match future.set_value fuel f.2 f.1 x with
    | none => none
    | some w1 => some (f.1, w1)
termination_by structural fuel => fuel

/-- Source: `void set_value(R&& r) { mark_finished_with_result(std::move(r)); }`. -/
def future.set_value : Nat → World R → Nat → R → Option (World R)
  | 0, _, _, _ => none
  | fuel + 1, w, self, r => future.mark_finished_with_result fuel w self r
termination_by structural fuel => fuel

/-- Source: `mark_finished_with_result`: `result_ = std::move(result); set_done();
state_->do_continuation();`. -/
def future.mark_finished_with_result : Nat → World R → Nat → R → Option (World R)
  | 0, _, _, _ => none
  | fuel + 1, w, self, result =>
    match w.futures[self]? with
    | none => none
    | some me =>
      match future.set_done (w.put self { me with result_ := result }) self with
      | none => none
      | some w1 =>
        match me.state_ with
        | none => none
        | some n => detail.shared_state.do_continuation fuel w1 n
termination_by structural fuel => fuel

end

/-- Source: `future::set_continuation_ptr` (lines 201-206). -/
def future.set_continuation_ptr (fuel : Nat) (w : World R) (self continuation : Nat) :
    Option (World R) :=
  match w.futures[self]? with
  | none => none
  | some me =>
    match me.state_ with
    | none => none
    | some n =>
      match detail.shared_state.set_continuation_ptr w n continuation with
      | none => none
      | some w1 =>
        match future.is_done fuel w1 self with
        | none => none
        | some (false, w2) => some w2
        | some (true, w2) =>
          -- line 204 reads `state_` again
          match (w2.futures[self]?).bind (fun me2 => me2.state_) with
          | none => none
          | some n2 => detail.shared_state.do_continuation fuel w2 n2

/-- Source: `void init() { precondition_.set_continuation_ptr(this); }`. -/
def detail.continuation_shared_state.init (fuel : Nat) (w : World R) (self : Nat) :
    Option (World R) :=
  match w.nodes[self]? with
  | none => none
  | some node =>
    match node.dyn with
    | .continuation_shared_state precondition_ _ _ =>
      future.set_continuation_ptr fuel w precondition_ self
    | _ => none

/-- Source: `make_continuation_future` (lines 280-287).  The node's constructor
move-constructs `precondition_` from `f` and builds `alt_precondition_` from a
null handle; the returned future is `future<Return>(std::move(h))`. -/
def detail.make_continuation_future (fuel : Nat) (w : World R) (f : Nat)
    (c : ContinuationF R) : Option (Nat × World R) :=
  match future.move_ctor w f with
  | none => none
  | some (pre, w1) =>
    let alt := future.ctor_state w1 none
    let w2 := alt.2
    let h := w2.nodes.length
    let w3 : World R :=
      { w2 with nodes := w2.nodes ++
          [{ continuations := [], dyn := .continuation_shared_state pre c alt.1 }] }
    match detail.continuation_shared_state.init fuel w3 h with
    | none => none
    | some w4 => some (future.ctor_state w4 (some h))

/-- Source: `future::then` (lines 208-216). -/
def future.then_ (fuel : Nat) (w : World R) (self : Nat) (func : ContinuationF R) :
    Option (Nat × World R) :=
  detail.make_continuation_future fuel w self func

/-- The loop of `do_continuation`: `launch_continuation()` on each entry, in order. -/
def detail.shared_state.launch_each (fuel : Nat) (cs : List Nat) (w : World R) :
    Option (World R) :=
  for_each (fun wi cont => detail.shared_state.launch_continuation fuel wi cont) cs w

/-! ## Vocabulary of the statements -/

/-- The nodes that the registrations `regs` (pairs target, node) append to the
list of node `n`, in order. -/
def onto (n : Nat) (regs : List (Nat × Nat)) : List Nat :=
  (regs.filter (fun r => r.1 == n)).map Prod.snd

/-- The registrations that `launch_continuation()` on node `c` performs: those of
a client subclass; none for the two node types of the header. -/
def World.regs_of (w : World R) (c : Nat) : List (Nat × Nat) :=
  match w.nodes[c]? with
  | none => []
  | some node =>
    match node.dyn with
    | .client registers => registers
    | _ => []

/-- The dynamic type of the node at `m`. -/
def World.dyn_of (w : World R) (m : Nat) : Option (detail.dynamic_type R) :=
  (w.nodes[m]?).map (fun node => node.dyn)

/-- The memory after the continuation list of node `n` was moved out. -/
def World.drain (w : World R) (n : Nat) : World R :=
  match w.nodes[n]? with
  | none => w
  | some node => w.put_node n { node with continuations := [] }

/-- The memory after `result_ = v` and `set_done()` on the future at `self`. -/
def World.store (w : World R) (self : Nat) (v : R) : World R :=
  match w.futures[self]? with
  | none => w
  | some me => w.put self { me with result_ := v, done_ := true }

/-- What a run of launches does to the node table and the trace: `ls` is appended
to the trace, every existing list grows by what `rs` registers on it, and no
node changes the registrations it will perform. -/
def World.Step (w w1 : World R) (ls : List Nat) (rs : List (Nat × Nat)) : Prop :=
  w1.launched = w.launched ++ ls
  ∧ w.nodes.length ≤ w1.nodes.length
  ∧ (∀ m, m < w.nodes.length → w1.continuations_of m = w.continuations_of m ++ onto m rs)
  ∧ (∀ m, w1.regs_of m = w.regs_of m)

/-! ## Reference definition and scenarios -/

/-- The three-step reference definition of `is_done()`, in the words of the
specification: (a) with a poll closure attached the result is the closure's
answer and the flag is set when that answer is true; (b) otherwise a node whose
`prereqs_done()` is false gives false; (c) otherwise the current flag. -/
def is_done_reference (fuel : Nat) (w : World R) (self : Nat) : Option (Bool × World R) :=
  match w.futures[self]? with
  | none => none
  | some me =>
    match me.done_callback_ with
    | some cb =>
      let answer := cb.answers cb.calls
      some (answer,
        w.put self
          { me with
            done_callback_ := some { cb with calls := cb.calls + 1 },
            done_ := answer || me.done_ })
    | none =>
      match me.state_ with
      | none => some (me.done_, w)
      | some n =>
        match detail.shared_state.prereqs_done fuel w n with
        | none => none
        | some (ready, w1) =>
          if ready = false then some (false, w1)
          else (w1.futures[self]?).map (fun me1 => (me1.done_, w1))

/-- Result values of the header's API comment: `uint8_t | bool`. -/
inductive Val where
  | int (i : Int)
  | bool (b : Bool)
deriving DecidableEq, Repr

/-- An empty memory whose uninitialised storage reads `done_ = d`, `result_ = r`. -/
def World.empty (d : Bool) (r : R) : World R :=
  { futures := [], nodes := [], launched := [], junk := fun _ => (d, r) }

/-- A poll closure that first answers true on its `n`-th invocation (counted
from 1) and keeps answering true afterwards. -/
def done_callback.first_true_at (n : Nat) : done_callback :=
  { answers := fun k => decide (n ≤ k + 1), calls := 0 }

/-- A poll closure that answers true on its first invocation only. -/
def done_callback.true_once : done_callback :=
  { answers := fun k => k == 0, calls := 0 }

/-- The answers of `k` successive `is_done()` calls on the future at `self`. -/
def poll (fuel : Nat) : Nat → World R → Nat → Option (List Bool × World R)
  | 0, w, _ => some ([], w)
  | k + 1, w, self =>
    match future.is_done fuel w self with
    | none => none
    | some (b, w1) =>
      match poll fuel k w1 self with
      | none => none
      | some (bs, w2) => some (b :: bs, w2)

/-- The observable part of a future object: flag, result, node handle and the
number of polls its closure has served (none without a closure). -/
structure future.View (R : Type) where
  done_ : Bool
  result_ : R
  state_ : Option Nat
  polls : Option Nat
deriving DecidableEq, Repr

/-- The observable part of the future object at `self`. -/
def World.view (w : World R) (self : Nat) : Option (future.View R) :=
  (w.futures[self]?).map (fun f =>
    { done_ := f.done_, result_ := f.result_, state_ := f.state_,
      polls := f.done_callback_.map (fun cb => cb.calls) })

/-- The scenario `A = make_ready_future(v); F = A.then(c)` with
`c(p) = make_ready_future(g(p.get()))`, in an empty memory whose uninitialised
storage reads flag `d` and result `r0`. -/
def ready_chain (fuel : Nat) (d : Bool) (r0 v : R) (g : R → R) : Option (Nat × World R) :=
  match make_ready_future fuel (World.empty d r0) v with
  | none => none
  | some (a, w1) => future.then_ fuel w1 a (.wrapped g)

/-- The memory that `ready_chain` ends in: `A` moved from (address 0), the
emptied `precondition_` (1), `alt_precondition_` holding the continuation's
result (2), two moved-from temporaries (3, 4) and the returned future (5). -/
def chained_world (d : Bool) (r0 v : R) (g : R → R) : World R :=
  { futures :=
      [{ done_ := true, done_callback_ := none, result_ := v, state_ := none },
       { done_ := d, done_callback_ := none, result_ := r0, state_ := none },
       { done_ := true, done_callback_ := none, result_ := g v, state_ := some 2 },
       { done_ := true, done_callback_ := none, result_ := g v, state_ := none },
       { done_ := d, done_callback_ := none, result_ := r0, state_ := none },
       { done_ := d, done_callback_ := none, result_ := r0, state_ := some 1 }],
    nodes :=
      [{ continuations := [], dyn := .shared_state },
       { continuations := [], dyn := .continuation_shared_state 1 (.wrapped g) 2 },
       { continuations := [], dyn := .shared_state }],
    launched := [1],
    junk := fun _ => (d, r0) }

/-- Scenario: `A` polled, first done on poll `n`; `F = A.then(c)` where `c` returns
a polled future `B`, first done on its poll `m`; uninitialised storage reads
flag `d` and result `r0`. -/
def polled_chain (fuel : Nat) (n m : Nat) (d : Bool) (r0 : R) : Option (Nat × World R) :=
  match dma_future (World.empty d r0) (done_callback.first_true_at n) with
  | none => none
  | some (a, w1) =>
    future.then_ fuel w1 a (.chained_read (done_callback.first_true_at m))

/-- The memory of `polled_chain` while the continuation has not been launched:
the closure of `A` (now in `precondition_`, address 1) has served `j` polls and
the flag of `precondition_` is `b`; the returned future is at address 3. -/
def waiting_world (n m : Nat) (d : Bool) (r0 : R) (j : Nat) (b : Bool) : World R :=
  { futures :=
      [{ done_ := d, done_callback_ := none, result_ := r0, state_ := none },
       { done_ := b,
         done_callback_ :=
           some { answers := (done_callback.first_true_at n).answers, calls := j },
         result_ := r0, state_ := some 0 },
       { done_ := d, done_callback_ := none, result_ := r0, state_ := none },
       { done_ := d, done_callback_ := none, result_ := r0, state_ := some 1 }],
    nodes :=
      [{ continuations := [1], dyn := .shared_state },
       { continuations := [],
         dyn := .continuation_shared_state 1
           (.chained_read (done_callback.first_true_at m)) 2 }],
    launched := [],
    junk := fun _ => (d, r0) }

/-- The memory of `polled_chain` after the continuation was launched inside
`then` (`A` done on its first poll): `B` sits in `alt_precondition_` (address 2),
its closure has served `j` polls and its flag is `b`; the returned future is at
address 5. -/
def launched_world (m : Nat) (d : Bool) (r0 : R) (j : Nat) (b : Bool) : World R :=
  { futures :=
      [{ done_ := d, done_callback_ := none, result_ := r0, state_ := none },
       { done_ := d, done_callback_ := none, result_ := r0, state_ := none },
       { done_ := b,
         done_callback_ :=
           some { answers := (done_callback.first_true_at m).answers, calls := j },
         result_ := r0, state_ := some 2 },
       { done_ := d, done_callback_ := none, result_ := r0, state_ := none },
       { done_ := d, done_callback_ := none, result_ := r0, state_ := none },
       { done_ := d, done_callback_ := none, result_ := r0, state_ := some 1 }],
    nodes :=
      [{ continuations := [], dyn := .shared_state },
       { continuations := [],
         dyn := .continuation_shared_state 1
           (.chained_read (done_callback.first_true_at m)) 2 },
       { continuations := [], dyn := .shared_state }],
    launched := [1],
    junk := fun _ => (d, r0) }

/-- A single polled future (address 0) whose closure answers by `answers` and has
served `j` polls; its flag is `b`. -/
def polling_world (d : Bool) (r0 : R) (answers : Nat → Bool) (j : Nat) (b : Bool) :
    World R :=
  { futures :=
      [{ done_ := b, done_callback_ := some { answers := answers, calls := j },
         result_ := r0, state_ := some 0 }],
    nodes := [{ continuations := [], dyn := .shared_state }],
    launched := [],
    junk := fun _ => (d, r0) }

/-- A node (address 0) with two dependents: a client node (address 1) whose
launch registers node 3 on node 0, and a plain node (address 2). -/
def drain_world : World Val :=
  { futures := [],
    nodes :=
      [{ continuations := [1, 2], dyn := .shared_state },
       { continuations := [], dyn := .client [(0, 3)] },
       { continuations := [], dyn := .shared_state },
       { continuations := [], dyn := .shared_state }],
    launched := [],
    junk := fun _ => (false, Val.int 0) }

/-- The memory inside `make_continuation_future` just before `init()`: the
precondition (address 1, owning node 0) with flag `d` and result `r`, the
empty `alt_precondition_` (address 2) and the continuation node (address 1)
with `c(p) = make_ready_future(p.get() == 5)`; `cs` is the list of node 0. -/
def chain_world (d : Bool) (r : Val) (cs : List Nat) : World Val :=
  { futures :=
      [{ done_ := d, done_callback_ := none, result_ := r, state_ := none },
       { done_ := d, done_callback_ := none, result_ := r, state_ := some 0 },
       { done_ := false, done_callback_ := none, result_ := Val.int 0, state_ := none }],
    nodes :=
      [{ continuations := cs, dyn := .shared_state },
       { continuations := [],
         dyn := .continuation_shared_state 1 (.wrapped (fun v => Val.bool (v == Val.int 5))) 2 }],
    launched := [],
    junk := fun _ => (false, Val.int 0) }

/-- A polled future (address 0, first done on poll 2) owning node 0, and a plain
node (address 1) not yet registered. -/
def polled_world : World Val :=
  { futures :=
      [{ done_ := false, done_callback_ := some (done_callback.first_true_at 2),
         result_ := Val.int 0, state_ := some 0 }],
    nodes :=
      [{ continuations := [], dyn := .shared_state },
       { continuations := [], dyn := .shared_state }],
    launched := [],
    junk := fun _ => (false, Val.int 0) }

/-! ## Vocabulary of the later statements -/

/-- Whether the future at `a` holds a non-empty node handle. -/
def World.live (w : World R) (a : Nat) : Bool :=
  ((w.futures[a]?).bind (fun f => f.state_)).isSome

/-- The completion flag of the future at `a`. -/
def World.flag (w : World R) (a : Nat) : Option Bool :=
  (w.futures[a]?).map (fun f => f.done_)

/-- Source: `shared_state::set_continuation_ptr` (lines 103-106) with the
interrupt mask threaded through. `unique_irqlock lock();` declares a function
named `lock`; no guard object exists, so neither its constructor nor its
destructor runs and PRIMASK is not written. Returns PRIMASK at the `push_back`,
the memory after it, and PRIMASK on return. -/
def detail.shared_state.set_continuation_ptr_irq (primask : Nat) (w : World R)
    (self continuation : Nat) : Option (Nat × World R × Nat) :=
  match detail.shared_state.set_continuation_ptr w self continuation with
  | none => none
  | some w1 => some (primask, w1, primask)

/-- The append as the specification describes it: a `unique_irqlock` is
constructed before the `push_back` and destroyed after it. Same triple as
`set_continuation_ptr_irq`. -/
def set_continuation_ptr_guarded (primask : Nat) (w : World R) (self continuation : Nat) :
    Option (Nat × World R × Nat) :=
  let lock := unique_irqlock.ctor primask
  match detail.shared_state.set_continuation_ptr w self continuation with
  | none => none
  | some w1 => some (lock.2, w1, lock.1.dtor lock.2)

/-- The answer that the poll closure of the future at `self` gives on its
invocation number `i` (counted from 0); none without a closure. -/
def World.answer (w : World R) (self i : Nat) : Option Bool :=
  (w.futures[self]?).bind (fun f => f.done_callback_.map (fun cb => cb.answers i))

/-- The number of polls that the closure of the future at `self` has served. -/
def World.polls (w : World R) (self : Nat) : Option Nat :=
  (w.futures[self]?).bind (fun f => f.done_callback_.map (fun cb => cb.calls))

/-- The member futures of the node at `c`: `precondition_` and
`alt_precondition_` of a continuation node; none for the other node types. -/
def World.node_members (w : World R) (c : Nat) : List Nat :=
  match w.dyn_of c with
  | some (.continuation_shared_state p _ q) => [p, q]
  | _ => []

/-- What polling may do to one future object: the handle and the result stay,
a set flag stays set, and the closure keeps its answers (it only counts). -/
def future.advanced (f g : future R) : Prop :=
  g.state_ = f.state_
  ∧ g.result_ = f.result_
  ∧ (f.done_ = true → g.done_ = true)
  ∧ g.done_callback_.map (fun cb => cb.answers) = f.done_callback_.map (fun cb => cb.answers)

/-- What polling may do to the future objects of a memory. -/
def World.advanced (w w1 : World R) : Prop :=
  w1.futures.length = w.futures.length
  ∧ ∀ (x : Nat) (f g : future R),
      w.futures[x]? = some f → w1.futures[x]? = some g → future.advanced f g

/-- The calls by which the holder of a future observes it. -/
inductive future.call where
  | is_done
  | wait
  | get
deriving DecidableEq, Repr

/-- One observing call on the future at `self`; the memory afterwards. -/
def future.run_call (fuel : Nat) (w : World R) : Nat × future.call → Option (World R)
  | (self, .is_done) => (future.is_done fuel w self).map Prod.snd
  | (self, .wait) => future.wait fuel w self
  | (self, .get) => (future.get fuel w self).map Prod.snd

/-- A sequence of observing calls, each on the future it names. -/
def future.run_calls (fuel : Nat) (calls : List (Nat × future.call)) (w : World R) :
    Option (World R) :=
  for_each (fun wi c => future.run_call fuel wi c) calls w

/-- What a run of launches does to everything but the lists: nodes keep their
dynamic type, new nodes have no member futures, no future disappears, and a set
completion flag stays set on every future outside `T`, the targets of the
move-assignments made. -/
def World.Grow (w w1 : World R) (T : List Nat) : Prop :=
  w.nodes.length ≤ w1.nodes.length
  ∧ (∀ m : Nat, m < w.nodes.length → w1.dyn_of m = w.dyn_of m)
  ∧ (∀ m : Nat, w1.node_members m = w.node_members m)
  ∧ w.futures.length ≤ w1.futures.length
  ∧ (∀ x : Nat, x ∉ T → w.flag x = some true → w1.flag x = some true)

/-- The futures polled on behalf of the future at `a`: the members of the node
that it holds (none when it holds no node). -/
def World.prereqs (w : World R) (a : Nat) : List Nat :=
  match (w.futures[a]?).bind (fun f => f.state_) with
  | some n => w.node_members n
  | none => []

/-- Two memories seen through a move from `s` to `d`: the same nodes, the same
objects at the addresses of `L`, and at `d` in the second memory the object that
`s` holds in the first. -/
def World.Moved (L : List Nat) (s d : Nat) (w w1 : World R) : Prop :=
  w1.nodes = w.nodes
  ∧ (∀ a : Nat, a ∈ L → w1.futures[a]? = w.futures[a]?)
  ∧ w1.futures[d]? = w.futures[s]?

/-- Two runs fail together, or return the same value in memories that are
still related by the move. -/
def World.moved_results {A : Type} (L : List Nat) (s d : Nat)
    (r r1 : Option (A × World R)) : Prop :=
  match r, r1 with
  | none, none => True
  | some x, some y => y.1 = x.1 ∧ World.Moved L s d x.2 y.2
  | _, _ => False

/-- Two runs without a value fail together, or end in memories that are still
related by the move. -/
def World.moved_worlds (L : List Nat) (s d : Nat) (r r1 : Option (World R)) : Prop :=
  match r, r1 with
  | none, none => True
  | some x, some y => World.Moved L s d x y
  | _, _ => False

/-! ## Poll closures that fulfil the future they are handed

`is_done()` invokes `done_callback_(this)` (line 168): the closure receives the
address of the future. The header documents what it does with it: a
`dma_future` "takes a callback to check the done status and allows setting the
value" (lines 42-43), and the result is set "always from an is_done invoked
callback" (lines 258-261). The code of the closures is not part of the header;
the functions of this section take it as the parameter `act`: for a closure in
state `cb`, `act cb = some v` when the invocation calls `this->set_value(v)`
before it answers, and `act cb = none` when it only reports. With
`act = fun _ => none` they are the functions of the sections above. -/

mutual

/-- Source: `bool future::is_done()` (lines 161-176), with the closure's call of
`set_value` on the future it is handed. -/
def future.is_done_cb (act : done_callback → Option R) :
    Nat → World R → Nat → Option (Bool × World R)
  | 0, _, _ => none
  | fuel + 1, w, self =>
    match w.futures[self]? with
    | none => none
    | some me =>
      match me.done_callback_ with
      | some cb =>
        -- if (done_callback_) { if (!done_callback_(this)) return false; set_done(); return true; }
        let r := cb.invoke
        let w1 := w.put self { me with done_callback_ := some r.2 }
        -- the body of the closure
        match (match act cb with
               | none => some w1
               | some v => future.set_value_cb act fuel w1 self v) with
        | none => none
        | some w2 =>
          if !r.1 then some (false, w2)
          else
            match future.set_done w2 self with
            | none => none
            | some w3 => some (true, w3)
      | none =>
        match me.state_ with
        | some n =>
          -- if (state_ && !state_->prereqs_done()) { return false; }
          match detail.shared_state.prereqs_done_cb act fuel w n with
          | none => none
          | some (false, w1) => some (false, w1)
          | some (true, w1) =>
            match w1.futures[self]? with
            | none => none
            | some me1 => some (volatile_load me1.done_, w1)
        | none => some (volatile_load me.done_, w)
termination_by structural fuel => fuel

/-- Source: `virtual bool prereqs_done()` (lines 91, 262-270). -/
def detail.shared_state.prereqs_done_cb (act : done_callback → Option R) :
    Nat → World R → Nat → Option (Bool × World R)
  | 0, _, _ => none
  | fuel + 1, w, self =>
    match w.nodes[self]? with
    | none => none
    | some node =>
      match node.dyn with
      | .shared_state => some (true, w)
      | .client _ => some (true, w)
      | .continuation_shared_state precondition_ _ alt_precondition_ =>
        match w.futures[precondition_]?, w.futures[alt_precondition_]? with
        | some pre, some alt =>
          if pre.state_.isSome then future.is_done_cb act fuel w precondition_
          else if alt.state_.isSome then future.is_done_cb act fuel w alt_precondition_
          else some (true, w)
        | _, _ => none
termination_by structural fuel => fuel

/-- Source: `void wait() { while (!is_done()) {} }`. -/
def future.wait_cb (act : done_callback → Option R) : Nat → World R → Nat → Option (World R)
  | 0, _, _ => none
  | fuel + 1, w, self =>
    match future.is_done_cb act fuel w self with
    | none => none
    | some (true, w1) => some w1
    | some (false, w1) => future.wait_cb act fuel w1 self
termination_by structural fuel => fuel

/-- Source: `void shared_state::do_continuation()` (lines 93-101). -/
def detail.shared_state.do_continuation_cb (act : done_callback → Option R) :
    Nat → World R → Nat → Option (World R)
  | 0, _, _ => none
  | fuel + 1, w, self =>
    match w.nodes[self]? with
    | none => none
    | some node =>
      if node.continuations.isEmpty then some w
      else
        -- the list is moved out and the member cleared before the loop
        let the_continuations := node.continuations
        let w1 := w.put_node self { node with continuations := [] }
        for_each (fun wi cont => detail.shared_state.launch_continuation_cb act fuel wi cont)
          the_continuations w1
termination_by structural fuel => fuel

/-- Source: `virtual void launch_continuation()` (lines 90, 271-274). Every
invocation is recorded in `launched`. -/
def detail.shared_state.launch_continuation_cb (act : done_callback → Option R) :
    Nat → World R → Nat → Option (World R)
  | 0, _, _ => none
  | fuel + 1, w, self =>
    match w.nodes[self]? with
    | none => none
    | some node =>
      let w0 : World R := { w with launched := w.launched ++ [self] }
      match node.dyn with
      | .shared_state => some w0
      | .client registers =>
        for_each (fun wi r => detail.shared_state.set_continuation_ptr wi r.1 r.2) registers w0
      | .continuation_shared_state precondition_ continuation_ alt_precondition_ =>
        -- alt_precondition_ = continuation_(std::move(precondition_));
        match ContinuationF.call_cb act fuel w0 continuation_ precondition_ with
        | none => none
        | some (ret, w1) =>
          match future.move_assign w1 alt_precondition_ ret with
          | none => none
          | some w2 =>
            -- precondition_ = PreconditionFuture(std::unique_ptr<shared_state>());
            let tmp := future.ctor_state w2 none
            future.move_assign tmp.2 precondition_ tmp.1
termination_by structural fuel => fuel

/-- Invoke the user callable on the precondition; returns the address of the
future it returns. The wrapping callable is `make_ready_future(g(p.get()))`,
with `get()` written out: `wait()`, then the result slot. -/
def ContinuationF.call_cb (act : done_callback → Option R) :
    Nat → World R → ContinuationF R → Nat → Option (Nat × World R)
  | 0, _, _, _ => none
  | fuel + 1, w, .wrapped g, p =>
    match future.wait_cb act fuel w p with
    | none => none
    | some w1 =>
      match w1.futures[p]? with
      | none => none
      | some me => make_ready_future_cb act fuel w1 (g me.result_)
  | _ + 1, w, .chained_read cb, _ => dma_future w cb
termination_by structural fuel => fuel

/-- Source: `make_ready_future` (lines 225-237). -/
def make_ready_future_cb (act : done_callback → Option R) :
    Nat → World R → R → Option (Nat × World R)
  | 0, _, _ => none
  | fuel + 1, w, x =>
    let f := future.ctor w
    match future.set_value_cb act fuel f.2 f.1 x with
    | none => none
    | some w1 => some (f.1, w1)
termination_by structural fuel => fuel

/-- Source: `void set_value(R&& r) { mark_finished_with_result(std::move(r)); }`. -/
def future.set_value_cb (act : done_callback → Option R) :
    Nat → World R → Nat → R → Option (World R)
  | 0, _, _, _ => none
  | fuel + 1, w, self, r => future.mark_finished_with_result_cb act fuel w self r
termination_by structural fuel => fuel

/-- Source: `mark_finished_with_result` (lines 190-194). -/
def future.mark_finished_with_result_cb (act : done_callback → Option R) :
    Nat → World R → Nat → R → Option (World R)
  | 0, _, _, _ => none
  | fuel + 1, w, self, result =>
    match w.futures[self]? with
    | none => none
    | some me =>
      match future.set_done (w.put self { me with result_ := result }) self with
      | none => none
      | some w1 =>
        match me.state_ with
        | none => none
        | some n => detail.shared_state.do_continuation_cb act fuel w1 n
termination_by structural fuel => fuel

end

/-- Source: `R get() { wait(); return std::move(result_); }`. -/
def future.get_cb (act : done_callback → Option R) (fuel : Nat) (w : World R) (self : Nat) :
    Option (R × World R) :=
  match future.wait_cb act fuel w self with
  | none => none
  | some w1 =>
    match w1.futures[self]? with
    | none => none
    | some me => some (me.result_, w1)

/-- Source: `future::set_continuation_ptr` (lines 201-206): line 204 reads
`state_` again after `is_done()` returned, and dereferences it. -/
def future.set_continuation_ptr_cb (act : done_callback → Option R) (fuel : Nat)
    (w : World R) (self continuation : Nat) : Option (World R) :=
  match w.futures[self]? with
  | none => none
  | some me =>
    match me.state_ with
    | none => none
    | some n =>
      match detail.shared_state.set_continuation_ptr w n continuation with
      | none => none
      | some w1 =>
        match future.is_done_cb act fuel w1 self with
        | none => none
        | some (false, w2) => some w2
        | some (true, w2) =>
          match (w2.futures[self]?).bind (fun me2 => me2.state_) with
          | none => none
          | some n2 => detail.shared_state.do_continuation_cb act fuel w2 n2

/-- Source: `void init() { precondition_.set_continuation_ptr(this); }`. -/
def detail.continuation_shared_state.init_cb (act : done_callback → Option R) (fuel : Nat)
    (w : World R) (self : Nat) : Option (World R) :=
  match w.nodes[self]? with
  | none => none
  | some node =>
    match node.dyn with
    | .continuation_shared_state precondition_ _ _ =>
      future.set_continuation_ptr_cb act fuel w precondition_ self
    | _ => none

/-- Source: `make_continuation_future` (lines 280-287). -/
def detail.make_continuation_future_cb (act : done_callback → Option R) (fuel : Nat)
    (w : World R) (f : Nat) (c : ContinuationF R) : Option (Nat × World R) :=
  match future.move_ctor w f with
  | none => none
  | some (pre, w1) =>
    let alt := future.ctor_state w1 none
    let w2 := alt.2
    let h := w2.nodes.length
    let w3 : World R :=
      { w2 with nodes := w2.nodes ++
          [{ continuations := [], dyn := .continuation_shared_state pre c alt.1 }] }
    match detail.continuation_shared_state.init_cb act fuel w3 h with
    | none => none
    | some w4 => some (future.ctor_state w4 (some h))

/-- Source: `future::then` (lines 208-216). -/
def future.then_cb (act : done_callback → Option R) (fuel : Nat) (w : World R) (self : Nat)
    (func : ContinuationF R) : Option (Nat × World R) :=
  detail.make_continuation_future_cb act fuel w self func

/-- The loop of `do_continuation`: `launch_continuation()` on each entry, in order. -/
def detail.shared_state.launch_each_cb (act : done_callback → Option R) (fuel : Nat)
    (cs : List Nat) (w : World R) : Option (World R) :=
  for_each (fun wi cont => detail.shared_state.launch_continuation_cb act fuel wi cont) cs w

/-- One observing call on the future at `self`; the memory afterwards. -/
def future.run_call_cb (act : done_callback → Option R) (fuel : Nat) (w : World R) :
    Nat × future.call → Option (World R)
  | (self, .is_done) => (future.is_done_cb act fuel w self).map Prod.snd
  | (self, .wait) => future.wait_cb act fuel w self
  | (self, .get) => (future.get_cb act fuel w self).map Prod.snd

/-- A sequence of observing calls, each on the future it names. -/
def future.run_calls_cb (act : done_callback → Option R) (fuel : Nat)
    (calls : List (Nat × future.call)) (w : World R) : Option (World R) :=
  for_each (fun wi c => future.run_call_cb act fuel wi c) calls w

/-- How many entries of the continuation lists are the node `h`. -/
def World.registered (w : World R) (h : Nat) : Nat :=
  (w.nodes.map (fun node => node.continuations.count h)).sum

/-- What a run of the code does to the node table and the trace, seen from one
node `h`: the trace only grows, nodes stay and keep their dynamic type and the
registrations they perform, and (when no client node registers `h`) the
launches of `h` and the list entries naming `h` together grow by at most `d`. -/
def World.Ran (h d : Nat) (w w1 : World R) : Prop :=
  (∃ t, w1.launched = w.launched ++ t)
  ∧ w.nodes.length ≤ w1.nodes.length
  ∧ (∀ m, m < w.nodes.length → w1.dyn_of m = w.dyn_of m)
  ∧ (∀ m, w1.regs_of m = w.regs_of m)
  ∧ ((∀ m, ∀ p ∈ w.regs_of m, p.2 ≠ h) →
      w1.launched.count h + w1.registered h ≤ w.launched.count h + w.registered h + d)

/-- The closure of the header's `dma_future`: on the invocation on which it
answers true it first calls `this->set_value(v)`; while it answers false it
only reports. -/
def done_callback.fulfils (v : R) : done_callback → Option R :=
  fun cb => if cb.answers cb.calls then some v else none

/-- The memory inside `make_continuation_future` just before `init()`, for a
polled precondition: the moved-from `A` (address 0), `precondition_` (address
1, owning node 0) with the closure of `A`, which answers true from its first
poll on, the empty `alt_precondition_` (address 2) and the continuation node
(address 1) with `c(p) = make_ready_future(p.get() == 7)`, not yet registered. -/
def attaching_world : World Val :=
  { futures :=
      [{ done_ := false, done_callback_ := none, result_ := Val.int 0, state_ := none },
       { done_ := false, done_callback_ := some (done_callback.first_true_at 1),
         result_ := Val.int 0, state_ := some 0 },
       { done_ := false, done_callback_ := none, result_ := Val.int 0, state_ := none }],
    nodes :=
      [{ continuations := [], dyn := .shared_state },
       { continuations := [],
         dyn := .continuation_shared_state 1 (.wrapped (fun v => Val.bool (v == Val.int 7))) 2 }],
    launched := [],
    junk := fun _ => (false, Val.int 0) }

/-! ## Basic facts -/

@[simp] theorem World.put_nodes (w : World R) (i : Nat) (x : future R) :
    (w.put i x).nodes = w.nodes := rfl

@[simp] theorem World.put_launched (w : World R) (i : Nat) (x : future R) :
    (w.put i x).launched = w.launched := rfl

@[simp] theorem World.put_junk (w : World R) (i : Nat) (x : future R) :
    (w.put i x).junk = w.junk := rfl

@[simp] theorem World.put_futures (w : World R) (i : Nat) (x : future R) :
    (w.put i x).futures = w.futures.set i x := rfl

@[simp] theorem World.put_node_nodes (w : World R) (i : Nat) (x : detail.shared_state R) :
    (w.put_node i x).nodes = w.nodes.set i x := rfl

@[simp] theorem World.put_node_launched (w : World R) (i : Nat) (x : detail.shared_state R) :
    (w.put_node i x).launched = w.launched := rfl

@[simp] theorem World.put_node_junk (w : World R) (i : Nat) (x : detail.shared_state R) :
    (w.put_node i x).junk = w.junk := rfl

@[simp] theorem World.put_node_futures (w : World R) (i : Nat) (x : detail.shared_state R) :
    (w.put_node i x).futures = w.futures := rfl

/-! ## C1, C2: ready values and the polling predicate -/

/-- The memory after `make_ready_future(v)` ran in `w`: one new future object,
fulfilled with `v`, and its new plain node. -/
theorem make_ready_future_eq (fuel : Nat) (w : World R) (v : R) :
    make_ready_future (fuel + 4) w v =
      some (w.futures.length,
        { w with
          futures := w.futures ++
            [{ done_ := true, done_callback_ := none, result_ := v,
               state_ := some w.nodes.length }],
          nodes := w.nodes ++ [{ continuations := [], dyn := .shared_state }] }) := by
  simp [make_ready_future, future.set_value, future.mark_finished_with_result, future.ctor,
    future.set_done, detail.shared_state.do_continuation, volatile_store, World.put]

/-- C1. For every memory `w` and value `v`, `make_ready_future(v)` returns a
future on which the first `is_done()` call answers true and `get()` returns `v`
(one `is_done()` evaluation, no failing poll); neither call changes the memory. -/
theorem C1_ready_future_done_and_get (fuel : Nat) (w : World R) (v : R) :
    ∃ w1, make_ready_future (fuel + 4) w v = some (w.futures.length, w1)
      ∧ future.is_done (fuel + 2) w1 w.futures.length = some (true, w1)
      ∧ future.wait (fuel + 3) w1 w.futures.length = some w1
      ∧ future.get (fuel + 3) w1 w.futures.length = some (v, w1) := by
  refine ⟨_, make_ready_future_eq fuel w v, ?_, ?_, ?_⟩
  · simp [future.is_done, detail.shared_state.prereqs_done, volatile_load]
  · simp [future.wait, future.is_done, detail.shared_state.prereqs_done, volatile_load]
  · simp [future.get, future.wait, future.is_done, detail.shared_state.prereqs_done,
      volatile_load]

/-- C2. `future::is_done()` agrees with the three-step reference definition on
every memory and every future address. -/
theorem C2_is_done_matches_reference (fuel : Nat) (w : World R) (self : Nat) :
    future.is_done (fuel + 1) w self = is_done_reference fuel w self := by
  rw [future.is_done, is_done_reference]
  cases hme : w.futures[self]? with
  | none => rfl
  | some me =>
    have hlt : self < w.futures.length := by
      rcases List.getElem?_eq_some_iff.mp hme with ⟨h, _⟩
      exact h
    cases hcb : me.done_callback_ with
    | some cb =>
      cases hans : cb.answers cb.calls <;>
        simp [hcb, hans, done_callback.invoke, future.set_done, volatile_store, hlt, World.put]
    | none =>
      cases hst : me.state_ with
      | none => simp [hcb, hst, volatile_load]
      | some n =>
        simp only [hcb, hst]
        cases hp : detail.shared_state.prereqs_done fuel w n with
        | none => rfl
        | some r =>
          obtain ⟨ready, w1⟩ := r
          cases ready
          · simp
          · cases h1 : w1.futures[self]? <;> simp [h1, volatile_load]

/-! ## C3 to C5: the callback path and chaining -/

theorem polling_world_eq (d : Bool) (r0 : R) (answers : Nat → Bool) :
    dma_future (World.empty d r0) { answers := answers, calls := 0 }
      = some (0, polling_world d r0 answers 0 d) := by
  simp [dma_future, future.ctor, future.set_done_callback, World.put, World.empty,
    polling_world]

theorem polling_world_is_done (d : Bool) (r0 : R) (answers : Nat → Bool) (j : Nat)
    (b : Bool) :
    future.is_done 1 (polling_world d r0 answers j b) 0
      = some (answers j, polling_world d r0 answers (j + 1) (answers j || b)) := by
  cases hans : answers j <;>
    simp [future.is_done, polling_world, done_callback.invoke, hans, World.put,
      future.set_done, volatile_store]

theorem polling_world_poll (d : Bool) (r0 : R) (answers : Nat → Bool) (k : Nat) :
    ∀ (j : Nat) (b : Bool), ∃ b1,
      poll 1 k (polling_world d r0 answers j b) 0
        = some ((List.range k).map (fun i => answers (j + i)),
            polling_world d r0 answers (j + k) b1) := by
  induction k with
  | zero => intro j b; exact ⟨b, rfl⟩
  | succ k ih =>
    intro j b
    obtain ⟨b2, h2⟩ := ih (j + 1) (answers j || b)
    refine ⟨b2, ?_⟩
    rw [poll, polling_world_is_done]
    simp only [h2]
    simp [List.range_succ_eq_map, Nat.add_assoc, Nat.add_comm 1, Function.comp_def]

/-- C3 (the code at every closure, and at the failing input). On a polled future
the answers of successive `is_done()` calls are the answers of the closure's
successive invocations, whatever they are: nothing is latched in the answer.
With the closure that answers true on its first poll only, three calls give
true, false, false, while the completion flag stays set. -/
theorem C3_answer_follows_closure_after_completion (d : Bool) (r0 : R)
    (answers : Nat → Bool) (k : Nat) :
    (∃ W W2,
      dma_future (World.empty d r0) { answers := answers, calls := 0 } = some (0, W)
      ∧ poll 1 k W 0 = some ((List.range k).map answers, W2))
    ∧ ((dma_future (World.empty false (Val.int 0)) done_callback.true_once).bind
        (fun a => (poll 1 3 a.2 a.1).map
          (fun r => (r.1, r.2.futures.map (fun f => f.done_)))))
      = some ([true, false, false], [true]) := by
  constructor
  · obtain ⟨b1, h⟩ := polling_world_poll d r0 answers k 0 d
    refine ⟨_, polling_world d r0 answers (0 + k) b1, polling_world_eq d r0 answers, ?_⟩
    rw [h]
    simp
  · decide!

theorem ready_chain_eq (d : Bool) (r0 v : R) (g : R → R) :
    ready_chain 8 d r0 v g = some (5, chained_world d r0 v g) := by
  simp [ready_chain, make_ready_future, future.set_value, future.mark_finished_with_result,
    future.ctor, future.set_done, detail.shared_state.do_continuation, volatile_store,
    World.put, World.empty, future.then_, detail.make_continuation_future, future.move_ctor,
    future.ctor_state, detail.continuation_shared_state.init, future.set_continuation_ptr,
    detail.shared_state.set_continuation_ptr, World.put_node, future.is_done,
    detail.shared_state.prereqs_done, volatile_load, for_each,
    detail.shared_state.launch_continuation, ContinuationF.call, future.get, future.wait,
    future.move_assign, chained_world]

/-- A `wait()` on a future whose `is_done()` answers false without changing the
memory never returns. -/
theorem wait_spins (w : World R) (f : Nat)
    (h : ∀ k, future.is_done k w f = none ∨ future.is_done k w f = some (false, w)) :
    ∀ fuel, future.wait fuel w f = none := by
  intro fuel
  induction fuel with
  | zero => rfl
  | succ k ih =>
    rw [future.wait]
    rcases h k with h1 | h1
    · rw [h1]
    · rw [h1]; exact ih

theorem chained_world_is_done (d : Bool) (r0 v : R) (g : R → R) (fuel : Nat) :
    future.is_done (fuel + 4) (chained_world d r0 v g) 5
      = some (d, chained_world d r0 v g) := by
  simp [future.is_done, detail.shared_state.prereqs_done, volatile_load, chained_world]

theorem chained_world_is_done_short (d : Bool) (r0 v : R) (g : R → R) (k : Nat)
    (hk : k < 4) : future.is_done k (chained_world d r0 v g) 5 = none := by
  match k, hk with
  | 0, _ => rfl
  | 1, _ => simp [future.is_done, detail.shared_state.prereqs_done, chained_world]
  | 2, _ => simp [future.is_done, detail.shared_state.prereqs_done, chained_world]
  | 3, _ => simp [future.is_done, detail.shared_state.prereqs_done, chained_world]

/-- C4 (the code at every ready value and continuation result). For
`A = make_ready_future(v)`, `F = A.then(c)`, `c(p) = make_ready_future(g(p.get()))`
(the stated case is `v = 5`, `g = (· == 5)`): the continuation is launched once
and its result `g v` sits in `alt_precondition_` (address 2), but `F` keeps the
uninitialised flag and result of its storage. With a junk flag of false
`is_done()` answers false and `get()` returns for no amount of fuel; with a
junk flag of true `get()` returns the junk result `r0`. -/
theorem C4_chained_ready_future_keeps_junk (r0 v : R) (g : R → R) :
    (∃ F W,
      ready_chain 8 false r0 v g = some (F, W)
      ∧ W.launched = [1]
      ∧ (W.view 2).map (fun x => (x.done_, x.result_)) = some (true, g v)
      ∧ future.is_done 4 W F = some (false, W)
      ∧ ∀ fuel, future.get fuel W F = none)
    ∧ (∃ F W,
      ready_chain 8 true r0 v g = some (F, W)
      ∧ future.is_done 4 W F = some (true, W)
      ∧ future.get 5 W F = some (r0, W)) := by
  constructor
  · refine ⟨5, chained_world false r0 v g, ready_chain_eq false r0 v g, rfl, ?_,
      chained_world_is_done false r0 v g 0, ?_⟩
    · simp [World.view, chained_world]
    · intro fuel
      have hs := wait_spins (chained_world false r0 v g) 5 (by
        intro k
        by_cases hk : k < 4
        · left; exact chained_world_is_done_short false r0 v g k hk
        · right
          obtain ⟨j, rfl⟩ : ∃ j, k = j + 4 := ⟨k - 4, by omega⟩
          exact chained_world_is_done false r0 v g j) fuel
      simp [future.get, hs]
  · refine ⟨5, chained_world true r0 v g, ready_chain_eq true r0 v g,
      chained_world_is_done true r0 v g 0, ?_⟩
    have h4 := chained_world_is_done true r0 v g 0
    simp only [Nat.zero_add] at h4
    simp [future.get, future.wait, h4]
    simp [chained_world]

theorem polled_chain_eq (n m : Nat) (d : Bool) (r0 : R) :
    polled_chain 8 (n + 2) m d r0 = some (3, waiting_world (n + 2) m d r0 1 d) := by
  simp [polled_chain, dma_future, future.ctor, future.set_done_callback, World.put,
    World.empty, future.then_, detail.make_continuation_future, future.move_ctor,
    future.ctor_state, detail.continuation_shared_state.init, future.set_continuation_ptr,
    detail.shared_state.set_continuation_ptr, World.put_node, future.is_done,
    done_callback.invoke, done_callback.first_true_at, waiting_world]

theorem polled_chain_eq_one (m : Nat) (d : Bool) (r0 : R) :
    polled_chain 8 1 m d r0 = some (5, launched_world m d r0 0 d) := by
  simp [polled_chain, dma_future, future.ctor, future.set_done_callback, World.put,
    World.empty, future.then_, detail.make_continuation_future, future.move_ctor,
    future.ctor_state, detail.continuation_shared_state.init, future.set_continuation_ptr,
    detail.shared_state.set_continuation_ptr, World.put_node, future.is_done,
    done_callback.invoke, done_callback.first_true_at, launched_world,
    future.set_done, volatile_store, detail.shared_state.do_continuation, for_each,
    detail.shared_state.launch_continuation, ContinuationF.call, future.move_assign]

theorem waiting_world_is_done (n m : Nat) (r0 : R) (j : Nat) (b : Bool) :
    ∃ b1, future.is_done 3 (waiting_world n m false r0 j b) 3
      = some (false, waiting_world n m false r0 (j + 1) b1) := by
  cases hans : (done_callback.first_true_at n).answers j with
  | false =>
    refine ⟨b, ?_⟩
    simp [future.is_done, detail.shared_state.prereqs_done, volatile_load, waiting_world,
      done_callback.invoke, hans, World.put]
  | true =>
    refine ⟨true, ?_⟩
    simp [future.is_done, detail.shared_state.prereqs_done, volatile_load, waiting_world,
      done_callback.invoke, hans, World.put, future.set_done, volatile_store]

theorem waiting_world_poll (n m : Nat) (r0 : R) (k : Nat) :
    ∀ (j : Nat) (b : Bool), ∃ b1,
      poll 3 k (waiting_world n m false r0 j b) 3
        = some (List.replicate k false, waiting_world n m false r0 (j + k) b1) := by
  induction k with
  | zero => intro j b; exact ⟨b, rfl⟩
  | succ k ih =>
    intro j b
    obtain ⟨b1, h1⟩ := waiting_world_is_done n m r0 j b
    obtain ⟨b2, h2⟩ := ih (j + 1) b1
    refine ⟨b2, ?_⟩
    rw [poll, h1]
    simp only [h2]
    simp [List.replicate_succ, Nat.add_assoc, Nat.add_comm 1 k]

theorem launched_world_is_done (m : Nat) (r0 : R) (j : Nat) (b : Bool) :
    ∃ b1, future.is_done 3 (launched_world m false r0 j b) 5
      = some (false, launched_world m false r0 (j + 1) b1) := by
  cases hans : (done_callback.first_true_at m).answers j with
  | false =>
    refine ⟨b, ?_⟩
    simp [future.is_done, detail.shared_state.prereqs_done, volatile_load, launched_world,
      done_callback.invoke, hans, World.put]
  | true =>
    refine ⟨true, ?_⟩
    simp [future.is_done, detail.shared_state.prereqs_done, volatile_load, launched_world,
      done_callback.invoke, hans, World.put, future.set_done, volatile_store]

theorem launched_world_poll (m : Nat) (r0 : R) (k : Nat) :
    ∀ (j : Nat) (b : Bool), ∃ b1,
      poll 3 k (launched_world m false r0 j b) 5
        = some (List.replicate k false, launched_world m false r0 (j + k) b1) := by
  induction k with
  | zero => intro j b; exact ⟨b, rfl⟩
  | succ k ih =>
    intro j b
    obtain ⟨b1, h1⟩ := launched_world_is_done m r0 j b
    obtain ⟨b2, h2⟩ := ih (j + 1) b1
    refine ⟨b2, ?_⟩
    rw [poll, h1]
    simp only [h2]
    simp [List.replicate_succ, Nat.add_assoc, Nat.add_comm 1 k]

/-- C5 (the code at every `N`, `M` and number of polls, junk flag false). With `A`
first done on poll `N = n + 2`: any number `k` of `is_done()` calls on the
chained future all answer false; each polls `A` (`k + 1` polls in all, `then`
made the first), and the continuation is never launched, so `B` is never
created. With `A` done on poll 1 the continuation is launched inside `then` and
each call polls `B`, and the chained future still answers false on every call. -/
theorem C5_chained_polled_future_never_done (n m k : Nat) (r0 : R) :
    (∃ W W2,
      polled_chain 8 (n + 2) m false r0 = some (3, W)
      ∧ poll 3 k W 3 = some (List.replicate k false, W2)
      ∧ W2.launched = []
      ∧ (W2.view 1).bind (fun x => x.polls) = some (k + 1))
    ∧ (∃ W W2,
      polled_chain 8 1 m false r0 = some (5, W)
      ∧ poll 3 k W 5 = some (List.replicate k false, W2)
      ∧ W2.launched = [1]
      ∧ (W2.view 2).bind (fun x => x.polls) = some k) := by
  constructor
  · obtain ⟨b1, h⟩ := waiting_world_poll (n + 2) m r0 k 1 false
    refine ⟨_, _, polled_chain_eq n m false r0, h, rfl, ?_⟩
    simp [World.view, waiting_world, Nat.add_comm]
  · obtain ⟨b1, h⟩ := launched_world_poll m r0 k 0 false
    refine ⟨_, _, polled_chain_eq_one m false r0, h, rfl, ?_⟩
    simp [World.view, launched_world]

/-! ## Frame facts: what each operation leaves alone -/

theorem set_done_frame (w w1 : World R) (f : Nat) (h : future.set_done w f = some w1) :
    w1.nodes = w.nodes ∧ w1.launched = w.launched ∧ w1.junk = w.junk := by
  unfold future.set_done at h
  split at h
  · simp at h
  · simp at h; subst h; simp

theorem is_done_prereqs_frame (fuel : Nat) :
    (∀ (w : World R) (f : Nat) (r : Bool × World R), future.is_done fuel w f = some r →
        r.2.nodes = w.nodes ∧ r.2.launched = w.launched ∧ r.2.junk = w.junk)
    ∧ (∀ (w : World R) (n : Nat) (r : Bool × World R),
        detail.shared_state.prereqs_done fuel w n = some r →
        r.2.nodes = w.nodes ∧ r.2.launched = w.launched ∧ r.2.junk = w.junk) := by
  induction fuel with
  | zero =>
    constructor
    · intro w f r h; simp [future.is_done] at h
    · intro w n r h; simp [detail.shared_state.prereqs_done] at h
  | succ k ih =>
    obtain ⟨ih1, ih2⟩ := ih
    constructor
    · intro w f r h
      rw [future.is_done] at h
      dsimp only at h
      split at h
      · simp at h
      · split at h
        · split at h
          · simp at h; subst h; simp
          · split at h
            · simp at h
            · rename_i w2 hs
              simp at h; subst h
              have := set_done_frame _ _ _ hs
              simpa using this
        · split at h
          · split at h
            · simp at h
            · rename_i w1 hp
              simp at h; subst h
              exact ih2 _ _ _ hp
            · rename_i w1 hp
              split at h
              · simp at h
              · simp at h; subst h
                exact ih2 _ _ (true, w1) hp
          · simp at h; subst h; simp
    · intro w n r h
      rw [detail.shared_state.prereqs_done] at h
      split at h
      · simp at h
      · split at h
        · simp at h; subst h; simp
        · simp at h; subst h; simp
        · split at h
          · split at h
            · exact ih1 _ _ _ h
            · split at h
              · exact ih1 _ _ _ h
              · simp at h; subst h; simp
          · simp at h

theorem wait_frame (fuel : Nat) :
    ∀ (w w1 : World R) (f : Nat), future.wait fuel w f = some w1 →
      w1.nodes = w.nodes ∧ w1.launched = w.launched ∧ w1.junk = w.junk := by
  induction fuel with
  | zero => intro w w1 f h; simp [future.wait] at h
  | succ k ih =>
    intro w w1 f h
    rw [future.wait] at h
    split at h
    · simp at h
    · rename_i w2 hd
      simp at h; subst h
      exact (is_done_prereqs_frame k).1 _ _ (true, w2) hd
    · rename_i w2 hd
      have h1 := (is_done_prereqs_frame k).1 _ _ (false, w2) hd
      have h2 := ih _ _ _ h
      simp only at h1
      exact ⟨h2.1.trans h1.1, h2.2.1.trans h1.2.1, h2.2.2.trans h1.2.2⟩

theorem get_frame (fuel : Nat) (w : World R) (f : Nat) (r : R × World R)
    (h : future.get fuel w f = some r) :
    r.2.nodes = w.nodes ∧ r.2.launched = w.launched ∧ r.2.junk = w.junk := by
  unfold future.get at h
  split at h
  · simp at h
  · rename_i w1 hw
    split at h
    · simp at h
    · simp at h; subst h
      exact wait_frame _ _ _ _ hw

theorem onto_append (m : Nat) (a b : List (Nat × Nat)) :
    onto m (a ++ b) = onto m a ++ onto m b := by
  simp [onto]

theorem continuations_of_congr (w w1 : World R) (h : w1.nodes = w.nodes) (m : Nat) :
    w1.continuations_of m = w.continuations_of m := by
  simp [World.continuations_of, h]

theorem regs_of_congr (w w1 : World R) (h : w1.nodes = w.nodes) (m : Nat) :
    w1.regs_of m = w.regs_of m := by
  simp [World.regs_of, h]

theorem World.Step.of_same (w w1 : World R) (hn : w1.nodes = w.nodes)
    (hl : w1.launched = w.launched) : w.Step w1 [] [] := by
  refine ⟨by simp [hl], by simp [hn], ?_, ?_⟩
  · intro m _; simp [onto, continuations_of_congr w w1 hn]
  · intro m; exact regs_of_congr w w1 hn m

theorem World.Step.trans (w w1 w2 : World R) (l1 l2 : List Nat) (r1 r2 : List (Nat × Nat))
    (h1 : w.Step w1 l1 r1) (h2 : w1.Step w2 l2 r2) : w.Step w2 (l1 ++ l2) (r1 ++ r2) := by
  obtain ⟨a1, b1, c1, d1⟩ := h1
  obtain ⟨a2, b2, c2, d2⟩ := h2
  refine ⟨by rw [a2, a1, List.append_assoc], le_trans b1 b2, ?_, ?_⟩
  · intro m hm
    rw [c2 m (lt_of_lt_of_le hm b1), c1 m hm, onto_append, List.append_assoc]
  · intro m; rw [d2, d1]

/-- Appending one plain node with an empty list. -/
theorem World.Step.new_node (w w1 : World R) (hl : w1.launched = w.launched)
    (hn : w1.nodes = w.nodes ++ [{ continuations := [], dyn := .shared_state }]) :
    w.Step w1 [] [] := by
  refine ⟨by simp [hl], by simp [hn], ?_, ?_⟩
  · intro m hm
    simp [World.continuations_of, hn, List.getElem?_append_left hm, onto]
  · intro m
    simp only [World.regs_of, hn]
    rcases Nat.lt_trichotomy m w.nodes.length with h | h | h
    · rw [List.getElem?_append_left h]
    · subst h; simp
    · rw [List.getElem?_eq_none (by simp; omega), List.getElem?_eq_none (by omega)]

theorem World.Step.register (w w1 : World R) (t x : Nat)
    (h : detail.shared_state.set_continuation_ptr w t x = some w1) :
    w.Step w1 [] [(t, x)] := by
  unfold detail.shared_state.set_continuation_ptr at h
  split at h
  · simp at h
  · rename_i node hnode
    simp at h; subst h
    have ht : t < w.nodes.length := (List.getElem?_eq_some_iff.mp hnode).1
    refine ⟨by simp, by simp, ?_, ?_⟩
    · intro m hm
      by_cases hmt : t = m
      · subst hmt
        simp [World.continuations_of, hnode, onto, ht]
      · simp [World.continuations_of, onto, List.getElem?_set_ne hmt, hmt]
    · intro m
      by_cases hmt : t = m
      · subst hmt
        simp [World.regs_of, hnode, ht]
      · simp [World.regs_of, List.getElem?_set_ne hmt]

theorem make_ready_future_step (fuel : Nat) (w : World R) (v : R) (r : Nat × World R)
    (h : make_ready_future fuel w v = some r) : w.Step r.2 [] [] := by
  match fuel, h with
  | 0, h => simp [make_ready_future] at h
  | 1, h => simp [make_ready_future, future.set_value] at h
  | 2, h => simp [make_ready_future, future.set_value, future.mark_finished_with_result] at h
  | 3, h =>
    simp [make_ready_future, future.set_value, future.mark_finished_with_result, future.ctor,
      future.set_done, detail.shared_state.do_continuation] at h
  | k + 4, h =>
    rw [make_ready_future_eq] at h
    simp at h; subst h
    exact World.Step.new_node _ _ rfl rfl

theorem dma_future_step (w : World R) (cb : done_callback) (r : Nat × World R)
    (h : dma_future w cb = some r) : w.Step r.2 [] [] := by
  unfold dma_future at h
  simp [future.ctor, future.set_done_callback] at h
  subst h
  exact World.Step.new_node _ _ rfl rfl

theorem move_assign_frame (w w1 : World R) (a b : Nat)
    (h : future.move_assign w a b = some w1) :
    w1.nodes = w.nodes ∧ w1.launched = w.launched ∧ w1.junk = w.junk := by
  unfold future.move_assign at h
  split at h
  · simp at h
  · split at h
    · simp at h; subst h; simp
    · simp at h

theorem call_step (fuel : Nat) (w : World R) (c : ContinuationF R) (p : Nat)
    (r : Nat × World R) (h : ContinuationF.call fuel w c p = some r) : w.Step r.2 [] [] := by
  cases fuel with
  | zero => simp [ContinuationF.call] at h
  | succ k =>
    cases c with
    | wrapped g =>
      rw [ContinuationF.call] at h
      split at h
      · simp at h
      · rename_i v w1 hg
        have h1 := get_frame _ _ _ (v, w1) hg
        have h2 := make_ready_future_step _ _ _ _ h
        have := World.Step.trans _ _ _ _ _ _ _ (World.Step.of_same w w1 h1.1 h1.2.1) h2
        simpa using this
    | chained_read cb =>
      rw [ContinuationF.call] at h
      exact dma_future_step _ _ _ h

theorem register_each_step (regs : List (Nat × Nat)) :
    ∀ (w w1 : World R),
      for_each (fun wi r => detail.shared_state.set_continuation_ptr wi r.1 r.2) regs w
        = some w1 →
      w.Step w1 [] regs := by
  induction regs with
  | nil =>
    intro w w1 h
    simp [for_each] at h; subst h
    exact World.Step.of_same _ _ rfl rfl
  | cons a rest ih =>
    intro w w1 h
    rw [for_each] at h
    split at h
    · simp at h
    · rename_i w2 hs
      have h1 := World.Step.register _ _ _ _ hs
      have h2 := ih _ _ h
      have := World.Step.trans _ _ _ _ _ _ _ h1 h2
      simpa using this

theorem launch_step (fuel : Nat) (w w1 : World R) (c : Nat)
    (h : detail.shared_state.launch_continuation fuel w c = some w1) :
    w.Step w1 [c] (w.regs_of c) := by
  cases fuel with
  | zero => simp [detail.shared_state.launch_continuation] at h
  | succ k =>
    rw [detail.shared_state.launch_continuation] at h
    split at h
    · simp at h
    · rename_i node hnode
      dsimp only at h
      have h0 : w.Step { w with launched := w.launched ++ [c] } [c] [] := by
        refine ⟨rfl, le_refl _, ?_, ?_⟩
        · intro m _; simp [World.continuations_of, onto]
        · intro m; simp [World.regs_of]
      split at h
      · rename_i hdyn
        simp at h; subst h
        simpa [World.regs_of, hnode, hdyn] using h0
      · rename_i registers hdyn
        have h1 := register_each_step _ _ _ h
        have := World.Step.trans _ _ _ _ _ _ _ h0 h1
        simpa [World.regs_of, hnode, hdyn] using this
      · rename_i pre cf alt hdyn
        split at h
        · simp at h
        · rename_i ret w2 hcall
          split at h
          · simp at h
          · rename_i w3 hm
            have h1 := call_step _ _ _ _ (ret, w2) hcall
            have h2 := move_assign_frame _ _ _ _ hm
            have h3 := move_assign_frame _ _ _ _ h
            have h4 : w2.Step w1 [] [] := by
              apply World.Step.of_same
              · rw [h3.1]; simp [future.ctor_state, h2.1]
              · rw [h3.2.1]; simp [future.ctor_state, h2.2.1]
            have := World.Step.trans _ _ _ _ _ _ _ h0
              (World.Step.trans _ _ _ _ _ _ _ h1 h4)
            simpa [World.regs_of, hnode, hdyn] using this

theorem launch_each_step (fuel : Nat) (cs : List Nat) :
    ∀ (w w1 : World R), detail.shared_state.launch_each fuel cs w = some w1 →
      w.Step w1 cs (cs.flatMap w.regs_of) := by
  induction cs with
  | nil =>
    intro w w1 h
    simp [detail.shared_state.launch_each, for_each] at h; subst h
    exact World.Step.of_same _ _ rfl rfl
  | cons a rest ih =>
    intro w w1 h
    rw [detail.shared_state.launch_each, for_each] at h
    split at h
    · simp at h
    · rename_i w2 hs
      have h1 := launch_step _ _ _ _ hs
      have h2 := ih w2 w1 h
      have hreg : rest.flatMap w2.regs_of = rest.flatMap w.regs_of := by
        congr 1; funext m; exact h1.2.2.2 m
      rw [hreg] at h2
      have := World.Step.trans _ _ _ _ _ _ _ h1 h2
      simpa using this

/-- The polling predicate never reads a continuation list: on two memories with
the same future objects and the same dynamic types it gives the same answer
and the same new future objects. -/
theorem is_done_prereqs_lists_irrelevant (fuel : Nat) :
    (∀ (w v : World R) (f : Nat) (r : Bool × World R), v.futures = w.futures →
        (∀ m : Nat, v.dyn_of m = w.dyn_of m) →
        future.is_done fuel w f = some r →
        future.is_done fuel v f = some (r.1, { v with futures := r.2.futures }))
    ∧ (∀ (w v : World R) (n : Nat) (r : Bool × World R), v.futures = w.futures →
        (∀ m : Nat, v.dyn_of m = w.dyn_of m) →
        detail.shared_state.prereqs_done fuel w n = some r →
        detail.shared_state.prereqs_done fuel v n
          = some (r.1, { v with futures := r.2.futures })) := by
  induction fuel with
  | zero =>
    constructor
    · intro w v f r _ _ h; simp [future.is_done] at h
    · intro w v n r _ _ h; simp [detail.shared_state.prereqs_done] at h
  | succ k ih =>
    obtain ⟨ih1, ih2⟩ := ih
    constructor
    · intro w v f r hf hd h
      rw [future.is_done] at h ⊢
      rw [hf]
      dsimp only at h ⊢
      cases hme : w.futures[f]? with
      | none => simp [hme] at h
      | some me =>
        simp only [hme] at h ⊢
        cases hcb : me.done_callback_ with
        | some cb =>
          simp only [hcb] at h ⊢
          have hlt : f < w.futures.length := (List.getElem?_eq_some_iff.mp hme).1
          cases hans : cb.invoke.1 with
          | false =>
            simp [hans] at h ⊢
            subst h
            simp [World.put, hf]
          | true =>
            simp [hans, future.set_done, hlt, hf] at h ⊢
            subst h
            simp [World.put, hf]
        | none =>
          simp only [hcb] at h ⊢
          cases hst : me.state_ with
          | none =>
            simp only [hst] at h ⊢
            simp at h; subst h
            simp [← hf]
          | some n =>
            simp only [hst] at h ⊢
            cases hp : detail.shared_state.prereqs_done k w n with
            | none => simp [hp] at h
            | some p =>
              obtain ⟨b, w1⟩ := p
              rw [ih2 w v n (b, w1) hf hd hp]
              simp only [hp] at h
              cases b with
              | false =>
                simp at h ⊢; subst h; simp
              | true =>
                simp only at h ⊢
                cases hme1 : w1.futures[f]? with
                | none => simp [hme1] at h
                | some me1 =>
                  simp [hme1] at h ⊢
                  subst h; simp
    · intro w v n r hf hd h
      rw [detail.shared_state.prereqs_done] at h ⊢
      cases hnode : w.nodes[n]? with
      | none => simp [hnode] at h
      | some node =>
        have hdn := hd n
        simp only [World.dyn_of, hnode, Option.map_some', Option.map_eq_some'] at hdn
        obtain ⟨node1, hnode1, hdyn1⟩ := hdn
        simp only [hnode, hnode1, hdyn1] at h ⊢
        cases hdyn : node.dyn with
        | shared_state =>
          simp [hdyn] at h ⊢; subst h; simp [← hf]
        | client regs =>
          simp [hdyn] at h ⊢; subst h; simp [← hf]
        | continuation_shared_state pre cf alt =>
          simp only [hdyn, hf] at h ⊢
          cases hpre : w.futures[pre]? with
          | none => simp [hpre] at h
          | some p =>
            cases halt : w.futures[alt]? with
            | none => simp [hpre, halt] at h
            | some a =>
              simp only [hpre, halt] at h ⊢
              by_cases hs : p.state_.isSome = true
              · simp only [hs, if_true] at h ⊢
                exact ih1 w v _ r hf hd h
              · simp only [hs] at h ⊢
                by_cases hs2 : a.state_.isSome = true
                · simp only [hs2, if_true] at h ⊢
                  exact ih1 w v _ r hf hd h
                · simp [hs2] at h ⊢
                  subst h; simp [← hf]

/-! ## Draining -/

theorem drain_launched (w : World R) (n : Nat) : (w.drain n).launched = w.launched := by
  unfold World.drain; split <;> simp

theorem drain_futures (w : World R) (n : Nat) : (w.drain n).futures = w.futures := by
  unfold World.drain; split <;> simp

theorem drain_length (w : World R) (n : Nat) : (w.drain n).nodes.length = w.nodes.length := by
  unfold World.drain; split <;> simp

theorem drain_continuations_of (w : World R) (n : Nat) :
    (w.drain n).continuations_of n = [] := by
  unfold World.drain
  split
  · rename_i h; simp [World.continuations_of, h]
  · rename_i node h
    have hlt : n < w.nodes.length := (List.getElem?_eq_some_iff.mp h).1
    simp [World.continuations_of, hlt]

theorem drain_regs_of (w : World R) (n m : Nat) : (w.drain n).regs_of m = w.regs_of m := by
  unfold World.drain
  split
  · rfl
  · rename_i node h
    have hlt : n < w.nodes.length := (List.getElem?_eq_some_iff.mp h).1
    by_cases hnm : n = m
    · subst hnm; simp [World.regs_of, h, hlt]
    · simp [World.regs_of, List.getElem?_set_ne hnm]

theorem drain_of_nil (w : World R) (n : Nat) (h : w.continuations_of n = []) :
    w.drain n = w := by
  unfold World.drain
  cases hnode : w.nodes[n]? with
  | none => rfl
  | some node =>
    simp only [World.continuations_of, hnode] at h
    obtain ⟨cs, d⟩ := node
    simp only at h; subst h
    obtain ⟨fs, ns, ls, j⟩ := w
    simp only [World.put_node, World.mk.injEq, true_and, and_true]
    simp only at hnode
    apply List.ext_getElem?
    intro i
    by_cases hi : n = i
    · subst hi
      rw [List.getElem?_set_self (List.getElem?_eq_some_iff.mp hnode).1, hnode]
    · rw [List.getElem?_set_ne hi]

/-- A call of `do_continuation()` launches the entries that were in the list when it was
called, starting from the memory in which the list is already empty. -/
theorem do_continuation_eq (fuel : Nat) (w : World R) (n : Nat) (hn : n < w.nodes.length) :
    detail.shared_state.do_continuation (fuel + 1) w n =
      detail.shared_state.launch_each fuel (w.continuations_of n) (w.drain n) := by
  rw [detail.shared_state.do_continuation]
  have hnode : w.nodes[n]? = some w.nodes[n] := List.getElem?_eq_getElem hn
  simp only [hnode]
  by_cases he : (w.nodes[n]).continuations = []
  · have hc : w.continuations_of n = [] := by simp [World.continuations_of, hnode, he]
    simp [he, hc, drain_of_nil w n hc, detail.shared_state.launch_each, for_each]
  · have hne : (w.nodes[n]).continuations.isEmpty = false := by
      simpa [List.isEmpty_iff] using he
    simp [hne, World.continuations_of, World.drain, hnode, detail.shared_state.launch_each]

/-- One pass of launches from a drained node: trace and final list. -/
theorem launch_each_from_drained (fuel : Nat) (w0 w w1 : World R) (n : Nat) (cs : List Nat)
    (hn : n < w.nodes.length) (hl : w.launched = w0.launched)
    (hr : ∀ m, w.regs_of m = w0.regs_of m) (hc : w.continuations_of n = [])
    (h : detail.shared_state.launch_each fuel cs w = some w1) :
    w1.launched = w0.launched ++ cs
      ∧ w1.continuations_of n = onto n (cs.flatMap w0.regs_of)
      ∧ n < w1.nodes.length
      ∧ (∀ m, w1.regs_of m = w0.regs_of m) := by
  obtain ⟨a, b, c, d⟩ := launch_each_step fuel cs w w1 h
  have hreg : cs.flatMap w.regs_of = cs.flatMap w0.regs_of := by
    congr 1; funext m; exact hr m
  refine ⟨by rw [a, hl], ?_, lt_of_lt_of_le hn b, fun m => (d m).trans (hr m)⟩
  rw [c n hn, hc, hreg]; simp

/-! ## C8: fulfilment notifies the registered nodes -/

theorem store_nodes (w : World R) (self : Nat) (v : R) : (w.store self v).nodes = w.nodes := by
  unfold World.store; split <;> simp

theorem store_launched (w : World R) (self : Nat) (v : R) :
    (w.store self v).launched = w.launched := by
  unfold World.store; split <;> simp

/-- The body of `mark_finished_with_result(v)`: the two stores, then `do_continuation()`. -/
theorem mark_finished_eq (fuel : Nat) (w : World R) (self n : Nat) (v : R)
    (hstate : (w.futures[self]?).bind (fun f => f.state_) = some n) :
    future.mark_finished_with_result (fuel + 1) w self v
      = detail.shared_state.do_continuation fuel (w.store self v) n := by
  rw [future.mark_finished_with_result]
  cases hme : w.futures[self]? with
  | none => simp [hme] at hstate
  | some me =>
    have hlt : self < w.futures.length := (List.getElem?_eq_some_iff.mp hme).1
    simp only [hme, Option.some_bind] at hstate
    simp [future.set_done, hlt, hstate, World.store, hme, volatile_store, World.put]

/-- C8. `set_value(v)` on a future whose node `n` is live, the launches of the
registered nodes returning: the result is stored and the flag set first; then,
from the memory in which the list of `n` is already empty, `launch_continuation()`
runs once on each registered node in registration order, and nothing else is
launched. On return the list of `n` holds what those launches registered on it:
it is empty when no launched node re-registers. With nothing registered the
memory on return is the one with the two stores made. -/
theorem C8_set_value_notifies_in_order (fuel : Nat) (w : World R) (self n : Nat) (v : R)
    (hstate : (w.futures[self]?).bind (fun f => f.state_) = some n)
    (hn : n < w.nodes.length)
    (hrun : (detail.shared_state.launch_each fuel (w.continuations_of n)
      ((w.store self v).drain n)).isSome = true) :
    ∃ w1,
      future.set_value (fuel + 3) w self v = some w1
      ∧ future.mark_finished_with_result (fuel + 2) w self v = some w1
      ∧ detail.shared_state.launch_each fuel (w.continuations_of n)
          ((w.store self v).drain n) = some w1
      ∧ ((w.store self v).view self).map (fun x => (x.done_, x.result_)) = some (true, v)
      ∧ w1.launched = w.launched ++ w.continuations_of n
      ∧ w1.continuations_of n = onto n ((w.continuations_of n).flatMap w.regs_of)
      ∧ ((∀ c ∈ w.continuations_of n, w.regs_of c = []) → w1.continuations_of n = [])
      ∧ (w.continuations_of n = [] → w1 = w.store self v) := by
  have hnodes := store_nodes w self v
  have hc : (w.store self v).continuations_of n = w.continuations_of n :=
    continuations_of_congr _ _ hnodes n
  have hn1 : n < (w.store self v).nodes.length := by rw [hnodes]; exact hn
  cases h1 : detail.shared_state.launch_each fuel (w.continuations_of n)
      ((w.store self v).drain n) with
  | none => simp [h1] at hrun
  | some w1 =>
    have hdo : detail.shared_state.do_continuation (fuel + 1) (w.store self v) n = some w1 := by
      rw [do_continuation_eq fuel _ n hn1, hc, h1]
    obtain ⟨a1, b1, _, _⟩ := launch_each_from_drained fuel w ((w.store self v).drain n) w1 n _
      (by rw [drain_length]; exact hn1)
      ((drain_launched _ n).trans (store_launched w self v))
      (fun m => (drain_regs_of _ n m).trans (regs_of_congr _ _ hnodes m))
      (drain_continuations_of _ n) h1
    refine ⟨w1, ?_, ?_, rfl, ?_, a1, b1, ?_, ?_⟩
    · rw [future.set_value, mark_finished_eq (fuel + 1) w self n v hstate, hdo]
    · rw [mark_finished_eq (fuel + 1) w self n v hstate, hdo]
    · cases hme : w.futures[self]? with
      | none => simp [hme] at hstate
      | some me =>
        have hlt : self < w.futures.length := (List.getElem?_eq_some_iff.mp hme).1
        simp [World.store, hme, World.view, hlt]
    · intro hall
      rw [b1]
      have : (w.continuations_of n).flatMap w.regs_of = [] := by
        simp only [List.flatMap_eq_nil_iff]
        exact hall
      rw [this]; rfl
    · intro hnil
      rw [hnil] at h1
      have hd : (w.store self v).drain n = w.store self v :=
        drain_of_nil _ n (by rw [hc, hnil])
      rw [hd] at h1
      simpa [detail.shared_state.launch_each, for_each] using h1.symm

/-- C8 at `chain_world`: the precondition (address 1) is fulfilled with 5 while the
continuation node 1 is registered on its node 0. The node is launched once, the
list of node 0 is empty on return, and the continuation read the stored 5:
`alt_precondition_` (address 2) holds `true`. -/
theorem C8_set_value_notifies_in_order_witness :
    ∃ w1,
      future.set_value 9 (chain_world false (Val.int 0) [1]) 1 (Val.int 5) = some w1
      ∧ w1.launched = [1]
      ∧ w1.continuations_of 0 = []
      ∧ (w1.view 2).map (fun x => (x.done_, x.result_)) = some (true, Val.bool true) := by
  obtain ⟨w1, h1, _, h3, _, h5, _, h7, _⟩ :=
    C8_set_value_notifies_in_order 6 (chain_world false (Val.int 0) [1]) 1 0 (Val.int 5)
      (by decide) (by decide) (by decide!)
  refine ⟨w1, h1, by simpa [chain_world, World.continuations_of] using h5,
    h7 (by decide), ?_⟩
  have e : ((detail.shared_state.launch_each 6
      ((chain_world false (Val.int 0) [1]).continuations_of 0)
      (((chain_world false (Val.int 0) [1]).store 1 (Val.int 5)).drain 0)).bind
        (fun x => (x.view 2).map (fun y => (y.done_, y.result_))))
      = some (true, Val.bool true) := by decide!
  rw [h3] at e
  simpa using e

/-! ## C9: drain safety -/

/-- C9. Two successive `do_continuation()` passes on node `n`, all launches
returning. The first pass launches exactly the nodes that were in the list at
its start, once each and in order; the nodes that those launches append to the
list of `n` (through `shared_state::set_continuation_ptr`) are not launched in
that pass and form the list when it returns; the second pass launches exactly
them, once per registration. -/
theorem C9_drain_safety (fuel fuel2 : Nat) (w : World R) (n : Nat)
    (hn : n < w.nodes.length)
    (hrun : ((detail.shared_state.launch_each fuel (w.continuations_of n) (w.drain n)).bind
      (fun w1 =>
        detail.shared_state.launch_each fuel2 (w1.continuations_of n) (w1.drain n))).isSome
      = true) :
    ∃ w1 w2,
      detail.shared_state.do_continuation (fuel + 1) w n = some w1
      ∧ detail.shared_state.do_continuation (fuel2 + 1) w1 n = some w2
      ∧ w1.launched = w.launched ++ w.continuations_of n
      ∧ w1.continuations_of n = onto n ((w.continuations_of n).flatMap w.regs_of)
      ∧ w2.launched = w1.launched ++ onto n ((w.continuations_of n).flatMap w.regs_of) := by
  cases h1 : detail.shared_state.launch_each fuel (w.continuations_of n) (w.drain n) with
  | none => simp [h1] at hrun
  | some w1 =>
    simp only [h1, Option.some_bind] at hrun
    cases h2 : detail.shared_state.launch_each fuel2 (w1.continuations_of n) (w1.drain n) with
    | none => simp [h2] at hrun
    | some w2 =>
      obtain ⟨a1, b1, c1, d1⟩ := launch_each_from_drained fuel w (w.drain n) w1 n _
        (by rw [drain_length]; exact hn) (drain_launched w n) (drain_regs_of w n)
        (drain_continuations_of w n) h1
      obtain ⟨a2, _, _, _⟩ := launch_each_from_drained fuel2 w1 (w1.drain n) w2 n _
        (by rw [drain_length]; exact c1) (drain_launched w1 n) (drain_regs_of w1 n)
        (drain_continuations_of w1 n) h2
      refine ⟨w1, w2, ?_, ?_, a1, b1, ?_⟩
      · rw [do_continuation_eq fuel w n hn, h1]
      · rw [do_continuation_eq fuel2 w1 n c1, h2]
      · rw [a2, b1]

/-- C9 at `drain_world`: the first pass launches nodes 1 and 2 and leaves node 3,
registered by the launch of node 1, in the list; the second pass launches 3. -/
theorem C9_drain_safety_witness :
    ∃ w1 w2,
      detail.shared_state.do_continuation 2 drain_world 0 = some w1
      ∧ detail.shared_state.do_continuation 2 w1 0 = some w2
      ∧ w1.launched = [1, 2]
      ∧ w1.continuations_of 0 = [3]
      ∧ w2.launched = [1, 2, 3] := by
  obtain ⟨w1, w2, h1, h2, h3, h4, h5⟩ :=
    C9_drain_safety 1 1 drain_world 0 (by decide) (by decide!)
  have e1 : drain_world.continuations_of 0 = [1, 2] := by decide
  have e2 : onto 0 (([1, 2] : List Nat).flatMap drain_world.regs_of) = [3] := by decide
  rw [e1] at h3 h4 h5
  rw [e2] at h4 h5
  refine ⟨w1, w2, h1, h2, by simpa [drain_world] using h3, h4, ?_⟩
  rw [h5, h3]; simp [drain_world]

/-! ## C10: the critical-section guard -/

/-- C10 (the code at every prior state). For every PRIMASK value, interrupts are
masked while the guard lives, and after its destructor they are enabled exactly
when they were masked before its constructor: the prior state is inverted, not
restored. In particular a guard built with interrupts enabled (PRIMASK 0) leaves
them masked. `irqs_enabled()` tests the mask bit for 1, the masked state. -/
theorem C10_guard_inverts_prior_state (primask : Nat) :
    interrupts_enabled (unique_irqlock.ctor primask).2 = false
    ∧ interrupts_enabled
        ((unique_irqlock.ctor primask).1.dtor (unique_irqlock.ctor primask).2)
        = !interrupts_enabled primask := by
  have h1 : (primask ||| 1) % 2 = 1 := by
    rw [Nat.or_mod_two_eq_one]; right; rfl
  have h2 : primask &&& 1 = primask % 2 := Nat.and_one_is_mod primask
  simp only [interrupts_enabled, unique_irqlock.ctor, unique_irqlock.dtor,
    unique_irqlock.irqs_enabled, __get_PRIMASK, __disable_irq, __enable_irq, h2, h1]
  rcases Nat.mod_two_eq_zero_or_one primask with h | h
  · simp [h, h1]
  · simp [h, h1]
    omega

/-! ## C11: the append and its missing guard -/

/-- C11 (the code at every memory and mask, and at the failing input). The append
itself is as stated: the node becomes the last entry and the earlier entries
stay. But the mask at the `push_back` is the caller's mask: with interrupts
enabled on entry (PRIMASK 0) the list is modified with interrupts enabled,
whereas the guarded append of the specification always modifies it with
interrupts masked. -/
theorem C11_append_without_critical_section (primask : Nat) (w : World R) (self c : Nat) :
    ((detail.shared_state.set_continuation_ptr_irq primask w self c).map
        (fun r => r.2.1.continuations_of self))
      = (w.nodes[self]?).map (fun node => node.continuations ++ [c])
    ∧ ((detail.shared_state.set_continuation_ptr_irq primask w self c).map
        (fun r => interrupts_enabled r.1))
      = (w.nodes[self]?).map (fun _ => interrupts_enabled primask)
    ∧ ((set_continuation_ptr_guarded primask w self c).map
        (fun r => interrupts_enabled r.1))
      = (w.nodes[self]?).map (fun _ => false)
    ∧ ((detail.shared_state.set_continuation_ptr_irq 0 drain_world 0 7).map
        (fun r => (interrupts_enabled r.1, r.2.1.continuations_of 0)))
      = some (true, [1, 2, 7]) := by
  refine ⟨?_, ?_, ?_, by decide⟩
  · cases hnode : w.nodes[self]? with
    | none =>
      simp [detail.shared_state.set_continuation_ptr_irq,
        detail.shared_state.set_continuation_ptr, hnode]
    | some node =>
      have hlt : self < w.nodes.length := (List.getElem?_eq_some_iff.mp hnode).1
      simp [detail.shared_state.set_continuation_ptr_irq,
        detail.shared_state.set_continuation_ptr, hnode, World.continuations_of, hlt]
  · cases hnode : w.nodes[self]? <;>
      simp [detail.shared_state.set_continuation_ptr_irq,
        detail.shared_state.set_continuation_ptr, hnode]
  · have h1 : (primask ||| 1) % 2 = 1 := by
      rw [Nat.or_mod_two_eq_one]; right; rfl
    cases hnode : w.nodes[self]? <;>
      simp [set_continuation_ptr_guarded, detail.shared_state.set_continuation_ptr, hnode,
        unique_irqlock.ctor, __disable_irq, interrupts_enabled, h1]

/-! ## C14: the prerequisite query of a continuation node -/

/-- C14. On a continuation node whose two member futures exist,
`prereqs_done()` is `precondition_.is_done()` when `precondition_` holds a node,
else `alt_precondition_.is_done()` when that one holds a node, else true. -/
theorem C14_prereqs_done_by_liveness (fuel : Nat) (w : World R) (n pre alt : Nat)
    (c : ContinuationF R)
    (hdyn : w.dyn_of n = some (.continuation_shared_state pre c alt))
    (hpre : pre < w.futures.length) (halt : alt < w.futures.length) :
    detail.shared_state.prereqs_done (fuel + 1) w n =
      if w.live pre then future.is_done fuel w pre
      else if w.live alt then future.is_done fuel w alt
      else some (true, w) := by
  simp only [World.dyn_of, Option.map_eq_some'] at hdyn
  obtain ⟨node, hnode, hd⟩ := hdyn
  rw [detail.shared_state.prereqs_done]
  simp only [hnode, hd, List.getElem?_eq_getElem hpre, List.getElem?_eq_getElem halt,
    World.live, Option.some_bind]

/-- C14 at two memories: before the launch (`waiting_world`, `precondition_` at
address 1 live) the query is the poll of `precondition_`; after it
(`chained_world`, only `alt_precondition_` at address 2 live) it is the poll of
`alt_precondition_`. -/
theorem C14_prereqs_done_by_liveness_witness :
    detail.shared_state.prereqs_done 3 (waiting_world 2 1 false (Val.int 0) 1 false) 1
      = future.is_done 2 (waiting_world 2 1 false (Val.int 0) 1 false) 1
    ∧ detail.shared_state.prereqs_done 3 (chained_world false (Val.int 0) (Val.int 5) id) 1
      = future.is_done 2 (chained_world false (Val.int 0) (Val.int 5) id) 2 := by
  constructor
  · have h := C14_prereqs_done_by_liveness 2 (waiting_world 2 1 false (Val.int 0) 1 false)
      1 1 2 (.chained_read (done_callback.first_true_at 1)) rfl (by decide) (by decide)
    rw [h]; rfl
  · have h := C14_prereqs_done_by_liveness 2
      (chained_world false (Val.int 0) (Val.int 5) id) 1 1 2 (.wrapped id) rfl
      (by decide) (by decide)
    rw [h]; rfl

/-! ## C16: a default-constructed future -/

/-- C16 (the code at every memory, and at the failing input). The first
`is_done()` on a future just built by `future()`, with no closure attached and
never fulfilled, answers the flag that its uninitialised storage held: true when
that storage held true. -/
theorem C16_default_future_reports_junk (fuel : Nat) (w : World R) :
    future.is_done (fuel + 2) (future.ctor w).2 (future.ctor w).1
      = some ((w.junk w.futures.length).1, (future.ctor w).2)
    ∧ ((future.is_done 2 (future.ctor (World.empty true (Val.int 0))).2
          (future.ctor (World.empty true (Val.int 0))).1).map Prod.fst) = some true := by
  constructor
  · simp [future.is_done, detail.shared_state.prereqs_done, volatile_load, future.ctor]
  · decide

/-! ## C17: `wait()` returns once completion is observable -/

theorem future.advanced_same (f : future R) : future.advanced f f :=
  ⟨rfl, rfl, fun h => h, rfl⟩

theorem future.advanced_then (f g h : future R) (h1 : future.advanced f g)
    (h2 : future.advanced g h) : future.advanced f h :=
  ⟨h2.1.trans h1.1, h2.2.1.trans h1.2.1, fun hf => h2.2.2.1 (h1.2.2.1 hf),
    h2.2.2.2.trans h1.2.2.2⟩

theorem World.advanced_refl (w : World R) : w.advanced w := by
  refine ⟨rfl, ?_⟩
  intro x f g hf hg
  rw [hf] at hg
  cases hg
  exact future.advanced_same f

theorem World.advanced_trans (w w1 w2 : World R) (h1 : w.advanced w1) (h2 : w1.advanced w2) :
    w.advanced w2 := by
  refine ⟨h2.1.trans h1.1, ?_⟩
  intro x f h hf hh
  have hx : x < w.futures.length := (List.getElem?_eq_some_iff.mp hf).1
  have hx1 : x < w1.futures.length := by rw [h1.1]; exact hx
  exact future.advanced_then f _ h (h1.2 x f _ hf (List.getElem?_eq_getElem hx1))
    (h2.2 x _ h (List.getElem?_eq_getElem hx1) hh)

theorem World.advanced_put (w : World R) (self : Nat) (me me1 : future R)
    (hme : w.futures[self]? = some me) (h : future.advanced me me1) :
    w.advanced (w.put self me1) := by
  have hlt : self < w.futures.length := (List.getElem?_eq_some_iff.mp hme).1
  refine ⟨by simp [World.put], ?_⟩
  intro x f g hf hg
  by_cases hx : self = x
  · subst hx
    rw [hme] at hf
    cases hf
    simp [World.put, hlt] at hg
    subst hg
    exact h
  · simp [World.put, List.getElem?_set_ne hx] at hg
    rw [hf] at hg
    cases hg
    exact future.advanced_same f

theorem is_done_prereqs_advanced (fuel : Nat) :
    (∀ (w : World R) (f : Nat) (r : Bool × World R), future.is_done fuel w f = some r →
        w.advanced r.2)
    ∧ (∀ (w : World R) (n : Nat) (r : Bool × World R),
        detail.shared_state.prereqs_done fuel w n = some r → w.advanced r.2) := by
  induction fuel with
  | zero =>
    constructor
    · intro w f r h; simp [future.is_done] at h
    · intro w n r h; simp [detail.shared_state.prereqs_done] at h
  | succ k ih =>
    obtain ⟨ih1, ih2⟩ := ih
    constructor
    · intro w f r h
      rw [future.is_done] at h
      dsimp only at h
      cases hme : w.futures[f]? with
      | none => simp [hme] at h
      | some me =>
        simp only [hme] at h
        have hlt : f < w.futures.length := (List.getElem?_eq_some_iff.mp hme).1
        cases hcb : me.done_callback_ with
        | some cb =>
          simp only [hcb] at h
          cases hans : cb.invoke.1 with
          | false =>
            simp [hans] at h
            subst h
            exact World.advanced_put w f me _ hme
              ⟨rfl, rfl, fun hd => hd, by simp [hcb, done_callback.invoke]⟩
          | true =>
            simp [hans, future.set_done, hlt] at h
            subst h
            simp only [World.put, List.set_set]
            exact World.advanced_put w f me _ hme
              ⟨rfl, rfl, fun _ => by simp [volatile_store],
                by simp [hcb, done_callback.invoke]⟩
        | none =>
          simp only [hcb] at h
          cases hst : me.state_ with
          | none =>
            simp [hst] at h; subst h
            exact World.advanced_refl w
          | some n =>
            simp only [hst] at h
            cases hp : detail.shared_state.prereqs_done k w n with
            | none => simp [hp] at h
            | some p =>
              obtain ⟨b, w1⟩ := p
              simp only [hp] at h
              have hadv := ih2 w n (b, w1) hp
              cases b with
              | false => simp at h; subst h; exact hadv
              | true =>
                simp only at h
                cases hme1 : w1.futures[f]? with
                | none => simp [hme1] at h
                | some me1 => simp [hme1] at h; subst h; exact hadv
    · intro w n r h
      rw [detail.shared_state.prereqs_done] at h
      cases hnode : w.nodes[n]? with
      | none => simp [hnode] at h
      | some node =>
        simp only [hnode] at h
        cases hdyn : node.dyn with
        | shared_state => simp [hdyn] at h; subst h; exact World.advanced_refl w
        | client regs => simp [hdyn] at h; subst h; exact World.advanced_refl w
        | continuation_shared_state pre cf alt =>
          simp only [hdyn] at h
          cases hpre : w.futures[pre]? with
          | none => simp [hpre] at h
          | some p =>
            cases halt : w.futures[alt]? with
            | none => simp [hpre, halt] at h
            | some a =>
              simp only [hpre, halt] at h
              by_cases hs : p.state_.isSome = true
              · simp only [hs, if_true] at h
                exact ih1 w _ r h
              · simp only [hs] at h
                by_cases hs2 : a.state_.isSome = true
                · simp only [hs2, if_true] at h
                  exact ih1 w _ r h
                · simp [hs2] at h
                  subst h; exact World.advanced_refl w

theorem wait_advanced (fuel : Nat) :
    ∀ (w w1 : World R) (f : Nat), future.wait fuel w f = some w1 → w.advanced w1 := by
  induction fuel with
  | zero => intro w w1 f h; simp [future.wait] at h
  | succ k ih =>
    intro w w1 f h
    rw [future.wait] at h
    split at h
    · simp at h
    · rename_i w2 hd
      simp at h; subst h
      exact (is_done_prereqs_advanced k).1 _ _ (true, w2) hd
    · rename_i w2 hd
      exact World.advanced_trans _ _ _ ((is_done_prereqs_advanced k).1 _ _ (false, w2) hd)
        (ih _ _ _ h)

theorem get_advanced (fuel : Nat) (w : World R) (f : Nat) (r : R × World R)
    (h : future.get fuel w f = some r) : w.advanced r.2 := by
  unfold future.get at h
  split at h
  · simp at h
  · rename_i w1 hw
    split at h
    · simp at h
    · simp at h; subst h
      exact wait_advanced _ _ _ _ hw

/-! ## Launching only grows the memory -/

theorem node_members_congr (w w1 : World R) (h : w1.nodes = w.nodes) (m : Nat) :
    w1.node_members m = w.node_members m := by
  simp [World.node_members, World.dyn_of, h]

theorem World.Grow.of_nodes_eq (w w1 : World R) (T : List Nat) (hn : w1.nodes = w.nodes)
    (hl : w.futures.length ≤ w1.futures.length)
    (hf : ∀ x : Nat, x ∉ T → w.flag x = some true → w1.flag x = some true) :
    w.Grow w1 T :=
  ⟨by rw [hn], fun m _ => by simp [World.dyn_of, hn], node_members_congr w w1 hn, hl, hf⟩

theorem World.Grow.of_advanced (w w1 : World R) (hn : w1.nodes = w.nodes)
    (h : w.advanced w1) : w.Grow w1 [] := by
  refine World.Grow.of_nodes_eq w w1 [] hn (by rw [h.1]) ?_
  intro x _ hx
  simp only [World.flag, Option.map_eq_some'] at hx ⊢
  obtain ⟨f, hf, hd⟩ := hx
  have hlt : x < w1.futures.length := by
    rw [h.1]; exact (List.getElem?_eq_some_iff.mp hf).1
  exact ⟨_, List.getElem?_eq_getElem hlt,
    (h.2 x f _ hf (List.getElem?_eq_getElem hlt)).2.2.1 hd⟩

theorem World.Grow.refl (w : World R) : w.Grow w [] :=
  World.Grow.of_nodes_eq w w [] rfl (le_refl _) (fun _ _ h => h)

theorem World.Grow.append (w w1 w2 : World R) (T1 T2 : List Nat)
    (h1 : w.Grow w1 T1) (h2 : w1.Grow w2 T2) : w.Grow w2 (T1 ++ T2) := by
  obtain ⟨a1, b1, c1, d1, e1⟩ := h1
  obtain ⟨a2, b2, c2, d2, e2⟩ := h2
  refine ⟨le_trans a1 a2, ?_, ?_, le_trans d1 d2, ?_⟩
  · intro m hm; rw [b2 m (lt_of_lt_of_le hm a1), b1 m hm]
  · intro m; rw [c2, c1]
  · intro x hx hf
    simp only [List.mem_append, not_or] at hx
    exact e2 x hx.2 (e1 x hx.1 hf)

theorem World.Grow.weaken (w w1 : World R) (T T1 : List Nat) (h : w.Grow w1 T)
    (hsub : ∀ x, x ∈ T → x ∈ T1) : w.Grow w1 T1 := by
  obtain ⟨a, b, c, d, e⟩ := h
  exact ⟨a, b, c, d, fun x hx hf => e x (fun hm => hx (hsub x hm)) hf⟩

/-- Appending future objects and one plain node. -/
theorem World.Grow.alloc (w w1 : World R) (extra : List (future R))
    (hf : w1.futures = w.futures ++ extra)
    (hn : w1.nodes = w.nodes ++ [{ continuations := [], dyn := .shared_state }]) :
    w.Grow w1 [] := by
  refine ⟨by simp [hn], ?_, ?_, by simp [hf], ?_⟩
  · intro m hm
    simp [World.dyn_of, hn, List.getElem?_append_left hm]
  · intro m
    simp only [World.node_members, World.dyn_of, hn]
    rcases Nat.lt_trichotomy m w.nodes.length with h | h | h
    · rw [List.getElem?_append_left h]
    · subst h; simp
    · rw [List.getElem?_eq_none (by simp; omega), List.getElem?_eq_none (by omega)]
  · intro x _ hx
    simp only [World.flag, Option.map_eq_some'] at hx ⊢
    obtain ⟨f, hf1, hd⟩ := hx
    have hlt : x < w.futures.length := (List.getElem?_eq_some_iff.mp hf1).1
    exact ⟨f, by rw [hf, List.getElem?_append_left hlt]; exact hf1, hd⟩

/-- Appending future objects only. -/
theorem World.Grow.alloc_future (w w1 : World R) (extra : List (future R))
    (hf : w1.futures = w.futures ++ extra) (hn : w1.nodes = w.nodes) :
    w.Grow w1 [] := by
  refine World.Grow.of_nodes_eq w w1 [] hn (by simp [hf]) ?_
  intro x _ hx
  simp only [World.flag, Option.map_eq_some'] at hx ⊢
  obtain ⟨f, hf1, hd⟩ := hx
  have hlt : x < w.futures.length := (List.getElem?_eq_some_iff.mp hf1).1
  exact ⟨f, by rw [hf, List.getElem?_append_left hlt]; exact hf1, hd⟩

theorem World.Grow.of_register (w w1 : World R) (t x : Nat)
    (h : detail.shared_state.set_continuation_ptr w t x = some w1) : w.Grow w1 [] := by
  unfold detail.shared_state.set_continuation_ptr at h
  split at h
  · simp at h
  · rename_i node hnode
    simp at h; subst h
    have ht : t < w.nodes.length := (List.getElem?_eq_some_iff.mp hnode).1
    have hdyn : ∀ m : Nat,
        World.dyn_of (w.put_node t
          { continuations := node.continuations ++ [x], dyn := node.dyn }) m
          = w.dyn_of m := by
      intro m
      by_cases hmt : t = m
      · subst hmt; simp [World.dyn_of, hnode, ht]
      · simp [World.dyn_of, List.getElem?_set_ne hmt]
    refine ⟨by simp, fun m _ => hdyn m, ?_, by simp,
      fun _ _ hf => by simpa [World.flag] using hf⟩
    intro m
    simp only [World.node_members, hdyn]

theorem World.Grow.move_assign (w w1 : World R) (a b : Nat)
    (h : future.move_assign w a b = some w1) : w.Grow w1 [a] := by
  unfold future.move_assign at h
  split at h
  · simp at h
  · rename_i o ho
    split at h
    · rename_i ha
      simp at h; subst h
      have hb : b < w.futures.length := (List.getElem?_eq_some_iff.mp ho).1
      refine World.Grow.of_nodes_eq _ _ _ rfl (by simp) ?_
      intro x hx hf
      simp only [List.mem_singleton] at hx
      simp only [World.flag, Option.map_eq_some'] at hf ⊢
      obtain ⟨f, hf1, hd⟩ := hf
      by_cases hxb : b = x
      · subst hxb
        rw [ho] at hf1
        cases hf1
        exact ⟨{ o with done_callback_ := none, state_ := none },
          by simp [World.put, hb], hd⟩
      · refine ⟨f, ?_, hd⟩
        simp [World.put, List.getElem?_set_ne hxb, List.getElem?_set_ne (Ne.symm hx), hf1]
    · simp at h

theorem make_ready_future_grow (fuel : Nat) (w : World R) (v : R) (r : Nat × World R)
    (h : make_ready_future fuel w v = some r) : w.Grow r.2 [] := by
  match fuel, h with
  | 0, h => simp [make_ready_future] at h
  | 1, h => simp [make_ready_future, future.set_value] at h
  | 2, h => simp [make_ready_future, future.set_value, future.mark_finished_with_result] at h
  | 3, h =>
    simp [make_ready_future, future.set_value, future.mark_finished_with_result, future.ctor,
      future.set_done, detail.shared_state.do_continuation] at h
  | k + 4, h =>
    rw [make_ready_future_eq] at h
    simp at h; subst h
    exact World.Grow.alloc _ _ _ rfl rfl

theorem dma_future_grow (w : World R) (cb : done_callback) (r : Nat × World R)
    (h : dma_future w cb = some r) : w.Grow r.2 [] := by
  unfold dma_future at h
  simp [future.ctor, future.set_done_callback] at h
  subst h
  exact World.Grow.alloc _ _ _ (by simp [World.put]; rfl) rfl

theorem call_grow (fuel : Nat) (w : World R) (c : ContinuationF R) (p : Nat)
    (r : Nat × World R) (h : ContinuationF.call fuel w c p = some r) : w.Grow r.2 [] := by
  cases fuel with
  | zero => simp [ContinuationF.call] at h
  | succ k =>
    cases c with
    | wrapped g =>
      rw [ContinuationF.call] at h
      split at h
      · simp at h
      · rename_i v w1 hg
        have h1 := World.Grow.of_advanced w w1 (get_frame _ _ _ (v, w1) hg).1
          (get_advanced _ _ _ (v, w1) hg)
        have h2 := make_ready_future_grow _ _ _ _ h
        simpa using World.Grow.append _ _ _ _ _ h1 h2
    | chained_read cb =>
      rw [ContinuationF.call] at h
      exact dma_future_grow _ _ _ h

theorem register_each_grow (regs : List (Nat × Nat)) :
    ∀ (w w1 : World R),
      for_each (fun wi r => detail.shared_state.set_continuation_ptr wi r.1 r.2) regs w
        = some w1 →
      w.Grow w1 [] := by
  induction regs with
  | nil =>
    intro w w1 h
    simp [for_each] at h; subst h
    exact World.Grow.refl _
  | cons a rest ih =>
    intro w w1 h
    rw [for_each] at h
    split at h
    · simp at h
    · rename_i w2 hs
      simpa using World.Grow.append _ _ _ _ _ (World.Grow.of_register _ _ _ _ hs) (ih _ _ h)

theorem launch_grow (fuel : Nat) (w w1 : World R) (c : Nat)
    (h : detail.shared_state.launch_continuation fuel w c = some w1) :
    w.Grow w1 (w.node_members c) := by
  cases fuel with
  | zero => simp [detail.shared_state.launch_continuation] at h
  | succ k =>
    rw [detail.shared_state.launch_continuation] at h
    split at h
    · simp at h
    · rename_i node hnode
      dsimp only at h
      have h0 : w.Grow { w with launched := w.launched ++ [c] } [] :=
        World.Grow.of_nodes_eq _ _ _ rfl (le_refl _) (fun _ _ hf => hf)
      split at h
      · rename_i hdyn
        simp at h; subst h
        exact World.Grow.weaken _ _ _ _ h0 (by simp)
      · rename_i registers hdyn
        have h1 := register_each_grow _ _ _ h
        exact World.Grow.weaken _ _ _ _ (World.Grow.append _ _ _ _ _ h0 h1) (by simp)
      · rename_i pre cf alt hdyn
        split at h
        · simp at h
        · rename_i ret w2 hcall
          split at h
          · simp at h
          · rename_i w3 hm
            have h1 := call_grow _ _ _ _ (ret, w2) hcall
            have h2 := World.Grow.move_assign _ _ _ _ hm
            have h3 : w3.Grow (future.ctor_state w3 none).2 [] :=
              World.Grow.alloc_future _ _ _ rfl rfl
            have h4 := World.Grow.move_assign _ _ _ _ h
            have hall := World.Grow.append _ _ _ _ _ h0
              (World.Grow.append _ _ _ _ _ h1
                (World.Grow.append _ _ _ _ _ h2 (World.Grow.append _ _ _ _ _ h3 h4)))
            refine World.Grow.weaken _ _ _ _ hall ?_
            intro x hx
            simp only [List.nil_append, List.append_nil, List.mem_append,
              List.mem_singleton] at hx
            simp only [World.node_members, World.dyn_of, hnode, hdyn, Option.map_some',
              List.mem_cons, List.mem_singleton, List.not_mem_nil, or_false]
            rcases hx with hx | hx
            · right; exact hx
            · left; exact hx

theorem launch_each_grow (fuel : Nat) (cs : List Nat) :
    ∀ (w w1 : World R), detail.shared_state.launch_each fuel cs w = some w1 →
      w.Grow w1 (cs.flatMap w.node_members) := by
  induction cs with
  | nil =>
    intro w w1 h
    simp [detail.shared_state.launch_each, for_each] at h; subst h
    exact World.Grow.refl _
  | cons a rest ih =>
    intro w w1 h
    rw [detail.shared_state.launch_each, for_each] at h
    split at h
    · simp at h
    · rename_i w2 hs
      have h1 := launch_grow _ _ _ _ hs
      have h2 := ih w2 w1 h
      have hmem : rest.flatMap w2.node_members = rest.flatMap w.node_members := by
        congr 1; funext m; exact h1.2.2.1 m
      rw [hmem] at h2
      simpa using World.Grow.append _ _ _ _ _ h1 h2

/-! ## C18: a set completion flag stays set -/

theorem drain_grow (w : World R) (n : Nat) : w.Grow (w.drain n) [] := by
  unfold World.drain
  split
  · exact World.Grow.refl w
  · rename_i node hnode
    have ht : n < w.nodes.length := (List.getElem?_eq_some_iff.mp hnode).1
    have hdyn : ∀ m : Nat,
        World.dyn_of (w.put_node n { continuations := [], dyn := node.dyn }) m
          = w.dyn_of m := by
      intro m
      by_cases hmt : n = m
      · subst hmt; simp [World.dyn_of, hnode, ht]
      · simp [World.dyn_of, List.getElem?_set_ne hmt]
    refine ⟨by simp, fun m _ => hdyn m, ?_, by simp,
      fun _ _ hf => by simpa [World.flag] using hf⟩
    intro m
    simp only [World.node_members, hdyn]

theorem advanced_state (w w1 : World R) (h : w.advanced w1) (x : Nat) :
    (w1.futures[x]?).bind (fun f => f.state_) = (w.futures[x]?).bind (fun f => f.state_) := by
  cases hf : w.futures[x]? with
  | none =>
    have : w1.futures[x]? = none := by
      rw [List.getElem?_eq_none_iff] at hf ⊢
      rw [h.1]; exact hf
    rw [this]
  | some f =>
    have hlt : x < w1.futures.length := by
      rw [h.1]; exact (List.getElem?_eq_some_iff.mp hf).1
    rw [List.getElem?_eq_getElem hlt]
    simp only [Option.some_bind]
    rw [(h.2 x f _ hf (List.getElem?_eq_getElem hlt)).1]

/-- With poll closures that only report, `is_done()` leaves every handle as it
was, so the handle that line 204 reads is the one that line 202 read. -/
theorem set_continuation_ptr_eq (fuel : Nat) (w : World R) (self c : Nat) :
    future.set_continuation_ptr fuel w self c =
      (match w.futures[self]? with
       | none => none
       | some me =>
         match me.state_ with
         | none => none
         | some n =>
           match detail.shared_state.set_continuation_ptr w n c with
           | none => none
           | some w1 =>
             match future.is_done fuel w1 self with
             | none => none
             | some (false, w2) => some w2
             | some (true, w2) => detail.shared_state.do_continuation fuel w2 n) := by
  unfold future.set_continuation_ptr
  cases hme : w.futures[self]? with
  | none => rfl
  | some me =>
    dsimp only
    cases hst : me.state_ with
    | none => rfl
    | some n =>
      dsimp only
      cases hset : detail.shared_state.set_continuation_ptr w n c with
      | none => rfl
      | some w1 =>
        dsimp only
        have hfut : w1.futures = w.futures := by
          simp only [detail.shared_state.set_continuation_ptr] at hset
          split at hset
          · simp at hset
          · simp at hset; subst hset; rfl
        cases hd : future.is_done fuel w1 self with
        | none => rfl
        | some r =>
          obtain ⟨b, w2⟩ := r
          cases b with
          | false => rfl
          | true =>
            dsimp only
            have hA := (is_done_prereqs_advanced fuel).1 _ _ (true, w2) hd
            have hs := advanced_state w1 w2 hA self
            rw [hfut, hme] at hs
            simp only [Option.some_bind, hst] at hs
            rw [hs]

theorem advanced_live (w w1 : World R) (h : w.advanced w1) (x : Nat) :
    w1.live x = w.live x := by
  unfold World.live
  cases hf : w.futures[x]? with
  | none =>
    have : w1.futures[x]? = none := by
      rw [List.getElem?_eq_none_iff] at hf ⊢
      rw [h.1]; exact hf
    rw [this]
  | some f =>
    have hlt : x < w1.futures.length := by
      rw [h.1]; exact (List.getElem?_eq_some_iff.mp hf).1
    rw [List.getElem?_eq_getElem hlt]
    simp only [Option.some_bind]
    rw [(h.2 x f _ hf (List.getElem?_eq_getElem hlt)).1]

theorem move_assign_live (w w1 : World R) (a b : Nat) (hab : a ≠ b)
    (h : future.move_assign w a b = some w1) :
    w1.live a = w.live b
    ∧ w1.futures.length = w.futures.length
    ∧ (∀ x, x ≠ a → x ≠ b → w1.live x = w.live x) := by
  unfold future.move_assign at h
  split at h
  · simp at h
  · rename_i o ho
    split at h
    · rename_i ha
      simp at h; subst h
      have hb : b < w.futures.length := (List.getElem?_eq_some_iff.mp ho).1
      refine ⟨?_, by simp [World.put], ?_⟩
      · simp [World.live, World.put, List.getElem?_set_ne (Ne.symm hab), ha, ho]
      · intro x hxa hxb
        simp [World.live, World.put, List.getElem?_set_ne (Ne.symm hxa),
          List.getElem?_set_ne (Ne.symm hxb)]
    · simp at h

/-- The future a continuation returns is a new object that holds a node. -/
theorem call_returns_live (fuel : Nat) (w : World R) (c : ContinuationF R) (p : Nat)
    (r : Nat × World R) (h : ContinuationF.call fuel w c p = some r) :
    r.1 = w.futures.length ∧ r.2.futures.length = w.futures.length + 1
      ∧ r.2.live r.1 = true := by
  cases fuel with
  | zero => simp [ContinuationF.call] at h
  | succ k =>
    cases c with
    | wrapped g =>
      rw [ContinuationF.call] at h
      split at h
      · simp at h
      · rename_i v wg hg
        have hlen : wg.futures.length = w.futures.length := (get_advanced _ _ _ (v, wg) hg).1
        match k, h with
        | 0, h => simp [make_ready_future] at h
        | 1, h => simp [make_ready_future, future.set_value] at h
        | 2, h =>
          simp [make_ready_future, future.set_value, future.mark_finished_with_result] at h
        | 3, h =>
          simp [make_ready_future, future.set_value, future.mark_finished_with_result,
            future.ctor, future.set_done, detail.shared_state.do_continuation] at h
        | j + 4, h =>
          rw [make_ready_future_eq] at h
          simp at h; subst h
          simp [World.live, hlen]
    | chained_read cb =>
      rw [ContinuationF.call] at h
      unfold dma_future at h
      simp [future.ctor, future.set_done_callback] at h
      subst h
      simp [World.live, World.put]

/-- Launching a continuation node leaves `precondition_` without a node and
`alt_precondition_` with one. -/
theorem launch_liveness (fuel : Nat) (w w1 : World R) (h pre alt : Nat) (c : ContinuationF R)
    (hdyn : w.dyn_of h = some (.continuation_shared_state pre c alt))
    (hne : pre ≠ alt) (hpre : pre < w.futures.length) (halt : alt < w.futures.length)
    (hl : detail.shared_state.launch_continuation fuel w h = some w1) :
    w1.live pre = false ∧ w1.live alt = true := by
  simp only [World.dyn_of, Option.map_eq_some'] at hdyn
  obtain ⟨node, hnode, hd⟩ := hdyn
  cases fuel with
  | zero => simp [detail.shared_state.launch_continuation] at hl
  | succ k =>
    rw [detail.shared_state.launch_continuation] at hl
    simp only [hnode, hd] at hl
    split at hl
    · simp at hl
    · rename_i ret w2 hcall
      split at hl
      · simp at hl
      · rename_i w3 hm
        obtain ⟨hret, hlen2, hlive2⟩ := call_returns_live _ _ _ _ (ret, w2) hcall
        simp only at hret hlen2 hlive2
        have haret : alt ≠ ret := by rw [hret]; exact Nat.ne_of_lt halt
        obtain ⟨m1, m2, m3⟩ := move_assign_live _ _ _ _ haret hm
        have hlen4 : (future.ctor_state w3 none).2.futures.length = w.futures.length + 2 := by
          simp [future.ctor_state, m2, hlen2]
        have htmp : (future.ctor_state w3 none).1 = w.futures.length + 1 := by
          simp [future.ctor_state, m2, hlen2]
        have hptmp : pre ≠ (future.ctor_state w3 none).1 := by rw [htmp]; omega
        obtain ⟨n1, n2, n3⟩ := move_assign_live _ _ _ _ hptmp hl
        constructor
        · rw [n1, htmp]
          simp [World.live, future.ctor_state, m2, hlen2]
        · rw [n3 alt (Ne.symm hne) (by rw [htmp]; omega)]
          have : World.live (future.ctor_state w3 none).2 alt = w3.live alt := by
            have : alt < w3.futures.length := by rw [m2, hlen2]; omega
            simp [World.live, future.ctor_state, List.getElem?_append_left this]
          rw [this, m1, hlive2]

theorem for_each_append {A : Type} (step : World R → A → Option (World R))
    (as bs : List A) :
    ∀ w : World R, for_each step (as ++ bs) w = (for_each step as w).bind (for_each step bs) := by
  induction as with
  | nil => intro w; simp [for_each]
  | cons a rest ih =>
    intro w
    simp only [List.cons_append, for_each]
    cases step w a with
    | none => rfl
    | some w1 => exact ih w1

theorem run_calls_frame (fuel : Nat) (calls : List (Nat × future.call)) :
    ∀ (w w2 : World R), future.run_calls fuel calls w = some w2 →
      w2.nodes = w.nodes ∧ w2.launched = w.launched ∧ w.advanced w2 := by
  induction calls with
  | nil =>
    intro w w2 h
    simp [future.run_calls, for_each] at h; subst h
    exact ⟨rfl, rfl, World.advanced_refl _⟩
  | cons a rest ih =>
    intro w w2 h
    rw [future.run_calls, for_each] at h
    split at h
    · simp at h
    · rename_i w1 hs
      obtain ⟨i1, i2, i3⟩ := ih w1 w2 h
      have hone : w1.nodes = w.nodes ∧ w1.launched = w.launched ∧ w.advanced w1 := by
        obtain ⟨self, op⟩ := a
        cases op with
        | is_done =>
          simp only [future.run_call, Option.map_eq_some'] at hs
          obtain ⟨r, hr, rfl⟩ := hs
          have hf := (is_done_prereqs_frame fuel).1 _ _ r hr
          exact ⟨hf.1, hf.2.1, (is_done_prereqs_advanced fuel).1 _ _ r hr⟩
        | wait =>
          simp only [future.run_call] at hs
          have hf := wait_frame fuel _ _ _ hs
          exact ⟨hf.1, hf.2.1, wait_advanced fuel _ _ _ hs⟩
        | get =>
          simp only [future.run_call, Option.map_eq_some'] at hs
          obtain ⟨r, hr, rfl⟩ := hs
          have hf := get_frame fuel _ _ r hr
          exact ⟨hf.1, hf.2.1, get_advanced fuel _ _ r hr⟩
      exact ⟨i1.trans hone.1, i2.trans hone.2.1, World.advanced_trans _ _ _ hone.2.2 i3⟩

/-- What `make_continuation_future` builds, when it returns: the node at the
first free node address, with the moved precondition and the empty alternate
at the first two free future addresses; either nothing was launched and only
`precondition_` holds a node, or the nodes registered on the precondition were
launched, the new node last, and only `alt_precondition_` holds a node. -/
theorem make_continuation_future_spec (fuel : Nat) (w : World R) (f n : Nat)
    (c : ContinuationF R)
    (hstate : (w.futures[f]?).bind (fun x => x.state_) = some n)
    (hn : n < w.nodes.length)
    (hret : (detail.make_continuation_future fuel w f c).isSome = true) :
    ∃ F w1,
      detail.make_continuation_future fuel w f c = some (F, w1)
      ∧ w1.dyn_of w.nodes.length
          = some (.continuation_shared_state w.futures.length c (w.futures.length + 1))
      ∧ w.futures.length + 1 < w1.futures.length
      ∧ (w1.futures[F]?).bind (fun x => x.state_) = some w.nodes.length
      ∧ ((w1.launched = w.launched
            ∧ w1.live w.futures.length = true ∧ w1.live (w.futures.length + 1) = false)
          ∨ (w1.launched = w.launched ++ (w.continuations_of n ++ [w.nodes.length])
            ∧ w1.live w.futures.length = false
            ∧ w1.live (w.futures.length + 1) = true)) := by
  cases hme : w.futures[f]? with
  | none => simp [hme] at hstate
  | some o =>
    have hst : o.state_ = some n := by simpa [hme] using hstate
    have hf : f < w.futures.length := (List.getElem?_eq_some_iff.mp hme).1
    have hnode : w.nodes[n]? = some w.nodes[n] := List.getElem?_eq_getElem hn
    -- the memory just before `init()`
    have hW3 : ∃ W3 : World R,
        W3.futures = w.futures.set f { o with done_callback_ := none, state_ := none }
          ++ [o, { done_ := (w.junk (w.futures.length + 1)).1, done_callback_ := none,
                   result_ := (w.junk (w.futures.length + 1)).2, state_ := none }]
        ∧ W3.nodes = w.nodes ++
            [⟨[], .continuation_shared_state w.futures.length c (w.futures.length + 1)⟩]
        ∧ W3.launched = w.launched
        ∧ detail.make_continuation_future fuel w f c =
            (match detail.continuation_shared_state.init fuel W3 w.nodes.length with
             | none => none
             | some w4 => some (future.ctor_state w4 (some w.nodes.length))) := by
      refine ⟨{ futures := w.futures.set f { o with done_callback_ := none, state_ := none }
                  ++ [o, { done_ := (w.junk (w.futures.length + 1)).1, done_callback_ := none,
                           result_ := (w.junk (w.futures.length + 1)).2, state_ := none }],
                nodes := w.nodes ++
                  [⟨[], .continuation_shared_state w.futures.length c (w.futures.length + 1)⟩],
                launched := w.launched, junk := w.junk }, rfl, rfl, rfl, ?_⟩
      simp only [detail.make_continuation_future, future.move_ctor, hme, future.ctor_state,
        World.put, List.length_append, List.length_set, List.length_singleton,
        List.set_append_left _ _ hf, List.append_assoc, List.singleton_append]
    obtain ⟨W3, hF3, hN3, hL3, hmcf⟩ := hW3
    have hlenF : (w.futures.set f
        { o with done_callback_ := none, state_ := none }).length = w.futures.length := by simp
    have hh3 : W3.nodes[w.nodes.length]?
        = some ⟨[], .continuation_shared_state w.futures.length c (w.futures.length + 1)⟩ := by
      rw [hN3]; simp
    have hn3 : W3.nodes[n]? = some w.nodes[n] := by
      rw [hN3, List.getElem?_append_left hn]; exact hnode
    have hpre3 : W3.futures[w.futures.length]? = some o := by
      rw [hF3, List.getElem?_append_right (by simp)]; simp
    have halt3 : W3.live (w.futures.length + 1) = false := by
      unfold World.live
      rw [hF3, List.getElem?_append_right (by simp)]; simp
    have hlen3 : W3.futures.length = w.futures.length + 2 := by rw [hF3]; simp
    have hnh : n ≠ w.nodes.length := Nat.ne_of_lt hn
    -- after the append made by `init()`
    obtain ⟨Wa, hWa, haN, haF, haL⟩ : ∃ Wa : World R,
        detail.shared_state.set_continuation_ptr W3 n w.nodes.length = some Wa
        ∧ Wa.nodes = W3.nodes.set n
            { w.nodes[n] with continuations := (w.nodes[n]).continuations ++ [w.nodes.length] }
        ∧ Wa.futures = W3.futures ∧ Wa.launched = W3.launched :=
      ⟨W3.put_node n
          { w.nodes[n] with continuations := (w.nodes[n]).continuations ++ [w.nodes.length] },
        by simp only [detail.shared_state.set_continuation_ptr, hn3], rfl, rfl, rfl⟩
    have hinit : detail.continuation_shared_state.init fuel W3 w.nodes.length =
        (match future.is_done fuel Wa w.futures.length with
         | none => none
         | some (false, w2) => some w2
         | some (true, w2) => detail.shared_state.do_continuation fuel w2 n) := by
      simp only [detail.continuation_shared_state.init, hh3, set_continuation_ptr_eq,
        hpre3, hst, hWa]
    rw [hinit] at hmcf
    have hadyn : Wa.dyn_of w.nodes.length
        = some (.continuation_shared_state w.futures.length c (w.futures.length + 1)) := by
      simp only [World.dyn_of, haN, List.getElem?_set_ne hnh, hh3, Option.map_some']
    have hacont : Wa.continuations_of n = w.continuations_of n ++ [w.nodes.length] := by
      have : n < W3.nodes.length := by rw [hN3]; simp; omega
      simp [World.continuations_of, haN, this, hnode]
    have halive : Wa.live w.futures.length = true ∧ Wa.live (w.futures.length + 1) = false := by
      constructor
      · simp [World.live, haF, hpre3, hst]
      · simpa [World.live, haF] using halt3
    cases hd : future.is_done fuel Wa w.futures.length with
    | none => simp [hmcf, hd] at hret
    | some r =>
      obtain ⟨b, wb⟩ := r
      obtain ⟨fN, fL, _⟩ := (is_done_prereqs_frame fuel).1 _ _ (b, wb) hd
      have fA := (is_done_prereqs_advanced fuel).1 _ _ (b, wb) hd
      simp only at fN fL fA
      have hbdyn : wb.dyn_of w.nodes.length
          = some (.continuation_shared_state w.futures.length c (w.futures.length + 1)) := by
        rw [← hadyn]; simp [World.dyn_of, fN]
      have hblen : wb.futures.length = w.futures.length + 2 := by
        rw [fA.1, haF, hlen3]
      -- the returned future is appended last
      have hfinal : ∀ w4 : World R,
          w4.dyn_of w.nodes.length
            = some (.continuation_shared_state w.futures.length c (w.futures.length + 1)) →
          w.futures.length + 2 ≤ w4.futures.length →
          (future.ctor_state w4 (some w.nodes.length)).2.dyn_of w.nodes.length
            = some (.continuation_shared_state w.futures.length c (w.futures.length + 1))
          ∧ w.futures.length + 1 < (future.ctor_state w4 (some w.nodes.length)).2.futures.length
          ∧ ((future.ctor_state w4 (some w.nodes.length)).2.futures[
              (future.ctor_state w4 (some w.nodes.length)).1]?).bind (fun x => x.state_)
              = some w.nodes.length
          ∧ (future.ctor_state w4 (some w.nodes.length)).2.launched = w4.launched
          ∧ (future.ctor_state w4 (some w.nodes.length)).2.live w.futures.length
              = w4.live w.futures.length
          ∧ (future.ctor_state w4 (some w.nodes.length)).2.live (w.futures.length + 1)
              = w4.live (w.futures.length + 1) := by
        intro w4 h4 hl4
        refine ⟨by simpa [World.dyn_of, future.ctor_state] using h4,
          by simp [future.ctor_state]; omega, by simp [future.ctor_state], rfl, ?_, ?_⟩
        · simp [World.live, future.ctor_state,
            List.getElem?_append_left (show w.futures.length < w4.futures.length by omega)]
        · simp [World.live, future.ctor_state,
            List.getElem?_append_left (show w.futures.length + 1 < w4.futures.length by omega)]
      cases b with
      | false =>
        simp only [hd] at hmcf
        obtain ⟨g1, g2, g6, g3, g4, g5⟩ := hfinal wb hbdyn (by omega)
        refine ⟨_, _, hmcf, g1, g2, g6, Or.inl ⟨?_, ?_, ?_⟩⟩
        · exact g3.trans (by rw [fL, haL, hL3])
        · exact g4.trans (by rw [advanced_live _ _ fA, halive.1])
        · exact g5.trans (by rw [advanced_live _ _ fA, halive.2])
      | true =>
        simp only [hd] at hmcf
        cases hdo : detail.shared_state.do_continuation fuel wb n with
        | none => simp [hmcf, hdo] at hret
        | some w4 =>
          simp only [hdo] at hmcf
          have hnb : n < wb.nodes.length := by rw [fN, haN]; simp [hN3]; omega
          have hhb : w.nodes.length < wb.nodes.length := by rw [fN, haN]; simp [hN3]
          cases fuel with
          | zero => simp [detail.shared_state.do_continuation] at hdo
          | succ k =>
            rw [do_continuation_eq k wb n hnb] at hdo
            have hbcont : wb.continuations_of n = w.continuations_of n ++ [w.nodes.length] := by
              rw [continuations_of_congr _ _ fN n, hacont]
            rw [hbcont] at hdo
            have hstep := launch_each_step _ _ _ _ hdo
            have hgrow := launch_each_grow _ _ _ _ hdo
            have hdg := drain_grow wb n
            -- the new node is launched last
            unfold detail.shared_state.launch_each at hdo
            rw [for_each_append] at hdo
            cases hm : for_each
                (fun wi cont => detail.shared_state.launch_continuation k wi cont)
                (w.continuations_of n) (wb.drain n) with
            | none => simp [hm] at hdo
            | some wm =>
              simp only [hm, Option.some_bind, for_each] at hdo
              cases hl : detail.shared_state.launch_continuation k wm w.nodes.length with
              | none => simp [hl] at hdo
              | some w5 =>
                simp only [hl, Option.some.injEq] at hdo
                subst hdo
                have hmg := launch_each_grow k (w.continuations_of n) (wb.drain n) wm hm
                have hddyn : (wb.drain n).dyn_of w.nodes.length
                    = some (.continuation_shared_state w.futures.length c
                        (w.futures.length + 1)) := by
                  rw [hdg.2.1 _ hhb, hbdyn]
                have hmdyn : wm.dyn_of w.nodes.length
                    = some (.continuation_shared_state w.futures.length c
                        (w.futures.length + 1)) := by
                  rw [hmg.2.1 _ (by rw [drain_length]; exact hhb), hddyn]
                have hmlen : w.futures.length + 2 ≤ wm.futures.length := by
                  have := hmg.2.2.2.1
                  rw [drain_futures, hblen] at this
                  exact this
                obtain ⟨l1, l2⟩ := launch_liveness k wm w5 _ _ _ c hmdyn (by omega)
                  (by omega) (by omega) hl
                have h5dyn : w5.dyn_of w.nodes.length
                    = some (.continuation_shared_state w.futures.length c
                        (w.futures.length + 1)) := by
                  rw [hgrow.2.1 _ (by rw [drain_length]; exact hhb), hddyn]
                have h5len : w.futures.length + 2 ≤ w5.futures.length := by
                  have := hgrow.2.2.2.1
                  rw [drain_futures, hblen] at this
                  exact this
                obtain ⟨g1, g2, g6, g3, g4, g5⟩ := hfinal w5 h5dyn h5len
                refine ⟨_, _, hmcf, g1, g2, g6, Or.inr ⟨?_, ?_, ?_⟩⟩
                · exact g3.trans (by rw [hstep.1, drain_launched, fL, haL, hL3])
                · exact g4.trans l1
                · exact g5.trans l2

/-! ## C13: exactly one member of a continuation node is live -/

/-- C13. Let `make_continuation_future(f, c)` build the node `h` from a
precondition `f` that holds a live node `n`, and let any sequence of `is_done()`,
`wait()` and `get()` calls follow (the continuation `c` returns a future with a
live node: both kinds of `ContinuationF` do). The members of `h` are
`precondition_` (at `pre`, the first free address) and `alt_precondition_` (at
`pre + 1`), and at the end exactly one of them holds a node: `precondition_`
only, when `launch_continuation()` has not run since the construction began
(the trace of launches is unchanged); `alt_precondition_` only, when it has (the
trace ends with `h`). Once `launch_continuation()` runs on `h` from there, it is
`alt_precondition_` only, also after any further such calls. -/
theorem C13_one_member_live (fuel fuel2 : Nat) (w : World R) (f n : Nat)
    (c : ContinuationF R) (calls : List (Nat × future.call))
    (hstate : (w.futures[f]?).bind (fun x => x.state_) = some n)
    (hn : n < w.nodes.length)
    (hrun : ((detail.make_continuation_future fuel w f c).bind
      (fun r => future.run_calls fuel2 calls r.2)).isSome = true) :
    ∃ F w1 w2, detail.make_continuation_future fuel w f c = some (F, w1)
      ∧ future.run_calls fuel2 calls w1 = some w2
      ∧ w2.dyn_of w.nodes.length
          = some (.continuation_shared_state w.futures.length c (w.futures.length + 1))
      ∧ ((w2.launched = w.launched
            ∧ w2.live w.futures.length = true ∧ w2.live (w.futures.length + 1) = false)
         ∨ (w2.launched = w.launched ++ (w.continuations_of n ++ [w.nodes.length])
            ∧ w2.live w.futures.length = false ∧ w2.live (w.futures.length + 1) = true))
      ∧ ∀ (fuel3 fuel4 : Nat) (w3 w4 : World R) (later : List (Nat × future.call)),
          detail.shared_state.launch_continuation fuel3 w2 w.nodes.length = some w3 →
          future.run_calls fuel4 later w3 = some w4 →
          w4.live w.futures.length = false ∧ w4.live (w.futures.length + 1) = true := by
  have hret : (detail.make_continuation_future fuel w f c).isSome = true := by
    cases hm : detail.make_continuation_future fuel w f c with
    | none => simp [hm] at hrun
    | some r => rfl
  obtain ⟨F, w1, hmk, hdyn, hlen, _, hdisj⟩ :=
    make_continuation_future_spec fuel w f n c hstate hn hret
  rw [hmk] at hrun
  simp only [Option.some_bind] at hrun
  obtain ⟨w2, hw2⟩ := Option.isSome_iff_exists.mp hrun
  obtain ⟨fN, fL, fA⟩ := run_calls_frame fuel2 calls w1 w2 hw2
  have hdyn2 : w2.dyn_of w.nodes.length
      = some (.continuation_shared_state w.futures.length c (w.futures.length + 1)) := by
    rw [← hdyn]; simp [World.dyn_of, fN]
  have hlen2 : w.futures.length + 1 < w2.futures.length := by rw [fA.1]; exact hlen
  refine ⟨F, w1, w2, hmk, hw2, hdyn2, ?_, ?_⟩
  · rw [fL, advanced_live _ _ fA, advanced_live _ _ fA]
    exact hdisj
  · intro fuel3 fuel4 w3 w4 later hl hlater
    obtain ⟨_, _, gA⟩ := run_calls_frame fuel4 later w3 w4 hlater
    rw [advanced_live _ _ gA, advanced_live _ _ gA]
    exact launch_liveness fuel3 w2 w3 _ _ _ c hdyn2 (by omega) (by omega) hlen2 hl

/-- C13 at a polled precondition that is first done on its second poll, chained
to a continuation returning a polled future, followed by two `is_done()` calls
on the returned future (address 3); and at a precondition that already reads
done, chained to a wrapping continuation, followed by `is_done()` on the
returned future (address 5). -/
theorem C13_one_member_live_witness :
    (∃ F w1 w2,
      detail.make_continuation_future 5
          (polling_world false (Val.int 0) (done_callback.first_true_at 2).answers 0 false) 0
          (.chained_read (done_callback.first_true_at 1)) = some (F, w1)
      ∧ future.run_calls 5 [(3, .is_done), (3, .is_done)] w1 = some w2
      ∧ w2.dyn_of 1
          = some (.continuation_shared_state 1
              (.chained_read (done_callback.first_true_at 1)) 2)
      ∧ ((w2.launched = [] ∧ w2.live 1 = true ∧ w2.live 2 = false)
         ∨ (w2.launched = [] ++ ([] ++ [1]) ∧ w2.live 1 = false ∧ w2.live 2 = true))
      ∧ ∀ (fuel3 fuel4 : Nat) (w3 w4 : World Val) (later : List (Nat × future.call)),
          detail.shared_state.launch_continuation fuel3 w2 1 = some w3 →
          future.run_calls fuel4 later w3 = some w4 →
          w4.live 1 = false ∧ w4.live 2 = true)
    ∧ (∃ F w1 w2,
      detail.make_continuation_future 7
          (polling_world true (Val.int 5) (fun _ => true) 0 true) 0
          (.wrapped (fun v => Val.bool (v == Val.int 5))) = some (F, w1)
      ∧ future.run_calls 5 [(5, .is_done)] w1 = some w2
      ∧ w2.dyn_of 1
          = some (.continuation_shared_state 1
              (.wrapped (fun v => Val.bool (v == Val.int 5))) 2)
      ∧ ((w2.launched = [] ∧ w2.live 1 = true ∧ w2.live 2 = false)
         ∨ (w2.launched = [] ++ ([] ++ [1]) ∧ w2.live 1 = false ∧ w2.live 2 = true))
      ∧ ∀ (fuel3 fuel4 : Nat) (w3 w4 : World Val) (later : List (Nat × future.call)),
          detail.shared_state.launch_continuation fuel3 w2 1 = some w3 →
          future.run_calls fuel4 later w3 = some w4 →
          w4.live 1 = false ∧ w4.live 2 = true) :=
  ⟨C13_one_member_live 5 5
      (polling_world false (Val.int 0) (done_callback.first_true_at 2).answers 0 false) 0 0
      (.chained_read (done_callback.first_true_at 1)) [(3, .is_done), (3, .is_done)]
      (by decide) (by decide) (by decide!),
   C13_one_member_live 7 5
      (polling_world true (Val.int 5) (fun _ => true) 0 true) 0 0
      (.wrapped (fun v => Val.bool (v == Val.int 5))) [(5, .is_done)]
      (by decide) (by decide) (by decide!)⟩

/-! ## C12: moving a future -/

theorem World.Moved.put (L : List Nat) (s d : Nat) (hs : s ∉ L) (hd : d ∉ L)
    (w w1 : World R) (a a1 : Nat) (o : future R) (hM : World.Moved L s d w w1)
    (hP : (a ∈ L ∧ a1 = a) ∨ (a = s ∧ a1 = d))
    (ha : a < w.futures.length) (ha1 : a1 < w1.futures.length) :
    World.Moved L s d (w.put a o) (w1.put a1 o) := by
  refine ⟨hM.1, ?_, ?_⟩
  · intro x hx
    rcases hP with ⟨_, h1⟩ | ⟨h1, h2⟩
    · rw [h1]
      by_cases hax : a = x
      · rw [h1] at ha1
        simp [hax ▸ ha, hax ▸ ha1, hax]
      · simp only [World.put_futures, List.getElem?_set_ne hax]
        exact hM.2.1 x hx
    · have h3 : a ≠ x := fun h => hs (h1 ▸ h ▸ hx)
      have h4 : a1 ≠ x := fun h => hd (h2 ▸ h ▸ hx)
      simp only [World.put_futures, List.getElem?_set_ne h3, List.getElem?_set_ne h4]
      exact hM.2.1 x hx
  · rcases hP with ⟨hin, h1⟩ | ⟨h1, h2⟩
    · have h3 : a ≠ s := fun h => hs (h ▸ hin)
      have h4 : a1 ≠ d := fun h => hd (h ▸ h1 ▸ hin)
      simp only [World.put_futures, List.getElem?_set_ne h3, List.getElem?_set_ne h4]
      exact hM.2.2
    · rw [h1] at ha
      rw [h2] at ha1
      simp [h1, h2, ha, ha1]

theorem set_done_put (w : World R) (a : Nat) (x : future R) (ha : a < w.futures.length) :
    future.set_done (w.put a x) a
      = some ((w.put a x).put a { x with done_ := volatile_store x.done_ true }) := by
  simp [future.set_done, ha]

theorem is_done_prereqs_moved (L : List Nat) (s d : Nat) (hs : s ∉ L) (hd : d ∉ L)
    (fuel : Nat) :
    (∀ (w w1 : World R) (a a1 : Nat), World.Moved L s d w w1 →
        ((a ∈ L ∧ a1 = a) ∨ (a = s ∧ a1 = d)) →
        (∀ b ∈ w.prereqs a, b ∈ L) → (∀ x ∈ L, ∀ b ∈ w.prereqs x, b ∈ L) →
        World.moved_results L s d (future.is_done fuel w a) (future.is_done fuel w1 a1))
    ∧ (∀ (w w1 : World R) (n : Nat), World.Moved L s d w w1 →
        (∀ b ∈ w.node_members n, b ∈ L) → (∀ x ∈ L, ∀ b ∈ w.prereqs x, b ∈ L) →
        World.moved_results L s d (detail.shared_state.prereqs_done fuel w n)
          (detail.shared_state.prereqs_done fuel w1 n)) := by
  induction fuel with
  | zero =>
    constructor
    · intro w w1 a a1 _ _ _ _
      simp [future.is_done, World.moved_results]
    · intro w w1 n _ _ _
      simp [detail.shared_state.prereqs_done, World.moved_results]
  | succ k ih =>
    obtain ⟨ih1, ih2⟩ := ih
    constructor
    · intro w w1 a a1 hM hP hpre hcl
      have hlook : w1.futures[a1]? = w.futures[a]? := by
        rcases hP with ⟨hin, rfl⟩ | ⟨rfl, rfl⟩
        · exact hM.2.1 _ hin
        · exact hM.2.2
      rw [future.is_done, future.is_done, hlook]
      cases hme : w.futures[a]? with
      | none => simp [World.moved_results]
      | some me =>
        have ha : a < w.futures.length := (List.getElem?_eq_some_iff.mp hme).1
        have ha1 : a1 < w1.futures.length :=
          (List.getElem?_eq_some_iff.mp (hlook.trans hme)).1
        dsimp only
        cases hcb : me.done_callback_ with
        | some cb =>
          dsimp only
          have hM1 := World.Moved.put L s d hs hd w w1 a a1
            { me with done_callback_ := some cb.invoke.2 } hM hP ha ha1
          cases hr : cb.invoke.1 with
          | false => simpa [World.moved_results] using hM1
          | true =>
            rw [set_done_put _ _ _ ha, set_done_put _ _ _ ha1]
            have hM2 := World.Moved.put L s d hs hd _ _ a a1
              { ({ me with done_callback_ := some cb.invoke.2 } : future R) with
                done_ := volatile_store me.done_ true } hM1 hP
              (by simpa using ha) (by simpa using ha1)
            simpa [World.moved_results] using hM2
        | none =>
          dsimp only
          cases hst : me.state_ with
          | none => simpa [World.moved_results] using hM
          | some n =>
            dsimp only
            have hmem : ∀ b ∈ w.node_members n, b ∈ L := by
              have : w.prereqs a = w.node_members n := by simp [World.prereqs, hme, hst]
              rw [← this]; exact hpre
            have h2 := ih2 w w1 n hM hmem hcl
            cases hp : detail.shared_state.prereqs_done k w n with
            | none =>
              cases hp1 : detail.shared_state.prereqs_done k w1 n with
              | none => simp [World.moved_results]
              | some y => rw [hp, hp1] at h2; exact h2.elim
            | some x =>
              cases hp1 : detail.shared_state.prereqs_done k w1 n with
              | none => rw [hp, hp1] at h2; exact h2.elim
              | some y =>
                rw [hp, hp1] at h2
                obtain ⟨b, wx⟩ := x
                obtain ⟨b1, wy⟩ := y
                obtain ⟨hb, hM2⟩ := h2
                simp only at hb hM2
                subst hb
                cases b1 with
                | false => simpa [World.moved_results] using hM2
                | true =>
                  dsimp only
                  have hlook2 : wy.futures[a1]? = wx.futures[a]? := by
                    rcases hP with ⟨hin, rfl⟩ | ⟨rfl, rfl⟩
                    · exact hM2.2.1 _ hin
                    · exact hM2.2.2
                  rw [hlook2]
                  cases wx.futures[a]? with
                  | none => simp [World.moved_results]
                  | some me1 => simpa [World.moved_results] using hM2
    · intro w w1 n hM hmem hcl
      rw [detail.shared_state.prereqs_done, detail.shared_state.prereqs_done, hM.1]
      cases hn : w.nodes[n]? with
      | none => simp [World.moved_results]
      | some node =>
        dsimp only
        cases hdyn : node.dyn with
        | shared_state => simpa [World.moved_results] using hM
        | client _ => simpa [World.moved_results] using hM
        | continuation_shared_state p c q =>
          dsimp only
          have hpq : w.node_members n = [p, q] := by
            simp [World.node_members, World.dyn_of, hn, hdyn]
          have hp : p ∈ L := hmem p (by simp [hpq])
          have hq : q ∈ L := hmem q (by simp [hpq])
          rw [hM.2.1 p hp, hM.2.1 q hq]
          cases hfp : w.futures[p]? with
          | none => simp [World.moved_results]
          | some pre =>
            cases hfq : w.futures[q]? with
            | none => simp [World.moved_results]
            | some alt =>
              dsimp only
              cases h1 : pre.state_.isSome with
              | true =>
                simp only [if_true]
                exact ih1 w w1 p p hM (Or.inl ⟨hp, rfl⟩) (hcl p hp) hcl
              | false =>
                cases h2 : alt.state_.isSome with
                | true =>
                  simp only [Bool.false_eq_true, if_false, if_true]
                  exact ih1 w w1 q q hM (Or.inl ⟨hq, rfl⟩) (hcl q hq) hcl
                | false =>
                  simpa [World.moved_results] using hM

theorem prereqs_congr (w w1 : World R) (hN : w1.nodes = w.nodes) (hA : w.advanced w1)
    (x : Nat) : w1.prereqs x = w.prereqs x := by
  unfold World.prereqs
  rw [advanced_state w w1 hA x]
  cases (w.futures[x]?).bind (fun f => f.state_) with
  | none => rfl
  | some n => exact node_members_congr w w1 hN n

theorem wait_moved (L : List Nat) (s d : Nat) (hs : s ∉ L) (hd : d ∉ L) (fuel : Nat) :
    ∀ (w w1 : World R) (a a1 : Nat), World.Moved L s d w w1 →
      ((a ∈ L ∧ a1 = a) ∨ (a = s ∧ a1 = d)) →
      (∀ b ∈ w.prereqs a, b ∈ L) → (∀ x ∈ L, ∀ b ∈ w.prereqs x, b ∈ L) →
      World.moved_worlds L s d (future.wait fuel w a) (future.wait fuel w1 a1) := by
  induction fuel with
  | zero => intro w w1 a a1 _ _ _ _; simp [future.wait, World.moved_worlds]
  | succ k ih =>
    intro w w1 a a1 hM hP hpre hcl
    have h1 := (is_done_prereqs_moved L s d hs hd k).1 w w1 a a1 hM hP hpre hcl
    rw [future.wait, future.wait]
    cases hp : future.is_done k w a with
    | none =>
      cases hp1 : future.is_done k w1 a1 with
      | none => simp [World.moved_worlds]
      | some y => rw [hp, hp1] at h1; exact h1.elim
    | some x =>
      cases hp1 : future.is_done k w1 a1 with
      | none => rw [hp, hp1] at h1; exact h1.elim
      | some y =>
        rw [hp, hp1] at h1
        obtain ⟨b, wx⟩ := x
        obtain ⟨b1, wy⟩ := y
        obtain ⟨hb, hM2⟩ := h1
        simp only at hb hM2
        subst hb
        cases b1 with
        | true => simpa [World.moved_worlds] using hM2
        | false =>
          dsimp only
          have fN := ((is_done_prereqs_frame k).1 _ _ (false, wx) hp).1
          have fA := (is_done_prereqs_advanced k).1 _ _ (false, wx) hp
          simp only at fN fA
          refine ih wx wy a a1 hM2 hP ?_ ?_
          · rw [prereqs_congr w wx fN fA a]; exact hpre
          · intro x hx
            rw [prereqs_congr w wx fN fA x]; exact hcl x hx

theorem get_moved (L : List Nat) (s d : Nat) (hs : s ∉ L) (hd : d ∉ L) (fuel : Nat)
    (w w1 : World R) (a a1 : Nat) (hM : World.Moved L s d w w1)
    (hP : (a ∈ L ∧ a1 = a) ∨ (a = s ∧ a1 = d))
    (hpre : ∀ b ∈ w.prereqs a, b ∈ L) (hcl : ∀ x ∈ L, ∀ b ∈ w.prereqs x, b ∈ L) :
    World.moved_results L s d (future.get fuel w a) (future.get fuel w1 a1) := by
  have h1 := wait_moved L s d hs hd fuel w w1 a a1 hM hP hpre hcl
  unfold future.get
  cases hp : future.wait fuel w a with
  | none =>
    cases hp1 : future.wait fuel w1 a1 with
    | none => simp [World.moved_results]
    | some y => rw [hp, hp1] at h1; exact h1.elim
  | some wx =>
    cases hp1 : future.wait fuel w1 a1 with
    | none => rw [hp, hp1] at h1; exact h1.elim
    | some wy =>
      rw [hp, hp1] at h1
      have hM2 : World.Moved L s d wx wy := h1
      dsimp only
      have hlook2 : wy.futures[a1]? = wx.futures[a]? := by
        rcases hP with ⟨hin, h⟩ | ⟨h, h0⟩
        · rw [h]; exact hM2.2.1 _ hin
        · rw [h, h0]; exact hM2.2.2
      rw [hlook2]
      cases wx.futures[a]? with
      | none => simp [World.moved_results]
      | some me1 => simpa [World.moved_results] using hM2

theorem moved_results_fst {A : Type} (L : List Nat) (s d : Nat)
    (r r1 : Option (A × World R)) (h : World.moved_results L s d r r1) :
    r1.map Prod.fst = r.map Prod.fst := by
  cases r with
  | none =>
    cases r1 with
    | none => rfl
    | some y => exact h.elim
  | some x =>
    cases r1 with
    | none => exact h.elim
    | some y =>
      have : y.1 = x.1 := h.1
      simp [this]

/-- C12. Let `s` and `d` be distinct futures and let `L` hold the futures owned
beneath `s`: the members of the node of `s` and, with each future, the members
of its node; neither `s` nor `d` is among them (a `unique_ptr` owns its node
exclusively). Move-assigning `d` from `s`, and move-constructing a new future
from `s`, give the target the flag, closure, result and node handle that `s`
had, leave `s` with an empty closure and a null handle, change no node, and
`is_done()` and `get()` on the target return what they would have returned on
`s` before the move. -/
theorem C12_move_transfers (fuel : Nat) (w : World R) (s d : Nat) (L : List Nat)
    (hs : s < w.futures.length) (hd : d < w.futures.length) (hsd : s ≠ d)
    (hsL : s ∉ L) (hdL : d ∉ L) (hLx : ∀ a ∈ L, a < w.futures.length)
    (hpre : ∀ b ∈ w.prereqs s, b ∈ L)
    (hcl : ∀ a ∈ L, ∀ b ∈ w.prereqs a, b ∈ L) :
    (∃ wm, future.move_assign w d s = some wm
      ∧ wm.futures[d]? = w.futures[s]?
      ∧ wm.futures[s]?
          = (w.futures[s]?).map (fun o => { o with done_callback_ := none, state_ := none })
      ∧ wm.live s = false
      ∧ wm.nodes = w.nodes
      ∧ (future.is_done fuel wm d).map Prod.fst = (future.is_done fuel w s).map Prod.fst
      ∧ (future.get fuel wm d).map Prod.fst = (future.get fuel w s).map Prod.fst)
    ∧ (∃ wm, future.move_ctor w s = some (w.futures.length, wm)
      ∧ wm.futures[w.futures.length]? = w.futures[s]?
      ∧ wm.futures[s]?
          = (w.futures[s]?).map (fun o => { o with done_callback_ := none, state_ := none })
      ∧ wm.live s = false
      ∧ wm.nodes = w.nodes
      ∧ (future.is_done fuel wm w.futures.length).map Prod.fst
          = (future.is_done fuel w s).map Prod.fst
      ∧ (future.get fuel wm w.futures.length).map Prod.fst
          = (future.get fuel w s).map Prod.fst) := by
  have hso : w.futures[s]? = some w.futures[s] := List.getElem?_eq_getElem hs
  have hds : d ≠ s := fun h => hsd h.symm
  have hnL : w.futures.length ∉ L := fun h => Nat.lt_irrefl _ (hLx _ h)
  have hns : s ≠ w.futures.length := Nat.ne_of_lt hs
  constructor
  · have hM : World.Moved L s d w ((w.put d w.futures[s]).put s
        { w.futures[s] with done_callback_ := none, state_ := none }) := by
      refine ⟨rfl, ?_, ?_⟩
      · intro a ha
        have h1 : s ≠ a := fun h => hsL (h ▸ ha)
        have h2 : d ≠ a := fun h => hdL (h ▸ ha)
        simp only [World.put_futures, List.getElem?_set_ne h1, List.getElem?_set_ne h2]
      · simp only [World.put_futures, List.getElem?_set_ne hsd]
        simp [hd, hso]
    have hsrc : ((w.put d w.futures[s]).put s
        { w.futures[s] with done_callback_ := none, state_ := none }).futures[s]?
        = some { w.futures[s] with done_callback_ := none, state_ := none } := by
      simp [hs]
    refine ⟨_, by simp only [future.move_assign, hso, hd, if_true], hM.2.2, ?_, ?_, rfl,
      moved_results_fst L s d _ _
        ((is_done_prereqs_moved L s d hsL hdL fuel).1 _ _ s d hM (Or.inr ⟨rfl, rfl⟩) hpre hcl),
      moved_results_fst L s d _ _
        (get_moved L s d hsL hdL fuel _ _ s d hM (Or.inr ⟨rfl, rfl⟩) hpre hcl)⟩
    · rw [hsrc, hso]; rfl
    · simp only [World.live, hsrc]; rfl
  · have hM : World.Moved L s w.futures.length w
        (({ w with futures := w.futures ++ [w.futures[s]] } : World R).put s
          { w.futures[s] with done_callback_ := none, state_ := none }) := by
      refine ⟨rfl, ?_, ?_⟩
      · intro a ha
        have h1 : s ≠ a := fun h => hsL (h ▸ ha)
        simp only [World.put_futures, List.getElem?_set_ne h1]
        exact List.getElem?_append_left (hLx a ha)
      · simp only [World.put_futures, List.getElem?_set_ne hns]
        simp [hso]
    have hsrc : (({ w with futures := w.futures ++ [w.futures[s]] } : World R).put s
        { w.futures[s] with done_callback_ := none, state_ := none }).futures[s]?
        = some { w.futures[s] with done_callback_ := none, state_ := none } := by
      simp only [World.put_futures]
      rw [List.getElem?_set_self (by simp; omega)]
    refine ⟨_, by simp only [future.move_ctor, hso], hM.2.2, ?_, ?_, rfl,
      moved_results_fst L s _ _ _
        ((is_done_prereqs_moved L s _ hsL hnL fuel).1 _ _ s _ hM (Or.inr ⟨rfl, rfl⟩) hpre hcl),
      moved_results_fst L s _ _ _
        (get_moved L s _ hsL hnL fuel _ _ s _ hM (Or.inr ⟨rfl, rfl⟩) hpre hcl)⟩
    · rw [hsrc, hso]; rfl
    · simp only [World.live, hsrc]; rfl

/-- C12 at the chained future of `waiting_world` (address 3, holding the
continuation node 1, whose members are the futures 1 and 2), moved into the
empty future at address 0 and into a new future (address 4): the target shows
what the source showed, the source holds no node, the first `is_done()` on the
target answers false as on the source (the precondition's closure fails its
first poll) and `get()` returns the stored result. -/
theorem C12_move_transfers_witness :
    (∃ wm, future.move_assign (waiting_world 2 1 true (Val.int 0) 0 false) 0 3 = some wm
      ∧ wm.view 0 = (waiting_world 2 1 true (Val.int 0) 0 false).view 3
      ∧ wm.live 3 = false
      ∧ (future.is_done 6 wm 0).map Prod.fst = some false
      ∧ (future.get 6 wm 0).map Prod.fst = some (Val.int 0))
    ∧ (∃ wm, future.move_ctor (waiting_world 2 1 true (Val.int 0) 0 false) 3 = some (4, wm)
      ∧ wm.view 4 = (waiting_world 2 1 true (Val.int 0) 0 false).view 3
      ∧ wm.live 3 = false
      ∧ (future.is_done 6 wm 4).map Prod.fst = some false
      ∧ (future.get 6 wm 4).map Prod.fst = some (Val.int 0)) := by
  obtain ⟨⟨wm, h1, h2, _, h4, _, h6, h7⟩, ⟨wc, c1, c2, _, c4, _, c6, c7⟩⟩ :=
    C12_move_transfers 6 (waiting_world 2 1 true (Val.int 0) 0 false) 3 0 [1, 2]
      (by decide) (by decide) (by decide) (by decide) (by decide) (by decide)
      (by decide) (by decide)
  have hd : (future.is_done 6 (waiting_world 2 1 true (Val.int 0) 0 false) 3).map Prod.fst
      = some false := by decide!
  have hg : (future.get 6 (waiting_world 2 1 true (Val.int 0) 0 false) 3).map Prod.fst
      = some (Val.int 0) := by decide!
  exact ⟨⟨wm, h1, by simp only [World.view, h2], h4, h6.trans hd, h7.trans hg⟩,
    ⟨wc, c1, by simp only [World.view]; exact congrArg _ c2, c4, c6.trans hd, c7.trans hg⟩⟩

/-! ## Closures that only report: the two sets of functions agree -/

theorem report_only (fuel : Nat) :
    (∀ (w : World R) (a : Nat),
        future.is_done_cb (fun _ => none) fuel w a = future.is_done fuel w a)
    ∧ (∀ (w : World R) (n : Nat),
        detail.shared_state.prereqs_done_cb (fun _ => none) fuel w n
          = detail.shared_state.prereqs_done fuel w n)
    ∧ (∀ (w : World R) (a : Nat),
        future.wait_cb (fun _ => none) fuel w a = future.wait fuel w a)
    ∧ (∀ (w : World R) (n : Nat),
        detail.shared_state.do_continuation_cb (fun _ => none) fuel w n
          = detail.shared_state.do_continuation fuel w n)
    ∧ (∀ (w : World R) (n : Nat),
        detail.shared_state.launch_continuation_cb (fun _ => none) fuel w n
          = detail.shared_state.launch_continuation fuel w n)
    ∧ (∀ (w : World R) (c : ContinuationF R) (p : Nat),
        ContinuationF.call_cb (fun _ => none) fuel w c p = ContinuationF.call fuel w c p)
    ∧ (∀ (w : World R) (x : R),
        make_ready_future_cb (fun _ => none) fuel w x = make_ready_future fuel w x)
    ∧ (∀ (w : World R) (a : Nat) (x : R),
        future.set_value_cb (fun _ => none) fuel w a x = future.set_value fuel w a x)
    ∧ (∀ (w : World R) (a : Nat) (x : R),
        future.mark_finished_with_result_cb (fun _ => none) fuel w a x
          = future.mark_finished_with_result fuel w a x) := by
  induction fuel with
  | zero =>
    refine ⟨?_, ?_, ?_, ?_, ?_, ?_, ?_, ?_, ?_⟩
    · intro w a; rw [future.is_done_cb, future.is_done]
    · intro w n
      rw [detail.shared_state.prereqs_done_cb, detail.shared_state.prereqs_done]
    · intro w a; rw [future.wait_cb, future.wait]
    · intro w n
      rw [detail.shared_state.do_continuation_cb, detail.shared_state.do_continuation]
    · intro w n
      rw [detail.shared_state.launch_continuation_cb, detail.shared_state.launch_continuation]
    · intro w c p; rw [ContinuationF.call_cb, ContinuationF.call]
    · intro w x; rw [make_ready_future_cb, make_ready_future]
    · intro w a x; rw [future.set_value_cb, future.set_value]
    · intro w a x
      rw [future.mark_finished_with_result_cb, future.mark_finished_with_result]
  | succ k ih =>
    obtain ⟨i1, i2, i3, i4, i5, i6, i7, i8, i9⟩ := ih
    refine ⟨?_, ?_, ?_, ?_, ?_, ?_, ?_, ?_, ?_⟩
    · intro w a
      rw [future.is_done_cb, future.is_done]
      simp only [i2]
    · intro w n
      rw [detail.shared_state.prereqs_done_cb, detail.shared_state.prereqs_done]
      simp only [i1]
    · intro w a
      rw [future.wait_cb, future.wait]
      simp only [i1, i3]
    · intro w n
      rw [detail.shared_state.do_continuation_cb, detail.shared_state.do_continuation]
      simp only [i5]
    · intro w n
      rw [detail.shared_state.launch_continuation_cb, detail.shared_state.launch_continuation]
      simp only [i6]
    · intro w c p
      cases c with
      | wrapped g =>
        rw [ContinuationF.call_cb, ContinuationF.call]
        simp only [i3, i7, future.get]
        cases future.wait k w p with
        | none => rfl
        | some w1 =>
          dsimp only
          cases w1.futures[p]? <;> rfl
      | chained_read cb => rw [ContinuationF.call_cb, ContinuationF.call]
    · intro w x
      rw [make_ready_future_cb, make_ready_future]
      simp only [i8]
    · intro w a x
      rw [future.set_value_cb, future.set_value]
      exact i9 w a x
    · intro w a x
      rw [future.mark_finished_with_result_cb, future.mark_finished_with_result]
      simp only [i4]

theorem report_only_get (fuel : Nat) (w : World R) (a : Nat) :
    future.get_cb (fun _ => none) fuel w a = future.get fuel w a := by
  simp only [future.get_cb, future.get, (report_only fuel).2.2.1]

theorem report_only_set_continuation_ptr (fuel : Nat) (w : World R) (a c : Nat) :
    future.set_continuation_ptr_cb (fun _ => none) fuel w a c
      = future.set_continuation_ptr fuel w a c := by
  simp only [future.set_continuation_ptr_cb, future.set_continuation_ptr,
    (report_only fuel).1, (report_only fuel).2.2.2.1]

theorem report_only_then (fuel : Nat) (w : World R) (a : Nat) (func : ContinuationF R) :
    future.then_cb (fun _ => none) fuel w a func = future.then_ fuel w a func := by
  simp only [future.then_cb, future.then_, detail.make_continuation_future_cb,
    detail.make_continuation_future, detail.continuation_shared_state.init_cb,
    detail.continuation_shared_state.init, report_only_set_continuation_ptr]

/-! ## Runs with fulfilling closures: the trace and the lists -/

theorem sum_map_set {A : Type} (f : A → Nat) :
    ∀ (l : List A) (i : Nat) (hi : i < l.length) (a : A),
      ((l.set i a).map f).sum + f l[i] = (l.map f).sum + f a := by
  intro l
  induction l with
  | nil => intro i hi; simp at hi
  | cons x rest ih =>
    intro i hi a
    cases i with
    | zero => simp; omega
    | succ j =>
      simp only [List.length_cons, Nat.add_lt_add_iff_right] at hi
      have := ih j hi a
      simp only [List.set_cons_succ, List.map_cons, List.sum_cons, List.getElem_cons_succ]
      omega

theorem registered_put_node (w : World R) (n : Nat) (node : detail.shared_state R)
    (hn : n < w.nodes.length) (h : Nat) :
    (w.put_node n node).registered h + (w.nodes[n]).continuations.count h
      = w.registered h + node.continuations.count h := by
  simp only [World.registered, World.put_node_nodes]
  exact sum_map_set (fun nd => nd.continuations.count h) w.nodes n hn node

theorem World.Ran.same (h : Nat) (w : World R) : World.Ran h 0 w w :=
  ⟨⟨[], by simp⟩, le_refl _, fun _ _ => rfl, fun _ => rfl, fun _ => le_refl _⟩

theorem regs_of_nodes_eq (w w1 : World R) (hn : w1.nodes = w.nodes) (m : Nat) :
    w1.regs_of m = w.regs_of m := by
  simp [World.regs_of, hn]

theorem World.Ran.of_nodes_same (h : Nat) (w w1 : World R) (hn : w1.nodes = w.nodes)
    (hl : w1.launched = w.launched) : World.Ran h 0 w w1 :=
  ⟨⟨[], by simp [hl]⟩, by rw [hn], fun _ _ => by simp [World.dyn_of, hn],
    regs_of_nodes_eq w w1 hn, fun _ => by simp [World.registered, hn, hl]⟩

theorem World.Ran.seq (h a b : Nat) (w w1 w2 : World R) (h1 : World.Ran h a w w1)
    (h2 : World.Ran h b w1 w2) : World.Ran h (a + b) w w2 := by
  obtain ⟨⟨t1, l1⟩, n1, d1, r1, c1⟩ := h1
  obtain ⟨⟨t2, l2⟩, n2, d2, r2, c2⟩ := h2
  refine ⟨⟨t1 ++ t2, by rw [l2, l1, List.append_assoc]⟩, le_trans n1 n2, ?_, ?_, ?_⟩
  · intro m hm
    rw [d2 m (lt_of_lt_of_le hm n1), d1 m hm]
  · intro m; rw [r2, r1]
  · intro hu
    have hu1 : ∀ m, ∀ p ∈ w1.regs_of m, p.2 ≠ h := by
      intro m p hp
      rw [r1] at hp
      exact hu m p hp
    have := c1 hu
    have := c2 hu1
    omega

theorem World.Ran.trace (h c : Nat) (w : World R) :
    World.Ran h ([c].count h) w { w with launched := w.launched ++ [c] } := by
  refine ⟨⟨[c], rfl⟩, le_refl _, fun _ _ => rfl, fun _ => rfl, fun _ => ?_⟩
  simp only [List.count_append, World.registered]
  omega

theorem World.Ran.ctor (h : Nat) (w : World R) : World.Ran h 0 w (future.ctor w).2 := by
  refine ⟨⟨[], by simp [future.ctor]⟩, by simp [future.ctor], ?_, ?_, fun _ => ?_⟩
  · intro m hm
    simp [World.dyn_of, future.ctor, List.getElem?_append_left hm]
  · intro m
    simp only [World.regs_of, future.ctor]
    by_cases hm : m < w.nodes.length
    · rw [List.getElem?_append_left hm]
    · have hge : w.nodes.length ≤ m := Nat.le_of_not_lt hm
      rw [List.getElem?_eq_none_iff.mpr hge]
      by_cases hm2 : m = w.nodes.length
      · subst hm2; simp
      · rw [List.getElem?_eq_none_iff.mpr (by simp; omega)]
  · simp [World.registered, future.ctor]

theorem World.Ran.pushed (h : Nat) (w w1 : World R) (t x : Nat)
    (hs : detail.shared_state.set_continuation_ptr w t x = some w1) :
    World.Ran h ([x].count h) w w1
      ∧ w1.launched = w.launched ∧ w1.futures = w.futures := by
  unfold detail.shared_state.set_continuation_ptr at hs
  split at hs
  · simp at hs
  · rename_i node hnode
    simp at hs; subst hs
    have ht : t < w.nodes.length := (List.getElem?_eq_some_iff.mp hnode).1
    have hnd : w.nodes[t] = node := by
      have := List.getElem?_eq_getElem ht
      rw [hnode] at this
      exact (Option.some.inj this).symm
    refine ⟨⟨⟨[], by simp⟩, by simp, ?_, ?_, fun _ => ?_⟩, rfl, rfl⟩
    · intro m hm
      simp only [World.dyn_of, World.put_node_nodes]
      by_cases hmt : t = m
      · subst hmt; simp [hnode, ht]
      · simp [List.getElem?_set_ne hmt]
    · intro m
      simp only [World.regs_of, World.put_node_nodes]
      by_cases hmt : t = m
      · subst hmt; simp [hnode, ht]
      · simp [List.getElem?_set_ne hmt]
    · have := registered_put_node w t
        { node with continuations := node.continuations ++ [x] } ht h
      rw [hnd] at this
      simp only [List.count_append] at this
      simp only [World.put_node_launched]
      omega

theorem World.Ran.drained (h : Nat) (w : World R) (n : Nat) (node : detail.shared_state R)
    (hnode : w.nodes[n]? = some node) :
    World.Ran h 0 w (w.put_node n { node with continuations := [] })
      ∧ (w.put_node n { node with continuations := [] }).registered h
          + node.continuations.count h = w.registered h := by
  have ht : n < w.nodes.length := (List.getElem?_eq_some_iff.mp hnode).1
  have hnd : w.nodes[n] = node := by
    have := List.getElem?_eq_getElem ht
    rw [hnode] at this
    exact (Option.some.inj this).symm
  have hreg := registered_put_node w n { node with continuations := [] } ht h
  rw [hnd] at hreg
  simp only [List.count_nil, Nat.add_zero] at hreg
  refine ⟨⟨⟨[], by simp⟩, by simp, ?_, ?_, fun _ => ?_⟩, hreg⟩
  · intro m hm
    simp only [World.dyn_of, World.put_node_nodes]
    by_cases hmt : n = m
    · subst hmt; simp [hnode, ht]
    · simp [List.getElem?_set_ne hmt]
  · intro m
    simp only [World.regs_of, World.put_node_nodes]
    by_cases hmt : n = m
    · subst hmt; simp [hnode, ht]
    · simp [List.getElem?_set_ne hmt]
  · simp only [World.put_node_launched]
    omega

theorem World.Ran.under (h a b : Nat) (w w1 : World R) (h1 : World.Ran h a w w1)
    (hab : (∀ m, ∀ p ∈ w.regs_of m, p.2 ≠ h) → a ≤ b) : World.Ran h b w w1 := by
  obtain ⟨l1, n1, d1, r1, c1⟩ := h1
  exact ⟨l1, n1, d1, r1, fun hu => le_trans (c1 hu) (by have := hab hu; omega)⟩

theorem register_each_ran (h : Nat) (regs : List (Nat × Nat)) :
    ∀ (w w1 : World R),
      for_each (fun wi r => detail.shared_state.set_continuation_ptr wi r.1 r.2) regs w
        = some w1 →
      World.Ran h ((regs.map Prod.snd).count h) w w1 := by
  induction regs with
  | nil =>
    intro w w1 hr
    simp [for_each] at hr; subst hr
    exact World.Ran.same h _
  | cons a rest ih =>
    intro w w1 hr
    rw [for_each] at hr
    split at hr
    · simp at hr
    · rename_i w2 hs
      have h1 := (World.Ran.pushed h _ _ _ _ hs).1
      have h2 := ih _ _ hr
      have := World.Ran.seq h _ _ _ _ _ h1 h2
      simpa [List.count_cons, Nat.add_comm] using this

theorem launch_each_ran (act : done_callback → Option R) (h k : Nat)
    (H : ∀ (w : World R) (c : Nat) (w1 : World R),
      detail.shared_state.launch_continuation_cb act k w c = some w1 →
      World.Ran h ([c].count h) w w1 ∧ ∃ t, w1.launched = w.launched ++ c :: t) :
    ∀ (cs : List Nat) (w w1 : World R),
      for_each (fun wi cont => detail.shared_state.launch_continuation_cb act k wi cont) cs w
        = some w1 →
      World.Ran h (cs.count h) w w1
        ∧ ∃ t, w1.launched = w.launched ++ t ∧ cs.Sublist t := by
  intro cs
  induction cs with
  | nil =>
    intro w w1 hr
    simp [for_each] at hr; subst hr
    exact ⟨World.Ran.same h _, [], by simp, List.Sublist.refl _⟩
  | cons c rest ih =>
    intro w w1 hr
    rw [for_each] at hr
    split at hr
    · simp at hr
    · rename_i w2 hl
      obtain ⟨h1, t1, e1⟩ := H _ _ _ hl
      obtain ⟨h2, t2, e2, s2⟩ := ih _ _ hr
      refine ⟨?_, c :: (t1 ++ t2), by rw [e2, e1]; simp, ?_⟩
      · have := World.Ran.seq h _ _ _ _ _ h1 h2
        have e : (c :: rest).count h = [c].count h + rest.count h := by
          rw [← List.count_append]; rfl
        rw [e]; exact this
      · exact List.Sublist.cons₂ c (s2.trans (List.sublist_append_right t1 t2))

theorem dma_future_ran (h : Nat) (w : World R) (cb : done_callback) (r : Nat × World R)
    (hr : dma_future w cb = some r) : World.Ran h 0 w r.2 := by
  unfold dma_future at hr
  dsimp only at hr
  split at hr
  · simp at hr
  · rename_i w1 hs
    simp at hr; subst hr
    have h1 := World.Ran.ctor h w
    have h2 : World.Ran h 0 (future.ctor w).2 w1 := by
      unfold future.set_done_callback at hs
      split at hs
      · simp at hs
      · simp at hs; subst hs
        exact World.Ran.of_nodes_same h _ _ rfl rfl
    simpa using World.Ran.seq h _ _ _ _ _ h1 h2

theorem set_done_ran (h : Nat) (w w1 : World R) (a : Nat)
    (hs : future.set_done w a = some w1) : World.Ran h 0 w w1 := by
  have := set_done_frame w w1 a hs
  exact World.Ran.of_nodes_same h _ _ this.1 this.2.1

theorem move_assign_ran (h : Nat) (w w1 : World R) (a b : Nat)
    (hs : future.move_assign w a b = some w1) : World.Ran h 0 w w1 := by
  unfold future.move_assign at hs
  split at hs
  · simp at hs
  · split at hs
    · simp at hs; subst hs
      exact World.Ran.of_nodes_same h _ _ rfl rfl
    · simp at hs

/-- Every function of the header, run with any closures: the trace only grows,
and the launches of a node `h` together with the list entries naming `h` never
become more, except by the launch of `h` itself, which takes the place of the
entry drained for it. -/
theorem ran_all (act : done_callback → Option R) (h : Nat) (fuel : Nat) :
    (∀ (w : World R) (a : Nat) (r : Bool × World R),
        future.is_done_cb act fuel w a = some r → World.Ran h 0 w r.2)
    ∧ (∀ (w : World R) (n : Nat) (r : Bool × World R),
        detail.shared_state.prereqs_done_cb act fuel w n = some r → World.Ran h 0 w r.2)
    ∧ (∀ (w : World R) (a : Nat) (w1 : World R),
        future.wait_cb act fuel w a = some w1 → World.Ran h 0 w w1)
    ∧ (∀ (w : World R) (n : Nat) (w1 : World R),
        detail.shared_state.do_continuation_cb act fuel w n = some w1 → World.Ran h 0 w w1)
    ∧ (∀ (w : World R) (c : Nat) (w1 : World R),
        detail.shared_state.launch_continuation_cb act fuel w c = some w1 →
        World.Ran h ([c].count h) w w1 ∧ ∃ t, w1.launched = w.launched ++ c :: t)
    ∧ (∀ (w : World R) (c : ContinuationF R) (p : Nat) (r : Nat × World R),
        ContinuationF.call_cb act fuel w c p = some r → World.Ran h 0 w r.2)
    ∧ (∀ (w : World R) (x : R) (r : Nat × World R),
        make_ready_future_cb act fuel w x = some r → World.Ran h 0 w r.2)
    ∧ (∀ (w : World R) (a : Nat) (x : R) (w1 : World R),
        future.set_value_cb act fuel w a x = some w1 → World.Ran h 0 w w1)
    ∧ (∀ (w : World R) (a : Nat) (x : R) (w1 : World R),
        future.mark_finished_with_result_cb act fuel w a x = some w1 →
        World.Ran h 0 w w1) := by
  induction fuel with
  | zero =>
    refine ⟨?_, ?_, ?_, ?_, ?_, ?_, ?_, ?_, ?_⟩
    · intro w a r hr; simp [future.is_done_cb] at hr
    · intro w n r hr; simp [detail.shared_state.prereqs_done_cb] at hr
    · intro w a w1 hr; simp [future.wait_cb] at hr
    · intro w n w1 hr; simp [detail.shared_state.do_continuation_cb] at hr
    · intro w c w1 hr; simp [detail.shared_state.launch_continuation_cb] at hr
    · intro w c p r hr; simp [ContinuationF.call_cb] at hr
    · intro w x r hr; simp [make_ready_future_cb] at hr
    · intro w a x w1 hr; simp [future.set_value_cb] at hr
    · intro w a x w1 hr; simp [future.mark_finished_with_result_cb] at hr
  | succ k ih =>
    obtain ⟨i1, i2, i3, i4, i5, i6, i7, i8, i9⟩ := ih
    refine ⟨?_, ?_, ?_, ?_, ?_, ?_, ?_, ?_, ?_⟩
    · -- is_done
      intro w a r hr
      rw [future.is_done_cb] at hr
      cases hme : w.futures[a]? with
      | none => simp [hme] at hr
      | some me =>
        simp only [hme] at hr
        cases hcb : me.done_callback_ with
        | some cb =>
          simp only [hcb] at hr
          have h0 : World.Ran h 0 w
              (w.put a { me with done_callback_ := some cb.invoke.2 }) :=
            World.Ran.of_nodes_same h _ _ rfl rfl
          cases hact : act cb with
          | none =>
            simp only [hact] at hr
            split at hr
            · simp at hr; subst hr; exact h0
            · split at hr
              · simp at hr
              · rename_i w3 hs
                simp at hr; subst hr
                simpa using World.Ran.seq h _ _ _ _ _ h0 (set_done_ran h _ _ _ hs)
          | some v =>
            simp only [hact] at hr
            cases hsv : future.set_value_cb act k
                (w.put a { me with done_callback_ := some cb.invoke.2 }) a v with
            | none => simp [hsv] at hr
            | some w2 =>
              simp only [hsv] at hr
              have h1 := i8 _ _ _ _ hsv
              have h01 : World.Ran h 0 w w2 := by
                simpa using World.Ran.seq h _ _ _ _ _ h0 h1
              split at hr
              · simp at hr; subst hr; exact h01
              · split at hr
                · simp at hr
                · rename_i w3 hs
                  simp at hr; subst hr
                  simpa using World.Ran.seq h _ _ _ _ _ h01 (set_done_ran h _ _ _ hs)
        | none =>
          simp only [hcb] at hr
          cases hst : me.state_ with
          | none =>
            simp only [hst] at hr
            simp at hr; subst hr
            exact World.Ran.same h _
          | some n =>
            simp only [hst] at hr
            split at hr
            · simp at hr
            · rename_i w1 hp
              simp at hr; subst hr
              exact i2 _ _ _ hp
            · rename_i w1 hp
              split at hr
              · simp at hr
              · simp at hr; subst hr
                exact i2 _ _ (true, w1) hp
    · -- prereqs_done
      intro w n r hr
      rw [detail.shared_state.prereqs_done_cb] at hr
      split at hr
      · simp at hr
      · split at hr
        · simp at hr; subst hr; exact World.Ran.same h _
        · simp at hr; subst hr; exact World.Ran.same h _
        · split at hr
          · split at hr
            · exact i1 _ _ _ hr
            · split at hr
              · exact i1 _ _ _ hr
              · simp at hr; subst hr; exact World.Ran.same h _
          · simp at hr
    · -- wait
      intro w a w1 hr
      rw [future.wait_cb] at hr
      split at hr
      · simp at hr
      · rename_i w2 hd
        simp at hr; subst hr
        exact i1 _ _ (true, w2) hd
      · rename_i w2 hd
        have h1 := i1 _ _ (false, w2) hd
        have h2 := i3 _ _ _ hr
        simpa using World.Ran.seq h _ _ _ _ _ h1 h2
    · -- do_continuation
      intro w n w1 hr
      rw [detail.shared_state.do_continuation_cb] at hr
      split at hr
      · simp at hr
      · rename_i node hnode
        split at hr
        · simp at hr; subst hr; exact World.Ran.same h _
        · dsimp only at hr
          obtain ⟨hd, hreg⟩ := World.Ran.drained h w n node hnode
          obtain ⟨hl, t, ht, _⟩ := launch_each_ran act h k i5 _ _ _ hr
          have hall := World.Ran.seq h _ _ _ _ _ hd hl
          obtain ⟨l1, n1, d1, r1, _⟩ := hall
          refine ⟨l1, n1, d1, r1, fun hu => ?_⟩
          have hu1 : ∀ m, ∀ p ∈
              (w.put_node n { node with continuations := [] }).regs_of m, p.2 ≠ h := by
            intro m p hp
            rw [hd.2.2.2.1] at hp
            exact hu m p hp
          have := hl.2.2.2.2 hu1
          simp only [World.put_node_launched] at this
          omega
    · -- launch_continuation
      intro w c w1 hr
      rw [detail.shared_state.launch_continuation_cb] at hr
      split at hr
      · simp at hr
      · rename_i node hnode
        dsimp only at hr
        have h0 := World.Ran.trace h c w
        split at hr
        · simp at hr; subst hr
          exact ⟨h0, [], rfl⟩
        · rename_i registers hdyn
          have h1 := register_each_ran h _ _ _ hr
          have hall := World.Ran.seq h _ _ _ _ _ h0 h1
          refine ⟨World.Ran.under h _ _ _ _ hall ?_, ?_⟩
          · intro hu
            have hregs : w.regs_of c = registers := by
              simp [World.regs_of, hnode, hdyn]
            have : (registers.map Prod.snd).count h = 0 := by
              apply List.count_eq_zero_of_not_mem
              intro hmem
              obtain ⟨p, hp, hph⟩ := List.mem_map.mp hmem
              exact hu c p (hregs ▸ hp) hph
            omega
          · obtain ⟨t, ht⟩ := h1.1
            exact ⟨t, by rw [ht]; simp⟩
        · rename_i pre cf alt hdyn
          split at hr
          · simp at hr
          · rename_i ret w2 hcall
            split at hr
            · simp at hr
            · rename_i w3 hm
              have h1 := i6 _ _ _ (ret, w2) hcall
              have h2 := move_assign_ran h _ _ _ _ hm
              have h3 : World.Ran h 0 w3 (future.ctor_state w3 none).2 :=
                World.Ran.of_nodes_same h _ _ rfl rfl
              have h4 := move_assign_ran h _ _ _ _ hr
              have h14 : World.Ran h 0 { w with launched := w.launched ++ [c] } w1 := by
                simpa using World.Ran.seq h _ _ _ _ _ h1
                  (World.Ran.seq h _ _ _ _ _ h2 (World.Ran.seq h _ _ _ _ _ h3 h4))
              refine ⟨by simpa using World.Ran.seq h _ _ _ _ _ h0 h14, ?_⟩
              obtain ⟨t, ht⟩ := h14.1
              exact ⟨t, by rw [ht]; simp⟩
    · -- the user callable
      intro w c p r hr
      cases c with
      | wrapped g =>
        rw [ContinuationF.call_cb] at hr
        split at hr
        · simp at hr
        · rename_i w1 hw
          split at hr
          · simp at hr
          · have h1 := i3 _ _ _ hw
            have h2 := i7 _ _ _ hr
            simpa using World.Ran.seq h _ _ _ _ _ h1 h2
      | chained_read cb =>
        rw [ContinuationF.call_cb] at hr
        exact dma_future_ran h _ _ _ hr
    · -- make_ready_future
      intro w x r hr
      rw [make_ready_future_cb] at hr
      split at hr
      · simp at hr
      · rename_i w1 hs
        simp at hr; subst hr
        simpa using World.Ran.seq h _ _ _ _ _ (World.Ran.ctor h w) (i8 _ _ _ _ hs)
    · -- set_value
      intro w a x w1 hr
      rw [future.set_value_cb] at hr
      exact i9 _ _ _ _ hr
    · -- mark_finished_with_result
      intro w a x w1 hr
      rw [future.mark_finished_with_result_cb] at hr
      split at hr
      · simp at hr
      · rename_i me hme
        split at hr
        · simp at hr
        · rename_i w2 hs
          split at hr
          · simp at hr
          · have h0 : World.Ran h 0 w (w.put a { me with result_ := x }) :=
              World.Ran.of_nodes_same h _ _ rfl rfl
            have h1 := set_done_ran h _ _ _ hs
            have h2 := i4 _ _ _ hr
            simpa using World.Ran.seq h _ _ _ _ _ h0 (World.Ran.seq h _ _ _ _ _ h1 h2)

theorem get_cb_ran (act : done_callback → Option R) (h fuel : Nat) (w : World R) (a : Nat)
    (r : R × World R) (hr : future.get_cb act fuel w a = some r) : World.Ran h 0 w r.2 := by
  unfold future.get_cb at hr
  split at hr
  · simp at hr
  · rename_i w1 hw
    split at hr
    · simp at hr
    · simp at hr; subst hr
      exact (ran_all act h fuel).2.2.1 _ _ _ hw

theorem run_calls_cb_ran (act : done_callback → Option R) (h fuel : Nat)
    (calls : List (Nat × future.call)) :
    ∀ (w w2 : World R), future.run_calls_cb act fuel calls w = some w2 →
      World.Ran h 0 w w2 := by
  induction calls with
  | nil =>
    intro w w2 hr
    simp [future.run_calls_cb, for_each] at hr; subst hr
    exact World.Ran.same h _
  | cons a rest ih =>
    intro w w2 hr
    rw [future.run_calls_cb, for_each] at hr
    split at hr
    · simp at hr
    · rename_i w1 h1
      have h2 := ih w1 w2 hr
      have h3 : World.Ran h 0 w w1 := by
        obtain ⟨self, c⟩ := a
        cases c with
        | is_done =>
          simp only [future.run_call_cb, Option.map_eq_some'] at h1
          obtain ⟨r, hr1, hr2⟩ := h1
          subst hr2
          exact (ran_all act h fuel).1 _ _ _ hr1
        | wait => exact (ran_all act h fuel).2.2.1 _ _ _ h1
        | get =>
          simp only [future.run_call_cb, Option.map_eq_some'] at h1
          obtain ⟨r, hr1, hr2⟩ := h1
          subst hr2
          exact get_cb_ran act h fuel _ _ _ hr1
      simpa using World.Ran.seq h _ _ _ _ _ h3 h2

theorem set_continuation_ptr_cb_ran (act : done_callback → Option R) (h fuel : Nat)
    (w w1 : World R) (self c : Nat)
    (hr : future.set_continuation_ptr_cb act fuel w self c = some w1) :
    World.Ran h ([c].count h) w w1 := by
  unfold future.set_continuation_ptr_cb at hr
  split at hr
  · simp at hr
  · split at hr
    · simp at hr
    · split at hr
      · simp at hr
      · rename_i wa hset
        have ha := (World.Ran.pushed h _ _ _ _ hset).1
        split at hr
        · simp at hr
        · rename_i wb hd
          simp at hr; subst hr
          simpa using World.Ran.seq h _ _ _ _ _ ha ((ran_all act h fuel).1 _ _ _ hd)
        · rename_i wb hd
          have hb := (ran_all act h fuel).1 _ _ (true, wb) hd
          split at hr
          · simp at hr
          · have hc := (ran_all act h fuel).2.2.2.1 _ _ _ hr
            simpa using World.Ran.seq h _ _ _ _ _ ha (World.Ran.seq h _ _ _ _ _ hb hc)

/-- The memory inside `make_continuation_future` just before `init()`: the
precondition moved into `precondition_` (the first free address), the empty
`alt_precondition_` after it, and the new node. -/
theorem make_continuation_future_cb_eq (act : done_callback → Option R) (fuel : Nat)
    (w : World R) (f : Nat) (c : ContinuationF R) (o : future R)
    (hme : w.futures[f]? = some o) :
    ∃ W3 : World R,
      W3.futures = w.futures.set f { o with done_callback_ := none, state_ := none }
          ++ [o, { done_ := (w.junk (w.futures.length + 1)).1, done_callback_ := none,
                   result_ := (w.junk (w.futures.length + 1)).2, state_ := none }]
      ∧ W3.nodes = w.nodes ++
          [⟨[], .continuation_shared_state w.futures.length c (w.futures.length + 1)⟩]
      ∧ W3.launched = w.launched
      ∧ detail.make_continuation_future_cb act fuel w f c =
          (match detail.continuation_shared_state.init_cb act fuel W3 w.nodes.length with
           | none => none
           | some w4 => some (future.ctor_state w4 (some w.nodes.length)))
      ∧ detail.continuation_shared_state.init_cb act fuel W3 w.nodes.length
          = future.set_continuation_ptr_cb act fuel W3 w.futures.length w.nodes.length := by
  have hf : f < w.futures.length := (List.getElem?_eq_some_iff.mp hme).1
  refine ⟨{ futures := w.futures.set f { o with done_callback_ := none, state_ := none }
              ++ [o, { done_ := (w.junk (w.futures.length + 1)).1, done_callback_ := none,
                       result_ := (w.junk (w.futures.length + 1)).2, state_ := none }],
            nodes := w.nodes ++
              [⟨[], .continuation_shared_state w.futures.length c (w.futures.length + 1)⟩],
            launched := w.launched, junk := w.junk }, rfl, rfl, rfl, ?_, ?_⟩
  · simp only [detail.make_continuation_future_cb, future.move_ctor, hme, future.ctor_state,
      World.put, List.length_append, List.length_set, List.length_singleton,
      List.set_append_left _ _ hf, List.append_assoc, List.singleton_append]
  · simp [detail.continuation_shared_state.init_cb]

/-- What `make_continuation_future` does from the memory just before `init()`,
seen from the new node. -/
theorem make_continuation_future_cb_ran (act : done_callback → Option R) (fuel : Nat)
    (w : World R) (f : Nat) (c : ContinuationF R) (r : Nat × World R)
    (hr : detail.make_continuation_future_cb act fuel w f c = some r) :
    ∃ W3 : World R,
      W3.launched = w.launched
      ∧ W3.nodes = w.nodes ++
          [⟨[], .continuation_shared_state w.futures.length c (w.futures.length + 1)⟩]
      ∧ World.Ran w.nodes.length 1 W3 r.2
      ∧ (r.2.futures[r.1]?).bind (fun x => x.state_) = some w.nodes.length := by
  cases hme : w.futures[f]? with
  | none => simp [detail.make_continuation_future_cb, future.move_ctor, hme] at hr
  | some o =>
    obtain ⟨W3, _, hN3, hL3, hmcf, hinit0⟩ := make_continuation_future_cb_eq act fuel w f c o hme
    rw [hmcf] at hr
    cases hinit : detail.continuation_shared_state.init_cb act fuel W3 w.nodes.length with
    | none => simp [hinit] at hr
    | some w4 =>
      simp only [hinit, Option.some.injEq] at hr
      subst hr
      rw [hinit0] at hinit
      have h1 := set_continuation_ptr_cb_ran act w.nodes.length fuel _ _ _ _ hinit
      have h2 : World.Ran w.nodes.length 0 w4
          (future.ctor_state w4 (some w.nodes.length)).2 :=
        World.Ran.of_nodes_same _ _ _ rfl rfl
      refine ⟨W3, hL3, hN3, ?_, by simp [future.ctor_state]⟩
      have := World.Ran.seq _ _ _ _ _ _ h1 h2
      simpa using this

/-! ## C15: the continuation of a chained future is invoked at most once -/

theorem registered_fresh (w : World R)
    (hlists : ∀ m, m < w.nodes.length → ∀ x ∈ w.continuations_of m, x < w.nodes.length) :
    w.registered w.nodes.length = 0 := by
  unfold World.registered
  apply List.sum_eq_zero
  intro x hx
  obtain ⟨nd, hnd, rfl⟩ := List.mem_map.mp hx
  obtain ⟨m, hm, rfl⟩ := List.getElem_of_mem hnd
  apply List.count_eq_zero_of_not_mem
  intro hmem
  have := hlists m hm w.nodes.length
    (by simpa [World.continuations_of, List.getElem?_eq_getElem hm] using hmem)
  exact Nat.lt_irrefl _ this

/-- C15. Let `then(func)` build the chained future `F` and its node `h` in a
memory whose node pointers all point to nodes that exist, and let any sequence
of `is_done()`, `wait()` and `get()` calls follow, with poll closures that
report or fulfil their futures in any way (`act`), so that a poll may itself
launch continuations. Then `h` is the node of `F`, it keeps the continuation
`func`, and among all the launches made since `then` was entered `h` occurs at
most once: the user continuation is invoked at most once. -/
theorem C15_continuation_invoked_at_most_once (act : done_callback → Option R)
    (fuel fuel2 : Nat) (w : World R) (self : Nat) (func : ContinuationF R)
    (calls : List (Nat × future.call))
    (hlists : ∀ m, m < w.nodes.length → ∀ x ∈ w.continuations_of m, x < w.nodes.length)
    (hregs : ∀ m, m < w.nodes.length → ∀ p ∈ w.regs_of m, p.2 < w.nodes.length)
    (hrun : ((future.then_cb act fuel w self func).bind
      (fun r => future.run_calls_cb act fuel2 calls r.2)).isSome = true) :
    ∃ F w1 w2 t, future.then_cb act fuel w self func = some (F, w1)
      ∧ future.run_calls_cb act fuel2 calls w1 = some w2
      ∧ (w1.futures[F]?).bind (fun x => x.state_) = some w.nodes.length
      ∧ w2.dyn_of w.nodes.length
          = some (.continuation_shared_state w.futures.length func (w.futures.length + 1))
      ∧ w2.launched = w.launched ++ t
      ∧ t.count w.nodes.length ≤ 1 := by
  cases hthen : future.then_cb act fuel w self func with
  | none => simp [hthen] at hrun
  | some r =>
    obtain ⟨F, w1⟩ := r
    rw [hthen] at hrun
    simp only [Option.some_bind] at hrun
    obtain ⟨w2, hw2⟩ := Option.isSome_iff_exists.mp hrun
    obtain ⟨W3, hL3, hN3, hran, hF⟩ :=
      make_continuation_future_cb_ran act fuel w self func (F, w1) hthen
    have hran2 := run_calls_cb_ran act w.nodes.length fuel2 calls w1 w2 hw2
    have hall : World.Ran w.nodes.length 1 W3 w2 := by
      simpa using World.Ran.seq _ _ _ _ _ _ hran hran2
    obtain ⟨⟨t, ht⟩, _, hd, _, hc⟩ := hall
    have hregs3 : ∀ m, ∀ p ∈ W3.regs_of m, p.2 ≠ w.nodes.length := by
      intro m p hp
      by_cases hm : m < w.nodes.length
      · have : W3.regs_of m = w.regs_of m := by
          simp [World.regs_of, hN3, List.getElem?_append_left hm]
        rw [this] at hp
        exact Nat.ne_of_lt (hregs m hm p hp)
      · have : W3.regs_of m = [] := by
          by_cases hm2 : m = w.nodes.length
          · subst hm2; simp [World.regs_of, hN3]
          · have : W3.nodes[m]? = none := by
              rw [List.getElem?_eq_none_iff, hN3]; simp; omega
            simp [World.regs_of, this]
        rw [this] at hp
        simp at hp
    have hreg3 : W3.registered w.nodes.length = 0 := by
      have := registered_fresh w hlists
      simpa [World.registered, hN3] using this
    have hcount := hc hregs3
    rw [ht, hL3, hreg3, List.count_append] at hcount
    refine ⟨F, w1, w2, t, rfl, hw2, hF, ?_, by rw [ht, hL3], by omega⟩
    rw [hd _ (by rw [hN3]; simp)]
    simp [World.dyn_of, hN3]

/-- C15 at a polled precondition whose closure fulfils it on its second poll,
chained to a wrapping continuation, followed by `is_done()`, `wait()` and
`get()` on the chained future (address 3, whose storage reads done): `then()`
makes the first poll and launches nothing, the first `is_done()` makes the
second poll, inside which the continuation node 1 is launched, and it is not
launched again. -/
theorem C15_continuation_invoked_at_most_once_witness :
    ∃ F w1 w2 t,
      future.then_cb (done_callback.fulfils (Val.int 7)) 6
          (polling_world true (Val.int 0) (done_callback.first_true_at 2).answers 0 false) 0
          (.wrapped (fun v => Val.bool (v == Val.int 7))) = some (F, w1)
      ∧ w1.launched = []
      ∧ future.run_calls_cb (done_callback.fulfils (Val.int 7)) 16
          [(3, .is_done), (3, .wait), (3, .get)] w1 = some w2
      ∧ w2.launched = [] ++ t
      ∧ t = [1]
      ∧ t.count 1 ≤ 1 := by
  obtain ⟨F, w1, w2, t, h1, h2, _, _, h5, h6⟩ :=
    C15_continuation_invoked_at_most_once (done_callback.fulfils (Val.int 7)) 6 16
      (polling_world true (Val.int 0) (done_callback.first_true_at 2).answers 0 false) 0
      (.wrapped (fun v => Val.bool (v == Val.int 7)))
      [(3, .is_done), (3, .wait), (3, .get)]
      (by decide) (by decide) (by decide!)
  have e1 : ((future.then_cb (done_callback.fulfils (Val.int 7)) 6
      (polling_world true (Val.int 0) (done_callback.first_true_at 2).answers 0 false) 0
      (.wrapped (fun v => Val.bool (v == Val.int 7)))).map (fun r => r.2.launched))
      = some [] := by decide!
  have e2 : (((future.then_cb (done_callback.fulfils (Val.int 7)) 6
      (polling_world true (Val.int 0) (done_callback.first_true_at 2).answers 0 false) 0
      (.wrapped (fun v => Val.bool (v == Val.int 7)))).bind
      (fun r => future.run_calls_cb (done_callback.fulfils (Val.int 7)) 16
        [(3, .is_done), (3, .wait), (3, .get)] r.2)).map (fun x => x.launched))
      = some [1] := by decide!
  rw [h1] at e1 e2
  simp only [Option.map_some', Option.some.injEq, Option.some_bind, h2] at e1 e2
  refine ⟨F, w1, w2, t, h1, e1, h2, h5, ?_, h6⟩
  rw [h5] at e2
  simpa using e2

/-! ## C6: a poll notifies the dependents when the closure fulfils the future -/

theorem do_continuation_cb_eq (act : done_callback → Option R) (fuel : Nat) (w : World R)
    (n : Nat) (hn : n < w.nodes.length) :
    detail.shared_state.do_continuation_cb act (fuel + 1) w n =
      detail.shared_state.launch_each_cb act fuel (w.continuations_of n) (w.drain n) := by
  rw [detail.shared_state.do_continuation_cb]
  have hnode : w.nodes[n]? = some w.nodes[n] := List.getElem?_eq_getElem hn
  simp only [hnode]
  by_cases he : (w.nodes[n]).continuations = []
  · have hc : w.continuations_of n = [] := by simp [World.continuations_of, hnode, he]
    simp [he, hc, drain_of_nil w n hc, detail.shared_state.launch_each_cb, for_each]
  · have hne : (w.nodes[n]).continuations.isEmpty = false := by
      simpa [List.isEmpty_iff] using he
    simp [hne, World.continuations_of, World.drain, hnode, detail.shared_state.launch_each_cb]

theorem mark_finished_cb_eq (act : done_callback → Option R) (fuel : Nat) (w : World R)
    (self n : Nat) (v : R)
    (hstate : (w.futures[self]?).bind (fun f => f.state_) = some n) :
    future.mark_finished_with_result_cb act (fuel + 1) w self v
      = detail.shared_state.do_continuation_cb act fuel (w.store self v) n := by
  rw [future.mark_finished_with_result_cb]
  cases hme : w.futures[self]? with
  | none => simp [hme] at hstate
  | some me =>
    have hlt : self < w.futures.length := (List.getElem?_eq_some_iff.mp hme).1
    simp only [hme, Option.some_bind] at hstate
    simp [future.set_done, hlt, hstate, World.store, hme, volatile_store, World.put]

theorem launch_each_cb_trace (act : done_callback → Option R) (fuel : Nat) (cs : List Nat)
    (w w1 : World R) (hr : detail.shared_state.launch_each_cb act fuel cs w = some w1) :
    ∃ t, w1.launched = w.launched ++ t ∧ cs.Sublist t :=
  (launch_each_ran act 0 fuel (ran_all act 0 fuel).2.2.2.2.1 cs w w1 hr).2

/-- C6, amended. The `is_done()` call on which the poll closure of a future
with a live node `n` answers true. If the closure only reports, the call sets
the flag, answers true, launches nothing and leaves the list of `n` as it was.
If the closure fulfils the future it is handed (`set_value(v)`), the call is:
the result and the flag stored, the list of `n` moved out, then
`launch_continuation()` on each node that was registered, in order, and
`set_done()` at the end; so when it returns it has answered true and every
registered node was launched inside it, in registration order. -/
theorem C6_poll_notifies_when_closure_fulfils (act : done_callback → Option R)
    (fuel : Nat) (w : World R) (self n : Nat) (me : future R) (cb : done_callback)
    (hme : w.futures[self]? = some me) (hcb : me.done_callback_ = some cb)
    (htrue : cb.answers cb.calls = true) (hst : me.state_ = some n)
    (hn : n < w.nodes.length) :
    (act cb = none →
      ∃ w1, future.is_done_cb act (fuel + 1) w self = some (true, w1)
        ∧ w1.flag self = some true
        ∧ w1.launched = w.launched
        ∧ w1.continuations_of n = w.continuations_of n)
    ∧ (∀ v, act cb = some v →
        future.is_done_cb act (fuel + 4) w self =
          (match detail.shared_state.launch_each_cb act fuel (w.continuations_of n)
              (((w.put self { me with done_callback_ := some cb.invoke.2 }).store self v).drain
                n) with
           | none => none
           | some w2 =>
             match future.set_done w2 self with
             | none => none
             | some w3 => some (true, w3))
        ∧ ∀ r, future.is_done_cb act (fuel + 4) w self = some r →
            r.1 = true
            ∧ ∃ t, r.2.launched = w.launched ++ t ∧ (w.continuations_of n).Sublist t) := by
  have hlt : self < w.futures.length := (List.getElem?_eq_some_iff.mp hme).1
  have hans : cb.invoke.1 = true := htrue
  constructor
  · intro hact
    refine ⟨(w.put self { me with done_callback_ := some cb.invoke.2 }).put self
      { ({ me with done_callback_ := some cb.invoke.2 } : future R) with
        done_ := volatile_store me.done_ true }, ?_, ?_, rfl, rfl⟩
    · rw [future.is_done_cb]
      simp only [hme, hcb, hact, hans]
      simp [future.set_done, hlt]
    · simp [World.flag, hlt, volatile_store]
  · intro v hact
    have hstate1 : ((w.put self { me with done_callback_ := some cb.invoke.2 }).futures[self]?).bind
        (fun f => f.state_) = some n := by
      simp [hlt, hst]
    have hn1 : n < ((w.put self { me with done_callback_ := some cb.invoke.2 }).store self
        v).nodes.length := by
      rw [store_nodes]; exact hn
    have hconts : ((w.put self { me with done_callback_ := some cb.invoke.2 }).store self
        v).continuations_of n = w.continuations_of n :=
      continuations_of_congr _ _ (by rw [store_nodes]; rfl) n
    have heq : future.is_done_cb act (fuel + 4) w self =
        (match detail.shared_state.launch_each_cb act fuel (w.continuations_of n)
            (((w.put self { me with done_callback_ := some cb.invoke.2 }).store self v).drain
              n) with
         | none => none
         | some w2 =>
           match future.set_done w2 self with
           | none => none
           | some w3 => some (true, w3)) := by
      rw [future.is_done_cb]
      simp only [hme, hcb, hact, hans]
      rw [future.set_value_cb, mark_finished_cb_eq act (fuel + 1) _ self n v hstate1,
        do_continuation_cb_eq act fuel _ n hn1, hconts]
      rfl
    refine ⟨heq, ?_⟩
    intro r hr
    rw [heq] at hr
    split at hr
    · simp at hr
    · rename_i w2 hl
      split at hr
      · simp at hr
      · rename_i w3 hs
        simp at hr; subst hr
        obtain ⟨t, ht, hsub⟩ := launch_each_cb_trace act fuel _ _ _ hl
        refine ⟨rfl, t, ?_, hsub⟩
        rw [(set_done_frame _ _ _ hs).2.1, ht]
        simp [World.drain, store_launched]
        split <;> simp [store_launched]

/-- C6 as stated fails for a closure that only reports. In `waiting_world` the
continuation node 1 is registered on node 0, the node of the polled future at
address 1, whose closure has answered false once and answers true from now on.
The `is_done()` call on which it first answers true returns true and sets the
flag, and the list of node 0 still holds node 1 and nothing was launched. -/
theorem C6_report_only_poll_launches_nothing :
    ((future.is_done_cb (fun _ => none) 1 (waiting_world 2 1 false (Val.int 0) 1 false) 1).map
        (fun r => (r.1, r.2.flag 1))) = some (true, some true)
    ∧ ((future.is_done_cb (fun _ => none) 1 (waiting_world 2 1 false (Val.int 0) 1 false) 1).map
        (fun r => r.2.launched)) = some []
    ∧ ((future.is_done_cb (fun _ => none) 1 (waiting_world 2 1 false (Val.int 0) 1 false) 1).map
        (fun r => r.2.continuations_of 0)) = some [1]
    ∧ (waiting_world 2 1 false (Val.int 0) 1 false).continuations_of 0 = [1] := by
  refine ⟨by decide!, by decide!, by decide!, by decide⟩

/-- C6 at `waiting_world`, on the poll on which the closure first answers true:
with a closure that fulfils the future the registered node 1 is launched inside
the call; with a closure that only reports nothing is launched. -/
theorem C6_poll_notifies_when_closure_fulfils_witness :
    (∃ r, future.is_done_cb (done_callback.fulfils (Val.int 7)) 9
        (waiting_world 2 1 false (Val.int 0) 1 false) 1 = some r
      ∧ r.1 = true
      ∧ r.2.launched = [1]
      ∧ r.2.continuations_of 0 = [])
    ∧ (∃ w1, future.is_done_cb (fun _ => none) 6
        (waiting_world 2 1 false (Val.int 0) 1 false) 1 = some (true, w1)
      ∧ w1.launched = []
      ∧ w1.continuations_of 0 = [1]) := by
  constructor
  · have hC := (C6_poll_notifies_when_closure_fulfils (done_callback.fulfils (Val.int 7)) 5
      (waiting_world 2 1 false (Val.int 0) 1 false) 1 0
      { done_ := false,
        done_callback_ :=
          some { answers := (done_callback.first_true_at 2).answers, calls := 1 },
        result_ := Val.int 0, state_ := some 0 }
      { answers := (done_callback.first_true_at 2).answers, calls := 1 }
      rfl rfl (by decide) rfl (by decide)).2 (Val.int 7) (by decide)
    obtain ⟨r, hr⟩ := Option.isSome_iff_exists.mp
      (by decide! : (future.is_done_cb (done_callback.fulfils (Val.int 7)) 9
        (waiting_world 2 1 false (Val.int 0) 1 false) 1).isSome = true)
    have e1 : ((future.is_done_cb (done_callback.fulfils (Val.int 7)) 9
        (waiting_world 2 1 false (Val.int 0) 1 false) 1).map (fun r => r.2.launched))
        = some [1] := by decide!
    have e2 : ((future.is_done_cb (done_callback.fulfils (Val.int 7)) 9
        (waiting_world 2 1 false (Val.int 0) 1 false) 1).map
        (fun r => r.2.continuations_of 0)) = some [] := by decide!
    rw [hr] at e1 e2
    simp only [Option.map_some', Option.some.injEq] at e1 e2
    exact ⟨r, hr, (hC.2 r hr).1, e1, e2⟩
  · obtain ⟨w1, h1, _, h3, h4⟩ := (C6_poll_notifies_when_closure_fulfils (fun _ => none) 5
      (waiting_world 2 1 false (Val.int 0) 1 false) 1 0
      { done_ := false,
        done_callback_ :=
          some { answers := (done_callback.first_true_at 2).answers, calls := 1 },
        result_ := Val.int 0, state_ := some 0 }
      { answers := (done_callback.first_true_at 2).answers, calls := 1 }
      rfl rfl (by decide) rfl (by decide)).1 rfl
    exact ⟨w1, h1, h3, h4⟩

/-! ## C7: attaching to a future that completes on the attaching poll -/

theorem launch_cb_empties_precondition (act : done_callback → Option R) (fuel : Nat)
    (w w1 : World R) (c pre alt : Nat) (func : ContinuationF R)
    (hdyn : w.dyn_of c = some (.continuation_shared_state pre func alt))
    (hl : detail.shared_state.launch_continuation_cb act fuel w c = some w1) :
    w1.live pre = false := by
  simp only [World.dyn_of, Option.map_eq_some'] at hdyn
  obtain ⟨node, hnode, hd⟩ := hdyn
  cases fuel with
  | zero => simp [detail.shared_state.launch_continuation_cb] at hl
  | succ k =>
    rw [detail.shared_state.launch_continuation_cb] at hl
    simp only [hnode, hd] at hl
    split at hl
    · simp at hl
    · rename_i ret w2 hcall
      split at hl
      · simp at hl
      · rename_i w3 hm
        unfold future.move_assign at hl
        split at hl
        · simp at hl
        · rename_i o ho
          split at hl
          · rename_i hlt
            simp at hl; subst hl
            have ho1 : o.state_ = none := by
              simp [future.ctor_state] at ho
              rw [← ho]
            by_cases hp : (future.ctor_state w3 none).1 = pre
            · simp [World.live, hp, hlt]
            · simp [World.live, List.getElem?_set_ne hp, hlt, ho1]
          · simp at hl

theorem set_done_live (w w1 : World R) (a x : Nat) (hs : future.set_done w a = some w1) :
    w1.live x = w.live x := by
  unfold future.set_done at hs
  split at hs
  · simp at hs
  · rename_i me hme
    simp at hs; subst hs
    have hlt : a < w.futures.length := (List.getElem?_eq_some_iff.mp hme).1
    by_cases hax : a = x
    · subst hax; simp [World.live, hme, hlt]
    · simp [World.live, List.getElem?_set_ne hax]

/-- The poll of line 203 on a future that is the `precondition_` of the node it
just registered, when its closure fulfils it: whenever the poll returns, the
node was launched inside it and the future's handle is null. -/
theorem poll_launches_own_node (act : done_callback → Option R) (w : World R)
    (self n c alt : Nat) (func : ContinuationF R) (me : future R) (cb : done_callback)
    (v : R) (L : List Nat)
    (hme : w.futures[self]? = some me) (hcb : me.done_callback_ = some cb)
    (hact : act cb = some v) (hst : me.state_ = some n)
    (hlist : w.continuations_of n = L ++ [c])
    (hdyn : w.dyn_of c = some (.continuation_shared_state self func alt)) :
    ∀ (fuel : Nat) (r : Bool × World R), future.is_done_cb act fuel w self = some r →
      r.1 = cb.answers cb.calls ∧ r.2.live self = false
        ∧ ∃ t, r.2.launched = w.launched ++ t ∧ c ∈ t := by
  intro fuel r hr
  have hlt : self < w.futures.length := (List.getElem?_eq_some_iff.mp hme).1
  have hn : n < w.nodes.length := by
    by_contra hge
    have : w.nodes[n]? = none := List.getElem?_eq_none_iff.mpr (Nat.le_of_not_lt hge)
    simp [World.continuations_of, this] at hlist
  have hc : c < w.nodes.length := by
    simp only [World.dyn_of, Option.map_eq_some'] at hdyn
    obtain ⟨node, hnode, _⟩ := hdyn
    exact (List.getElem?_eq_some_iff.mp hnode).1
  -- what `set_value(v)` inside the closure leaves
  have hsv : ∀ (k : Nat) (w2 : World R),
      future.set_value_cb act k (w.put self { me with done_callback_ := some cb.invoke.2 })
        self v = some w2 →
      w2.live self = false ∧ ∃ t, w2.launched = w.launched ++ t ∧ c ∈ t := by
    intro k w2 h2
    have hstate1 : ((w.put self
        { me with done_callback_ := some cb.invoke.2 }).futures[self]?).bind
        (fun f => f.state_) = some n := by
      simp [hlt, hst]
    cases k with
    | zero => simp [future.set_value_cb] at h2
    | succ k1 =>
      rw [future.set_value_cb] at h2
      cases k1 with
      | zero => simp [future.mark_finished_with_result_cb] at h2
      | succ k2 =>
        rw [mark_finished_cb_eq act k2 _ self n v hstate1] at h2
        cases k2 with
        | zero => simp [detail.shared_state.do_continuation_cb] at h2
        | succ k3 =>
          rw [do_continuation_cb_eq act k3 _ n (by rw [store_nodes]; exact hn)] at h2
          have hconts : ((w.put self { me with done_callback_ := some cb.invoke.2 }).store
              self v).continuations_of n = L ++ [c] := by
            have e : ((w.put self { me with done_callback_ := some cb.invoke.2 }).store
                self v).continuations_of n = w.continuations_of n :=
              continuations_of_congr _ _ (by rw [store_nodes]; rfl) n
            rw [e]; exact hlist
          rw [hconts] at h2
          obtain ⟨t, ht, hsub⟩ := launch_each_cb_trace act k3 _ _ _ h2
          unfold detail.shared_state.launch_each_cb at h2
          rw [for_each_append] at h2
          cases hm : for_each
              (fun wi cont => detail.shared_state.launch_continuation_cb act k3 wi cont) L
              (((w.put self { me with done_callback_ := some cb.invoke.2 }).store
                self v).drain n) with
          | none => simp [hm] at h2
          | some wm =>
            simp only [hm, Option.some_bind, for_each] at h2
            cases hl : detail.shared_state.launch_continuation_cb act k3 wm c with
            | none => simp [hl] at h2
            | some w5 =>
              simp only [hl, Option.some.injEq] at h2
              subst h2
              have hran := (launch_each_ran act 0 k3 (ran_all act 0 k3).2.2.2.2.1 L _ _ hm).1
              have hdg := drain_grow ((w.put self
                { me with done_callback_ := some cb.invoke.2 }).store self v) n
              have hc1 : c < ((w.put self
                  { me with done_callback_ := some cb.invoke.2 }).store self v).nodes.length := by
                rw [store_nodes]; exact hc
              have hdynm : wm.dyn_of c
                  = some (.continuation_shared_state self func alt) := by
                rw [hran.2.2.1 c (by rw [drain_length]; exact hc1), hdg.2.1 c hc1]
                simpa [World.dyn_of, store_nodes] using hdyn
              refine ⟨launch_cb_empties_precondition act k3 wm w5 c self alt func hdynm hl,
                t, ?_, ?_⟩
              · rw [ht, drain_launched, store_launched]; rfl
              · exact hsub.subset (by simp)
  cases fuel with
  | zero => simp [future.is_done_cb] at hr
  | succ k =>
    rw [future.is_done_cb] at hr
    simp only [hme, hcb, hact] at hr
    cases h2 : future.set_value_cb act k
        (w.put self { me with done_callback_ := some cb.invoke.2 }) self v with
    | none => simp [h2] at hr
    | some w2 =>
      simp only [h2] at hr
      obtain ⟨hlive, t, ht, hmem⟩ := hsv k w2 h2
      split at hr
      · rename_i hneg
        simp at hr; subst hr
        refine ⟨?_, hlive, t, ht, hmem⟩
        simpa [done_callback.invoke] using hneg
      · rename_i hpos
        split at hr
        · simp at hr
        · rename_i w3 hs
          simp at hr; subst hr
          refine ⟨?_, ?_, t, ?_, hmem⟩
          · simpa [done_callback.invoke] using hpos
          · rw [set_done_live _ _ _ _ hs]; exact hlive
          · rw [(set_done_frame _ _ _ hs).2.1]; exact ht

/-- Attaching the node of which the future is the `precondition_`, when the
closure fulfils the future on the poll of line 203 and answers true: line 204
dereferences a null handle. -/
theorem set_continuation_ptr_cb_null (act : done_callback → Option R) (w : World R)
    (self n c alt : Nat) (func : ContinuationF R) (me : future R) (cb : done_callback)
    (v : R)
    (hme : w.futures[self]? = some me) (hcb : me.done_callback_ = some cb)
    (hact : act cb = some v) (htrue : cb.answers cb.calls = true)
    (hst : me.state_ = some n) (hn : n < w.nodes.length)
    (hdyn : w.dyn_of c = some (.continuation_shared_state self func alt)) :
    (∀ fuel, future.set_continuation_ptr_cb act fuel w self c = none)
    ∧ ∃ wa, detail.shared_state.set_continuation_ptr w n c = some wa
        ∧ wa.continuations_of n = w.continuations_of n ++ [c]
        ∧ ∀ (fuel : Nat) (r : Bool × World R), future.is_done_cb act fuel wa self = some r →
            r.1 = true ∧ r.2.live self = false
              ∧ ∃ t, r.2.launched = w.launched ++ t ∧ c ∈ t := by
  have hnode : w.nodes[n]? = some w.nodes[n] := List.getElem?_eq_getElem hn
  have hset : detail.shared_state.set_continuation_ptr w n c
      = some (w.put_node n
          { w.nodes[n] with continuations := (w.nodes[n]).continuations ++ [c] }) := by
    simp only [detail.shared_state.set_continuation_ptr, hnode]
  have hlist : (w.put_node n
      { w.nodes[n] with continuations := (w.nodes[n]).continuations ++ [c] }).continuations_of n
      = w.continuations_of n ++ [c] := by
    simp [World.continuations_of, hnode, hn]
  have hdyna : (w.put_node n
      { w.nodes[n] with continuations := (w.nodes[n]).continuations ++ [c] }).dyn_of c
      = some (.continuation_shared_state self func alt) := by
    have hc : c < w.nodes.length := by
      simp only [World.dyn_of, Option.map_eq_some'] at hdyn
      obtain ⟨node, hnode1, _⟩ := hdyn
      exact (List.getElem?_eq_some_iff.mp hnode1).1
    rw [(World.Ran.pushed 0 _ _ _ _ hset).1.2.2.1 c hc]
    exact hdyn
  have hpoll := poll_launches_own_node act _ self n c alt func me cb v (w.continuations_of n)
    (by simpa using hme) hcb hact hst hlist hdyna
  refine ⟨?_, _, hset, hlist, ?_⟩
  · intro fuel
    unfold future.set_continuation_ptr_cb
    simp only [hme, hst, hset]
    cases hd : future.is_done_cb act fuel (w.put_node n
        { w.nodes[n] with continuations := (w.nodes[n]).continuations ++ [c] }) self with
    | none => rfl
    | some r =>
      obtain ⟨b, wb⟩ := r
      obtain ⟨hb, hlive, _⟩ := hpoll fuel (b, wb) hd
      simp only [htrue] at hb
      subst hb
      have hnone : (wb.futures[self]?).bind (fun me2 => me2.state_) = none := by
        cases hx : (wb.futures[self]?).bind (fun me2 => me2.state_) with
        | none => rfl
        | some y => simp [World.live, hx] at hlive
      simp only [hnone]
  · intro fuel r hr
    obtain ⟨hb, hlive, t, ht, hmem⟩ := hpoll fuel r hr
    exact ⟨by rw [hb, htrue], hlive, t, by simpa using ht, hmem⟩

/-- C7 (the code at every memory, and at the failing input). Let the poll
closure of a future holding the node `n` fulfil the future on its next
invocation and answer true, so that `is_done()` would return true. For every
continuation node `c` of which the future is the `precondition_` (the node that
`init()` attaches), `future::set_continuation_ptr(c)` appends `c`, and the poll
of line 203, whenever it returns, has answered true, has launched `c` and has
left the handle of the future null: the launch assigned an empty placeholder
to `precondition_`. Line 204 then dereferences that handle, and the call never
returns, whatever the fuel. Hence `then()` on such a future never returns. -/
theorem C7_late_attachment_null_handle (act : done_callback → Option R) (w : World R)
    (self n : Nat) (me : future R) (cb : done_callback) (v : R)
    (hme : w.futures[self]? = some me) (hcb : me.done_callback_ = some cb)
    (hact : act cb = some v) (htrue : cb.answers cb.calls = true)
    (hst : me.state_ = some n) (hn : n < w.nodes.length) :
    (∀ (c alt : Nat) (func : ContinuationF R),
      w.dyn_of c = some (.continuation_shared_state self func alt) →
      (∀ fuel, future.set_continuation_ptr_cb act fuel w self c = none)
      ∧ ∃ wa, detail.shared_state.set_continuation_ptr w n c = some wa
          ∧ wa.continuations_of n = w.continuations_of n ++ [c]
          ∧ ∀ (fuel : Nat) (r : Bool × World R),
              future.is_done_cb act fuel wa self = some r →
              r.1 = true ∧ r.2.live self = false
                ∧ ∃ t, r.2.launched = w.launched ++ t ∧ c ∈ t)
    ∧ (∀ (func : ContinuationF R) (fuel : Nat), future.then_cb act fuel w self func = none) := by
  constructor
  · intro c alt func hdyn
    exact set_continuation_ptr_cb_null act w self n c alt func me cb v hme hcb hact htrue hst
      hn hdyn
  · intro func fuel
    obtain ⟨W3, hF3, hN3, _, hmcf, hinit⟩ :=
      make_continuation_future_cb_eq act fuel w self func me hme
    have hlenF : (w.futures.set self
        { me with done_callback_ := none, state_ := none }).length = w.futures.length := by
      simp
    have hme3 : W3.futures[w.futures.length]? = some me := by
      rw [hF3, List.getElem?_append_right (by simp)]; simp
    have hn3 : n < W3.nodes.length := by rw [hN3]; simp; omega
    have hdyn3 : W3.dyn_of w.nodes.length
        = some (.continuation_shared_state w.futures.length func (w.futures.length + 1)) := by
      simp [World.dyn_of, hN3]
    have hnull := (set_continuation_ptr_cb_null act W3 w.futures.length n w.nodes.length
      (w.futures.length + 1) func me cb v hme3 hcb hact htrue hst hn3 hdyn3).1 fuel
    unfold future.then_cb
    rw [hmcf, hinit, hnull]

/-- C7 at the failing input. In `attaching_world` the polled future at address
1 is the `precondition_` of the continuation node 1, and its closure fulfils it
and answers true on its first poll. `set_continuation_ptr(1)` on it never
returns: the poll made after the append returns true, having launched node 1
and left the handle of the future null. The same on `A.then(c)` for a polled
future `A` of that kind. -/
theorem C7_late_attachment_null_handle_witness :
    (∀ fuel, future.set_continuation_ptr_cb (done_callback.fulfils (Val.int 7)) fuel
        attaching_world 1 1 = none)
    ∧ ((detail.shared_state.set_continuation_ptr attaching_world 0 1).bind
        (fun wa => (future.is_done_cb (done_callback.fulfils (Val.int 7)) 12 wa 1).map
          (fun r => (r.1, r.2.live 1, r.2.launched)))) = some (true, false, [1])
    ∧ (∀ fuel, future.then_cb (done_callback.fulfils (Val.int 7)) fuel
        (polling_world false (Val.int 0) (done_callback.first_true_at 1).answers 0 false) 0
        (.wrapped (fun v => Val.bool (v == Val.int 7))) = none) := by
  refine ⟨?_, by decide!, ?_⟩
  · exact ((C7_late_attachment_null_handle (done_callback.fulfils (Val.int 7))
      attaching_world 1 0
      { done_ := false, done_callback_ := some (done_callback.first_true_at 1),
        result_ := Val.int 0, state_ := some 0 }
      (done_callback.first_true_at 1) (Val.int 7)
      rfl rfl (by decide) (by decide) rfl (by decide)).1 1 2
      (.wrapped (fun v => Val.bool (v == Val.int 7))) rfl).1
  · intro fuel
    exact (C7_late_attachment_null_handle (done_callback.fulfils (Val.int 7))
      (polling_world false (Val.int 0) (done_callback.first_true_at 1).answers 0 false) 0 0
      { done_ := false,
        done_callback_ := some { answers := (done_callback.first_true_at 1).answers, calls := 0 },
        result_ := Val.int 0, state_ := some 0 }
      { answers := (done_callback.first_true_at 1).answers, calls := 0 } (Val.int 7)
      rfl rfl (by decide) (by decide) rfl (by decide)).2
      (.wrapped (fun v => Val.bool (v == Val.int 7))) fuel
